import Mathlib

/-!
# Steganography engines: LSB, block DCT and Haar DWT

A shallow embedding of `internal/stegnography/{lsb,dct,dwt}.go`.

* A Go `string` / `[]byte` is a `List Byte` with `Byte = Fin 256`.
* An `*image.RGBA` whose bounds start at the origin is an `Image`: width, height and a
  pixel function. `Image.At` and `Image.Set` keep the bounds test of the Go methods.
* `float64` computations are carried out over `ℝ`; the conversion `uint8(v)` of a value
  already clamped to `[0,255]` is `⌊v⌋`. Where the rounding of `float64` decides the outcome,
  the DWT embedding is repeated with every operation rounded (`EmbedTextF`) and the DCT
  extraction with a parameter for the coefficients the machine computes (`ExtractTextF`).
* A runtime panic (index out of range) is the outcome `Result.fault`.
-/

namespace Stego

/-! ## Data model -/

/-- An 8-bit unsigned value (`uint8`, `byte`). -/
abbrev Byte := Fin 256

/-- A Go string, seen as its bytes. -/
abbrev Text := List Byte

/-- The Go value `color.RGBA`. -/
structure Color where
  R : Byte
  G : Byte
  B : Byte
  A : Byte
deriving DecidableEq, Repr

/-- The method `color.RGBA.RGBA()`: each channel `c` widened to 16 bits as `c | c << 8`. -/
def Color.RGBA (c : Color) : Nat × Nat × Nat × Nat :=
  (c.R.val ||| (c.R.val <<< 8), c.G.val ||| (c.G.val <<< 8),
   c.B.val ||| (c.B.val <<< 8), c.A.val ||| (c.A.val <<< 8))

/-- The conversion `uint8(n)` of an unsigned integer. -/
def toUInt8 (n : Nat) : Byte := Fin.ofNat n

/-- An `*image.RGBA` with bounds `(0,0)-(w,h)`. -/
structure Image where
  w : Nat
  h : Nat
  pix : Nat → Nat → Color

/-- The method `(*image.RGBA).At`: the zero colour outside the bounds. -/
def Image.At (img : Image) (x y : Nat) : Color :=
  if x < img.w ∧ y < img.h then img.pix x y else ⟨0, 0, 0, 0⟩

/-- The method `(*image.RGBA).Set`: nothing happens outside the bounds. -/
def Image.Set (img : Image) (x y : Nat) (c : Color) : Image :=
  if x < img.w ∧ y < img.h then
    { img with pix := fun x' y' => if x' = x ∧ y' = y then c else img.pix x' y' }
  else img

/-- The function `image.NewRGBA` on bounds `(0,0)-(w,h)`: all channels zero. -/
def NewRGBA (w h : Nat) : Image := ⟨w, h, fun _ _ => ⟨0, 0, 0, 0⟩⟩

/-- What a call of `EmbedText` or `ExtractText` ends in. -/
inductive Result (α : Type) where
  | ok (v : α)
  | geometryError
  | capacityError
  | fault
deriving Repr

/-! ## Loops -/

/-- The loop `for i := lo; i < lo + n && cond(s); i++ { s = body(i, s) }`. -/
def forWhile {σ : Type} (cond : σ → Bool) (body : Nat → σ → σ) : Nat → Nat → σ → σ
  | _, 0, s => s
  | lo, n + 1, s => if cond s then forWhile cond body (lo + 1) n (body lo s) else s

/-- The loop `for i := lo; i < lo + n; i++ { s = body(i, s) }`. -/
def forRange {σ : Type} (body : Nat → σ → σ) (lo n : Nat) (s : σ) : σ :=
  forWhile (fun _ => true) body lo n s

/-- Where control is after a loop body that may `return`. -/
inductive Flow (ρ σ : Type) where
  | ret (r : ρ)
  | next (s : σ)

/-- The loop `for i := lo; i < lo + n; i++ { body }` whose body may `return`. -/
def forFlow {ρ σ : Type} (body : Nat → σ → Flow ρ σ) : Nat → Nat → σ → Flow ρ σ
  | _, 0, s => .next s
  | lo, n + 1, s =>
    match body lo s with
    | .ret r => .ret r
    | .next s' => forFlow body (lo + 1) n s'

/-! ## Bitstream codec (`dwt.go`) -/

/-- The eight bits of a byte, most significant first: `(b >> i) & 1` for `i = 7 .. 0`. -/
def byteBits (b : Byte) : List Nat :=
  [7, 6, 5, 4, 3, 2, 1, 0].map (fun i => (b.val >>> i) &&& 1)

/-- The function `textToBits`: the bits of every byte, then eight zero bits. -/
def textToBits (text : Text) : List Nat :=
  text.flatMap byteBits ++ [7, 6, 5, 4, 3, 2, 1, 0].map (fun _ => 0)

/-- The inner loop of `bitsToText`: `b = b<<1 | byte(bit)` over eight bits, from `b = 0`. -/
def packByte (bits : List Nat) : Byte :=
  bits.foldl (fun b bit => toUInt8 ((b.val <<< 1) % 256 ||| (bit % 256))) 0

/-- The function `bitsToText`: one byte per complete group of eight bits. -/
def bitsToText : List Nat → Text
  | b0 :: b1 :: b2 :: b3 :: b4 :: b5 :: b6 :: b7 :: rest =>
    packByte [b0, b1, b2, b3, b4, b5, b6, b7] :: bitsToText rest
  | _ => []

/-- The end-marker test of the transform engines, run after every appended bit: at a multiple
of eight bits, a decoded text ending in a zero byte is returned without that byte. -/
def endMarker (bits : List Nat) : Option Text :=
  if bits.length % 8 = 0 then
    let text := bitsToText bits
    if text.length > 0 ∧ text.getLast? = some 0 then some text.dropLast else none
  else none

/-- The function `isPowerOfTwo`: `n > 0 && (n&(n-1)) == 0`. -/
def isPowerOfTwo (n : Int) : Bool :=
  decide (n > 0) && (Int.land n (n - 1) == 0)

/-! ## LSB engine (`lsb.go`) -/

namespace LSB

/-- The verb `%08b` applied to a byte: its eight binary digits. -/
def fmt08b (b : Byte) : List Char :=
  [7, 6, 5, 4, 3, 2, 1, 0].map (fun i => if (b.val >>> i) % 2 = 1 then '1' else '0')

/-- The string `binString` of `EmbedText`: the text bytes and the end marker `0`. -/
def binString (text : Text) : List Char :=
  (text ++ [0]).flatMap fmt08b

/-- The variables the embedding loop updates. -/
structure EmbedState where
  rgba : Image
  binIndex : Nat

/-- The body of the inner embedding loop at pixel `(x, y)`. -/
def embedPixel (bin : List Char) (y x : Nat) (s : EmbedState) : EmbedState :=
  let c := (s.rgba.At x y).RGBA
  let r8 := toUInt8 (c.1 >>> 8)
  let g8 := toUInt8 (c.2.1 >>> 8)
  let b8 := toUInt8 (c.2.2.1 >>> 8)
  let a8 := toUInt8 (c.2.2.2 >>> 8)
  let r8' : Byte := if bin.getD s.binIndex '0' = '1' then toUInt8 (r8.val ||| 1)
    else toUInt8 (r8.val &&& 0xFE)
  { rgba := s.rgba.Set x y ⟨r8', g8, b8, a8⟩, binIndex := s.binIndex + 1 }

/-- The first loop nest of `EmbedText`: every pixel of `img` is set in a fresh image. -/
def copyImage (img : Image) : Image :=
  forRange (fun y rgba => forRange (fun x rgba => rgba.Set x y (img.At x y)) 0 img.w rgba)
    0 img.h (NewRGBA img.w img.h)

/-- The method `(*LSB).EmbedText`. -/
def EmbedText (img : Image) (text : Text) : Result Image :=
  let rgba := copyImage img
  let bin := binString text
  let binLen := bin.length
  if binLen > img.w * img.h then .capacityError
  else
    let s := forWhile (fun s => decide (s.binIndex < binLen))
      (fun y s => forWhile (fun s => decide (s.binIndex < binLen)) (embedPixel bin y) 0 img.w s)
      0 img.h ⟨rgba, 0⟩
    .ok s.rgba

/-- The variables the extraction loop updates. -/
structure ExtractState where
  result : List Byte
  bitCount : Nat
  currentByte : Byte

/-- The body of the inner extraction loop at pixel `(x, y)`. -/
def extractPixel (img : Image) (y x : Nat) (s : ExtractState) : Flow Text ExtractState :=
  let r8 := toUInt8 ((img.At x y).RGBA.1 >>> 8)
  let bit := r8.val &&& 1
  let currentByte := toUInt8 ((s.currentByte.val <<< 1) % 256 ||| bit)
  let bitCount := s.bitCount + 1
  if bitCount = 8 then
    if currentByte = 0 then .ret s.result
    else .next ⟨s.result ++ [currentByte], 0, 0⟩
  else .next ⟨s.result, bitCount, currentByte⟩

/-- The method `(*LSB).ExtractText`; its error is always `nil`. -/
def ExtractText (img : Image) : Result Text :=
  match forFlow (fun y s => forFlow (extractPixel img y) 0 img.w s) 0 img.h ⟨[], 0, 0⟩ with
  | .ret r => .ok r
  | .next s => .ok s.result

end LSB

/-! ## Block DCT engine (`dct.go`) -/

namespace DCTSteganography

/-- The field `blockSize`, which `NewDCTSteganography` sets to 8. -/
def blockSize : Nat := 8

/-- An 8×8 `[][]float64`, indexed `block[i][j]`. -/
abbrev Block := Fin 8 → Fin 8 → ℝ

/-- The method `getBlock`: `block[i][j] = float64(r >> 8)` of the pixel `(x+j, y+i)`. -/
noncomputable def getBlock (img : Image) (x y : Nat) : Block :=
  fun i j => (((img.At (x + j.val) (y + i.val)).RGBA.1 >>> 8 : Nat) : ℝ)

/-- The expression `uint8(math.Max(0, math.Min(255, v)))`. -/
noncomputable def clampToUInt8 (v : ℝ) : Byte :=
  toUInt8 ⌊max 0 (min 255 v)⌋₊

/-- The method `setBlock`: every pixel of the block becomes the grey `val` with alpha 255. -/
noncomputable def setBlock (img : Image) (block : Block) (x y : Nat) : Image :=
  forRange (fun i img => forRange (fun j img =>
      let val := clampToUInt8 (block (Fin.ofNat i) (Fin.ofNat j))
      img.Set (x + j) (y + i) ⟨val, val, val, 255⟩) 0 blockSize img)
    0 blockSize img

/-- The method `copyBlock`. -/
def copyBlock (src dst : Image) (x y : Nat) : Image :=
  forRange (fun i dst => forRange (fun j dst =>
      dst.Set (x + j) (y + i) (src.At (x + j) (y + i))) 0 blockSize dst)
    0 blockSize dst

/-- The factor `cu` (and `cv`): `1/√2` at frequency zero, else `1`. -/
noncomputable def coef (u : Fin 8) : ℝ := if u.val = 0 then 1 / Real.sqrt 2 else 1

/-- The cosine `math.Cos((2x+1) * u * π / (2n))` with `n = 8`. -/
noncomputable def basis (x u : Fin 8) : ℝ :=
  Real.cos ((2 * (x.val : ℝ) + 1) * (u.val : ℝ) * Real.pi / (2 * (blockSize : ℝ)))

/-- The method `dct2D`. -/
noncomputable def dct2D (block : Block) : Block :=
  fun u v =>
    (2 * coef u * coef v * ∑ x : Fin 8, ∑ y : Fin 8, block x y * basis x u * basis y v)
      / (blockSize : ℝ)

/-- The method `idct2D`. -/
noncomputable def idct2D (block : Block) : Block :=
  fun x y =>
    (2 * ∑ u : Fin 8, ∑ v : Fin 8, coef u * coef v * block u v * basis x u * basis y v)
      / (blockSize : ℝ)

/-- The method `preprocessBlock`: the samples shifted by `-128`. -/
noncomputable def preprocessBlock (block : Block) : Block :=
  fun i j => block i j - 128

/-- The method `postprocessBlock`: the samples shifted by `+128` and clamped to `[0,255]`. -/
noncomputable def postprocessBlock (block : Block) : Block :=
  fun i j => max 0 (min 255 (block i j + 128))

/-- The assignment `dctBlock[4][3] = v`. -/
noncomputable def setCoef (d : Block) (v : ℝ) : Block :=
  fun u w => if u = 4 ∧ w = 3 then v else d u w

/-- The variables the embedding loop updates. -/
structure EmbedState where
  output : Image
  bitIndex : Nat

/-- The body of the inner loop of `EmbedText` at the block with corner `(x, y)`. -/
noncomputable def embedBlock (img : Image) (bits : List Nat) (y x : Nat) (s : EmbedState) :
    EmbedState :=
  if s.bitIndex ≥ bits.length then
    { s with output := copyBlock img s.output x y }
  else
    let block := preprocessBlock (getBlock img x y)
    let dctBlock := dct2D block
    let dctBlock' :=
      if bits.getD s.bitIndex 0 = 1 then setCoef dctBlock (|dctBlock 4 3| + 25)
      else setCoef dctBlock (-|dctBlock 4 3| - 25)
    let idctBlock := postprocessBlock (idct2D dctBlock')
    { output := setBlock s.output idctBlock x y, bitIndex := s.bitIndex + 1 }

/-- How often `for y := 0; y < n; y += blockSize` runs its body. -/
def blockCount (n : Nat) : Nat := (n + (blockSize - 1)) / blockSize

/-- The method `(*DCTSteganography).EmbedText`. -/
noncomputable def EmbedText (img : Image) (text : Text) : Result Image :=
  let width := img.w
  let height := img.h
  if width % blockSize ≠ 0 ∨ height % blockSize ≠ 0 then .geometryError
  else
    let bits := textToBits text
    let maxBits := (width * height) / (blockSize * blockSize)
    if bits.length > maxBits then .capacityError
    else
      let s := forRange (fun by' s => forRange (fun bx s =>
          embedBlock img bits (by' * blockSize) (bx * blockSize) s) 0 (blockCount width) s)
        0 (blockCount height) ⟨NewRGBA width height, 0⟩
      .ok s.output

/-- The body of the inner loop of `ExtractText` at the block with corner `(x, y)`. -/
noncomputable def extractBlock (img : Image) (y x : Nat) (bits : List Nat) :
    Flow Text (List Nat) :=
  let dctBlock := dct2D (getBlock img x y)
  let bits' := if dctBlock 4 3 > 0 then bits ++ [1] else bits ++ [0]
  match endMarker bits' with
  | some text => .ret text
  | none => .next bits'

/-- The method `(*DCTSteganography).ExtractText`. -/
noncomputable def ExtractText (img : Image) : Result Text :=
  match forFlow (fun by' bits => forFlow (fun bx bits =>
      extractBlock img (by' * blockSize) (bx * blockSize) bits) 0 (blockCount img.w) bits)
    0 (blockCount img.h) [] with
  | .ret r => .ok r
  | .next bits => .ok (bitsToText bits)

end DCTSteganography

/-! ## Haar DWT engine (`dwt.go`) -/

namespace DWTSteganography

/-- A `[]float64`. -/
abbrev Vec := List ℝ

/-- A `[][]float64`. -/
abbrev Mat := List (List ℝ)

/-- The slice a loop `for i := 0; i < n; i++ { s[i] = f(i) }` fills. -/
def tabulate {α : Type} (n : Nat) (f : Nat → α) : List α := (List.range n).map f

/-- The element `m[i][j]` where the indices are in range. -/
def Mat.get (m : Mat) (i j : Nat) : ℝ := (m.getD i []).getD j 0

/-- Decides that `m[i][j]` is in range. -/
def Mat.inRange (m : Mat) (i j : Nat) : Bool :=
  decide (i < m.length) && decide (j < (m.getD i []).length)

/-- The assignment `m[i][j] = v` where the indices are in range. -/
def Mat.set (m : Mat) (i j : Nat) (v : ℝ) : Mat :=
  List.set m i ((m.getD i []).set j v)

/-- The method `dwt1D`: `n/2` approximation and `n/2` detail values. -/
noncomputable def dwt1D (data : Vec) : Vec × Vec :=
  let n := data.length
  (tabulate (n / 2) (fun i => (data.getD (2 * i) 0 + data.getD (2 * i + 1) 0) / Real.sqrt 2),
   tabulate (n / 2) (fun i => (data.getD (2 * i) 0 - data.getD (2 * i + 1) 0) / Real.sqrt 2))

/-- The method `idwt1D`; its callers pass slices of one length. -/
noncomputable def idwt1D (approx detail : Vec) : Vec :=
  tabulate (approx.length * 2) (fun k =>
    if k % 2 = 0 then (approx.getD (k / 2) 0 + detail.getD (k / 2) 0) / Real.sqrt 2
    else (approx.getD (k / 2) 0 - detail.getD (k / 2) 0) / Real.sqrt 2)

/-- The method `dwt2D`, returning `ll, lh, hl, hh`. It panics on `img[0]` when `img` is
empty, and on `lh[i][j2]` when a column `j ≥ cols/2` has `j2 = j - cols/2` outside a
subband row while `rows/2 > 0`. -/
noncomputable def dwt2D (img : Mat) : Option (Mat × Mat × Mat × Mat) :=
  let rows := img.length
  if rows = 0 then none
  else
    let cols := (img.getD 0 []).length
    let tempH : Mat := tabulate rows (fun i =>
      let ad := dwt1D (img.getD i [])
      tabulate cols (fun j =>
        if j < cols / 2 then ad.1.getD j 0 else ad.2.getD (j - cols / 2) 0))
    let col : Nat → Vec := fun j => tabulate rows (fun i => Mat.get tempH i j)
    if (List.range cols).all
        (fun j => decide (j < cols / 2) || decide (rows / 2 = 0)
          || decide (j - cols / 2 < cols / 2)) then
      some
        (tabulate (rows / 2) (fun i => tabulate (cols / 2) (fun j => (dwt1D (col j)).1.getD i 0)),
         tabulate (rows / 2) (fun i =>
           tabulate (cols / 2) (fun j2 => (dwt1D (col (j2 + cols / 2))).1.getD i 0)),
         tabulate (rows / 2) (fun i => tabulate (cols / 2) (fun j => (dwt1D (col j)).2.getD i 0)),
         tabulate (rows / 2) (fun i =>
           tabulate (cols / 2) (fun j2 => (dwt1D (col (j2 + cols / 2))).2.getD i 0)))
    else none

/-- The method `idwt2D`. It panics on `ll[0]` when `ll` is empty and on any of
`ll[i][j]`, `hl[i][j]`, `lh[i][j]`, `hh[i][j]` out of range. -/
noncomputable def idwt2D (ll lh hl hh : Mat) : Option Mat :=
  if ll.length = 0 then none
  else
    let rows := ll.length * 2
    let cols := (ll.getD 0 []).length * 2
    if (List.range (rows / 2)).all (fun i => (List.range (cols / 2)).all (fun j =>
        Mat.inRange ll i j && Mat.inRange hl i j && Mat.inRange lh i j && Mat.inRange hh i j))
    then
      let colLeft : Nat → Vec := fun j =>
        idwt1D (tabulate (rows / 2) (fun i => Mat.get ll i j))
          (tabulate (rows / 2) (fun i => Mat.get hl i j))
      let colRight : Nat → Vec := fun j =>
        idwt1D (tabulate (rows / 2) (fun i => Mat.get lh i j))
          (tabulate (rows / 2) (fun i => Mat.get hh i j))
      let tempH : Mat := tabulate rows (fun i => tabulate cols (fun j =>
        if j < cols / 2 then (colLeft j).getD i 0 else (colRight (j - cols / 2)).getD i 0))
      some (tabulate rows (fun i =>
        let row := idwt1D ((tempH.getD i []).take (cols / 2)) ((tempH.getD i []).drop (cols / 2))
        tabulate cols (fun j => row.getD j 0)))
    else none

/-- The slice `imgData` of `EmbedText` and `ExtractText`: the red channel as floats. -/
noncomputable def imgData (img : Image) : Mat :=
  tabulate img.h (fun i => tabulate img.w (fun j =>
    (((img.At j i).RGBA.1 >>> 8 : Nat) : ℝ)))

/-- The variables the embedding loop updates. -/
structure EmbedState where
  hl : Mat
  bitIndex : Nat

/-- The body of the inner embedding loop at the coefficient `hl[i][j]`. -/
noncomputable def embedCoef (bits : List Nat) (i j : Nat) (s : EmbedState) : EmbedState :=
  { hl := if bits.getD s.bitIndex 0 = 1 then s.hl.set i j (|s.hl.get i j| + 20)
      else s.hl.set i j (-|s.hl.get i j| - 20),
    bitIndex := s.bitIndex + 1 }

/-- The expression `uint8(math.Max(0, math.Min(255, v)))`. -/
noncomputable def clampToUInt8 (v : ℝ) : Byte :=
  toUInt8 ⌊max 0 (min 255 v)⌋₊

/-- The last loop nest of `EmbedText`: the grey output image. -/
noncomputable def outputImage (width height : Nat) (result : Mat) : Image :=
  forRange (fun y out => forRange (fun x out =>
      let val := clampToUInt8 (result.get y x)
      out.Set x y ⟨val, val, val, 255⟩) 0 width out)
    0 height (NewRGBA width height)

/-- The part of `EmbedText` after its two tests: transform, embedding loop, inverse
transform and output image. -/
noncomputable def embedBody (img : Image) (bits : List Nat) : Result Image :=
  match dwt2D (imgData img) with
  | none => .fault
  | some (ll, lh, hl, hh) =>
    let s := forWhile (fun s => decide (s.bitIndex < bits.length))
      (fun i s => forWhile (fun s => decide (s.bitIndex < bits.length))
        (embedCoef bits i) 0 (hl.getD 0 []).length s)
      0 hl.length ⟨hl, 0⟩
    match idwt2D ll lh s.hl hh with
    | none => .fault
    | some result =>
      if (List.range img.h).all (fun y => (List.range img.w).all (fun x =>
          Mat.inRange result y x)) then
        .ok (outputImage img.w img.h result)
      else .fault

/-- The method `(*DWTSteganography).EmbedText`. -/
noncomputable def EmbedText (img : Image) (text : Text) : Result Image :=
  let width := img.w
  let height := img.h
  if !isPowerOfTwo width || !isPowerOfTwo height then .geometryError
  else
    let bits := textToBits text
    if bits.length > (width * height) / 64 then .capacityError
    else embedBody img bits

/-- The body of the inner loop of `ExtractText` at the coefficient `hl[i][j]`. -/
noncomputable def extractCoef (hl : Mat) (i j : Nat) (bits : List Nat) :
    Flow Text (List Nat) :=
  let bits' := if hl.get i j > 0 then bits ++ [1] else bits ++ [0]
  match endMarker bits' with
  | some text => .ret text
  | none => .next bits'

/-- The method `(*DWTSteganography).ExtractText`. -/
noncomputable def ExtractText (img : Image) : Result Text :=
  match dwt2D (imgData img) with
  | none => .fault
  | some (_, _, hl, _) =>
    match forFlow (fun i bits => forFlow (extractCoef hl i) 0 (hl.getD 0 []).length bits)
      0 hl.length [] with
    | .ret r => .ok r
    | .next bits => .ok (bitsToText bits)

end DWTSteganography

/-! ## Auxiliary definitions for the proofs -/

/-- The state after the first `n` steps of a row-major sweep over a grid of width `W`. -/
def sweep {σ : Type} (step : Nat → Nat → σ → σ) (W : Nat) (s0 : σ) (n : Nat) : σ :=
  (List.range n).foldl (fun s k => step (k / W) (k % W) s) s0

/-- Runs a body that may `return` over a list of inputs. -/
def runFlow {α ρ σ : Type} (step : α → σ → Flow ρ σ) : List α → σ → Flow ρ σ
  | [], s => .next s
  | a :: as, s =>
    match step a s with
    | .ret r => .ret r
    | .next s' => runFlow step as s'

/-- The colour `LSB.embedPixel` writes: the red channel with its lowest bit replaced. -/
def LSB.withLSB (c : Color) (ch : Char) : Color :=
  ⟨if ch = '1' then toUInt8 (c.R.val ||| 1) else toUInt8 (c.R.val &&& 0xFE), c.G, c.B, c.A⟩

/-- The bit `LSB.extractPixel` reads from a colour: the lowest bit of the red channel. -/
def LSB.lsbOf (c : Color) : Nat := (toUInt8 (c.RGBA.1 >>> 8)).val &&& 1

/-- The body of the LSB extraction loop as a function of the bit read. -/
def LSB.lsbStep (bit : Nat) (s : LSB.ExtractState) : Flow Text LSB.ExtractState :=
  let currentByte := toUInt8 ((s.currentByte.val <<< 1) % 256 ||| bit)
  let bitCount := s.bitCount + 1
  if bitCount = 8 then
    if currentByte = 0 then .ret s.result
    else .next ⟨s.result ++ [currentByte], 0, 0⟩
  else .next ⟨s.result, bitCount, currentByte⟩

/-- The digit `'1'` stands for the bit 1, any other character for 0. -/
def LSB.charBit (ch : Char) : Nat := if ch = '1' then 1 else 0

/-- The body of the extraction loops of the transform engines as a function of the bit
appended. -/
def markerStep (bit : Nat) (bits : List Nat) : Flow Text (List Nat) :=
  match endMarker (bits ++ [bit]) with
  | some text => .ret text
  | none => .next (bits ++ [bit])

/-- The entry `result[r][c]` of `idwt2D`, from the four subband entries of its cell. -/
noncomputable def DWTSteganography.synth (ll lh hl hh : DWTSteganography.Mat) (r c : Nat) : ℝ :=
  if c % 2 = 0 then
    ((if r % 2 = 0 then ll.get (r / 2) (c / 2) + hl.get (r / 2) (c / 2)
      else ll.get (r / 2) (c / 2) - hl.get (r / 2) (c / 2))
     + (if r % 2 = 0 then lh.get (r / 2) (c / 2) + hh.get (r / 2) (c / 2)
      else lh.get (r / 2) (c / 2) - hh.get (r / 2) (c / 2))) / 2
  else
    ((if r % 2 = 0 then ll.get (r / 2) (c / 2) + hl.get (r / 2) (c / 2)
      else ll.get (r / 2) (c / 2) - hl.get (r / 2) (c / 2))
     - (if r % 2 = 0 then lh.get (r / 2) (c / 2) + hh.get (r / 2) (c / 2)
      else lh.get (r / 2) (c / 2) - hh.get (r / 2) (c / 2))) / 2

/-- The value `embedCoef` writes over a coefficient `v` for a payload bit. -/
noncomputable def DWTSteganography.enc (bit : Nat) (v : ℝ) : ℝ :=
  if bit = 1 then |v| + 20 else -|v| - 20

/-- The grey, opaque colour the transform engines write. -/
def grey (val : Byte) : Color := ⟨val, val, val, 255⟩

/-- The red channel as `getBlock` and `imgData` read it: `r >> 8`. -/
def Color.red (c : Color) : Nat := c.RGBA.1 >>> 8

/-- The `HL` entry of the cell `(i, j)` of a matrix `X`. -/
noncomputable def DWTSteganography.hlOf (X : Nat → Nat → ℝ) (i j : Nat) : ℝ :=
  (X (2 * i) (2 * j) + X (2 * i) (2 * j + 1) - X (2 * i + 1) (2 * j)
    - X (2 * i + 1) (2 * j + 1)) / 2

/-- A 512×1 image: both dimensions are powers of two and it holds `512 / 64 = 8` bits. -/
def stripImage : Image := ⟨512, 1, fun _ _ => ⟨0, 0, 0, 255⟩⟩

/-- A 4×4 sample image. -/
def sampleImage4 : Image := ⟨4, 4, fun x y => ⟨toUInt8 x, toUInt8 y, toUInt8 (x + y), 255⟩⟩

/-- A 32×32 sample image, filled as in the package's tests. -/
def sampleImage32 : Image := ⟨32, 32, fun x y => ⟨toUInt8 x, toUInt8 y, toUInt8 (x + y), 255⟩⟩

/-! ## A certificate checker for the DCT sign argument

The sign of the DCT coefficient `[4][3]` after clamping and truncation is settled by a finite
search over ranges of the embedding strength; the search is the computable function `walk`,
run on a partition of the strengths from 6.25 to 469.
Magnitudes are in units of `10⁻⁹`, strengths in units of `10⁻⁶`. -/

namespace Cert

/-- Lower bounds of the four magnitudes `|cos((2x+1)π/4) · cos((2y+1)3π/16)|`,
in increasing order, in units of `10⁻⁹`. -/
def blo (k : Nat) : Int :=
  match k with
  | 0 => 137949688
  | 1 => 392847478
  | 2 => 587937800
  | _ => 693519921

/-- Upper bounds of the four magnitudes, in units of `10⁻⁹`. -/
def bhi (k : Nat) : Int :=
  match k with
  | 0 => 137949691
  | 1 => 392847481
  | 2 => 587937803
  | _ => 693519924

/-- A lower bound of `⌊lam · β k⌋` for every strength `lam` above `a6 · 10⁻⁶`. -/
def gam (a6 : Nat) (k : Nat) : Nat := (a6 * (blo k).toNat) / 10 ^ 15

/-- A lower bound of the truncation gain of group `g`: groups `2k` are the samples of
magnitude `k` that move up, groups `2k + 1` those that move down. -/
def Gam (a6 : Nat) (g : Nat) : Int := (gam a6 (g / 2) : Int) + ((g % 2 : Nat) : Int)

/-- The end of the range that starts at `a6`: the next strength at which some gain grows. -/
def nextb (a6 : Nat) : Nat :=
  let f := fun k => ((gam a6 k + 1) * 10 ^ 15 + ((blo k).toNat - 1)) / (blo k).toNat
  min (min (f 0) (f 1)) (min (f 2) (f 3))

/-- The reduced cost `q · Γ - p · (255 - Γ)` of group `g` for the multiplier `p / q`. -/
def tau (a6 : Nat) (p q : Int) (g : Nat) : Int := q * Gam a6 g - p * (255 - Gam a6 g)

/-- The least contribution of group `g`: with a known count `m` of unsaturated samples, or
over all counts from 0 to 8. -/
def contrib (a6 : Nat) (p q : Int) (fixed : Nat → Option Nat) (g : Nat) : Int :=
  match fixed g with
  | some m => (m : Int) * tau a6 p q g
  | none => 8 * min 0 (tau a6 p q g)

/-- The coefficient of magnitude `k` in the bound. -/
def classCoef (a6 : Nat) (p q : Int) (fixed : Nat → Option Nat) (k : Nat) : Int :=
  2040 * p + contrib a6 p q fixed (2 * k) + contrib a6 p q fixed (2 * k + 1)

/-- A lower bound of `10⁹ · β k · c`. -/
def sel (k : Nat) (c : Int) : Int := if 0 ≤ c then blo k * c else bhi k * c

/-- The bound with multiplier `p / q` exceeds the budget `8 · b - 50` of the range. -/
def leafOK (a6 b6 : Nat) (fixed : Nat → Option Nat) (pq : Int × Int) : Bool :=
  decide (pq.2 * (8 * (b6 : Int) - 50000000) * 1000
    < sel 0 (classCoef a6 pq.1 pq.2 fixed 0) + sel 1 (classCoef a6 pq.1 pq.2 fixed 1)
      + sel 2 (classCoef a6 pq.1 pq.2 fixed 2) + sel 3 (classCoef a6 pq.1 pq.2 fixed 3))

/-- The multipliers tried: the cost ratios of the eight groups, then zero and a large one. -/
def cands (a6 : Nat) : List (Int × Int) :=
  [4, 6, 5, 7, 2, 3, 0, 1].filterMap (fun g =>
    if Gam a6 g < 255 then some (Gam a6 g, 255 - Gam a6 g) else none) ++ [(0, 1), (1000, 1)]

/-- Some multiplier settles the range, or the counts of the next group are split. -/
def tree (a6 b6 : Nat) : List Nat → (Nat → Option Nat) → Bool
  | [], fixed => (cands a6).any (leafOK a6 b6 fixed)
  | g :: rest, fixed =>
    (cands a6).any (leafOK a6 b6 fixed) ||
      (List.range 9).all (fun m => tree a6 b6 rest (fun g' => if g' = g then some m else fixed g'))

/-- The order in which groups are split. -/
def order : List Nat := [5, 4, 6, 3, 2, 7, 1, 0]

/-- Checks all ranges from `a6 · 10⁻⁶` up to `limit · 10⁻⁶`. -/
def walk (limit : Nat) : Nat → Nat → Bool
  | 0, a6 => decide (limit ≤ a6)
  | fuel + 1, a6 =>
    if limit ≤ a6 then true
    else tree a6 (nextb a6) order (fun _ => none) && walk limit fuel (nextb a6)

/-- What is known of the eight groups of samples of a block at the strength `lam`. -/
structure Groups (beta : Nat → ℝ) (lam : ℝ) where
  n : Nat → Int
  Gm : Nat → Int
  su : Nat → Int
  sv : Nat → Int
  n_nonneg : ∀ g, 0 ≤ n g
  n_le : ∀ g, g < 8 → n g ≤ 8
  gain : ∀ g, n g * Gm g ≤ su g
  room : ∀ g, sv g ≤ n g * (255 - Gm g)
  lower : ∀ a6 : Nat, (a6 : ℝ) / 10 ^ 6 < lam → ∀ g, g < 8 → Gam a6 g ≤ Gm g
  total : beta 0 * ((su 0 + su 1 + sv 0 + sv 1 : Int) : ℝ)
      + beta 1 * ((su 2 + su 3 + sv 2 + sv 3 : Int) : ℝ)
      + beta 2 * ((su 4 + su 5 + sv 4 + sv 5 : Int) : ℝ)
      + beta 3 * ((su 6 + su 7 + sv 6 + sv 7 : Int) : ℝ)
    ≤ 8 * lam - 50 + 2040 * (beta 0 + beta 1 + beta 2 + beta 3)
  flipped : 2040 * (beta 0 + beta 1 + beta 2 + beta 3)
    ≤ beta 0 * ((sv 0 + sv 1 : Int) : ℝ) + beta 1 * ((sv 2 + sv 3 : Int) : ℝ)
      + beta 2 * ((sv 4 + sv 5 : Int) : ℝ) + beta 3 * ((sv 6 + sv 7 : Int) : ℝ)

end Cert

/-! ## The pattern of the DCT coefficient `[4][3]`

The product `basis x 4 * basis y 3` takes four magnitudes, one per pair of columns, with a sign
that depends on the row and the column. -/

namespace DCTSteganography

/-- The four magnitudes of `cos((2y+1) · 3π/16)`, in increasing order. -/
noncomputable def gamma (k : Nat) : ℝ :=
  match k with
  | 0 => Real.cos (7 * Real.pi / 16)
  | 1 => Real.cos (5 * Real.pi / 16)
  | 2 => Real.cos (3 * Real.pi / 16)
  | _ => Real.cos (Real.pi / 16)

/-- The four magnitudes of `basis x 4 * basis y 3`, in increasing order. -/
noncomputable def beta (k : Nat) : ℝ := Real.cos (Real.pi / 4) * gamma k

/-- The magnitude class of column `y`. -/
def cls (y : Fin 8) : Nat :=
  match y.val with
  | 0 => 2
  | 1 => 0
  | 2 => 3
  | 3 => 1
  | 4 => 1
  | 5 => 3
  | 6 => 0
  | _ => 2

/-- Rows where `basis x 4` is negative. -/
def rowNeg (x : Fin 8) : Bool :=
  match x.val with
  | 1 => true
  | 2 => true
  | 5 => true
  | 6 => true
  | _ => false

/-- Columns where `basis y 3` is negative. -/
def colNeg (y : Fin 8) : Bool :=
  match y.val with
  | 1 => true
  | 2 => true
  | 3 => true
  | 7 => true
  | _ => false

/-- The sum `cos θ + cos 2θ + … + cos 7θ`. -/
noncomputable def cosSum (θ : ℝ) : ℝ :=
  Real.cos θ + Real.cos (2 * θ) + Real.cos (3 * θ) + Real.cos (4 * θ) + Real.cos (5 * θ)
    + Real.cos (6 * θ) + Real.cos (7 * θ)

/-- Samples that the embedding moves up: the sign of `basis i 4 * basis j 3` is positive,
or negative when the pattern is `flip`ped for the bit 0. -/
def up (flip : Bool) (i j : Fin 8) : Bool := (rowNeg i == colNeg j) != flip

/-- The pattern of the embedding: `± basis i 4 * basis j 3`. -/
noncomputable def pattern (flip : Bool) (i j : Fin 8) : ℝ :=
  (if up flip i j then 1 else -1) * beta (cls j)

/-- The group of a sample: `2k` for the samples of magnitude `k` that move up, `2k + 1` for
those that move down. -/
def grp (flip : Bool) (i j : Fin 8) : Nat := 2 * cls j + (if up flip i j then 0 else 1)

/-- The whole steps a sample of group `g` moves at the strength `lam`, unless it saturates. -/
noncomputable def gain (lam : ℝ) (g : Nat) : Int :=
  if g % 2 = 0 then ⌊lam * beta (g / 2)⌋ else ⌈lam * beta (g / 2)⌉

/-- The distance of a sample from the end of the range it moves to. -/
def room (flip : Bool) (F : Fin 8 → Fin 8 → Nat) (i j : Fin 8) : Int :=
  if up flip i j then 255 - (F i j : Int) else (F i j : Int)

/-- The distance that is left after the embedding. -/
noncomputable def slack (flip : Bool) (F : Fin 8 → Fin 8 → Nat) (lam : ℝ) (i j : Fin 8) : Int :=
  max 0 (room flip F i j - gain lam (grp flip i j))

/-- The sample after the embedding: `uint8` of the clamped value. -/
noncomputable def moved (flip : Bool) (F : Fin 8 → Fin 8 → Nat) (lam : ℝ) (i j : Fin 8) : Nat :=
  ⌊max (0 : ℝ) (min 255 ((F i j : ℝ) + lam * pattern flip i j))⌋₊

/-- The block `embedBlock` hands to `setBlock` for the bit `bit` over the samples `blk`. -/
noncomputable def encodeBlock (blk : Block) (bit : Nat) : Block :=
  postprocessBlock (idct2D
    (if bit = 1 then
      setCoef (dct2D (preprocessBlock blk)) (|dct2D (preprocessBlock blk) 4 3| + 25)
    else
      setCoef (dct2D (preprocessBlock blk)) (-|dct2D (preprocessBlock blk) 4 3| - 25)))

/-- The loops of `setBlock` and `copyBlock`: the pixel `(x + j, y + i)` is set to `col i j`. -/
def paint (img : Image) (col : Nat → Nat → Color) (x y : Nat) : Image :=
  forRange (fun i img => forRange (fun j (img : Image) =>
      img.Set (x + j) (y + i) (col i j)) 0 blockSize img)
    0 blockSize img

/-- The samples of the block of `img` with corner `(x, y)`. -/
def samples (img : Image) (x y : Nat) (i j : Fin 8) : Nat :=
  (img.At (x + j.val) (y + i.val)).red

/-- The sum of `X` over the samples of group `g`. -/
def gsum (flip : Bool) (X : Fin 8 → Fin 8 → Int) (g : Nat) : Int :=
  ∑ i : Fin 8, ∑ j : Fin 8, if grp flip i j = g then X i j else 0

end DCTSteganography

/-! ## Capacity query of the user interface (`ui/app.go`) -/

/-- The method `(*SteganoUI).calculateMaxCapacity`: the number of bytes the interface
announces for an image of the given size; dimensions are not negative. -/
def calculateMaxCapacity (width height : Nat) (algorithm : String) : Nat :=
  let pixelCount := width * height
  if algorithm = "LSB" then (pixelCount * 3) / 8
  else if algorithm = "DCT" then
    let blocks := (width / 8) * (height / 8)
    blocks / 8
  else if algorithm = "DWT" then pixelCount / 16
  else 0

/-! ## Reference definitions for the codec and extraction claims -/

/-- The complete groups of eight bits, in order; a shorter last group is dropped. -/
def groups8 : List Nat → List (List Nat)
  | b0 :: b1 :: b2 :: b3 :: b4 :: b5 :: b6 :: b7 :: rest =>
    [b0, b1, b2, b3, b4, b5, b6, b7] :: groups8 rest
  | _ => []

/-- The value of a group of bits read most significant bit first. -/
def msbValue (g : List Nat) : Nat := g.foldl (fun acc b => 2 * acc + b) 0

/-- The least-significant bits of the red channel of the pixels, row by row, left to
right. -/
def LSB.rasterBits (img : Image) : List Nat :=
  (List.range (img.h * img.w)).map (fun k => (img.At (k % img.w) (k / img.w)).R.val % 2)

/-- The bytes assembled most significant bit first from the raster bits, up to but excluding
the first zero byte. -/
def LSB.rasterText (img : Image) : Text :=
  ((groups8 (LSB.rasterBits img)).map (fun g => toUInt8 (msbValue g))).takeWhile
    (fun b => decide (b ≠ 0))

/-- An 8×8 colour image. -/
def sampleImage8 : Image := ⟨8, 8, fun x y => ⟨toUInt8 x, toUInt8 y, toUInt8 (x + y), 255⟩⟩

/-! ## Reference definitions for the transform claims -/

/-- A 1×512 opaque black image: both dimensions are powers of two. -/
def columnImage : Image := ⟨1, 512, fun _ _ => ⟨0, 0, 0, 255⟩⟩

/-- A matrix of `rows` rows with `cols` entries each. -/
def DWTSteganography.Mat.shape (m : DWTSteganography.Mat) (rows cols : Nat) : Prop :=
  m.length = rows ∧ ∀ r ∈ m, r.length = cols

/-- A 2×2 matrix whose only non-zero entry is `m[0][1] = 1`. -/
def DWTSteganography.cellMatrix : DWTSteganography.Mat := [[0, 1], [0, 0]]

/-- The coefficients `embedBlock` hands to `idct2D`: the entry `[4][3]` of `d` replaced by
`|d[4][3]| + 25` for the bit 1 and by `-|d[4][3]| - 25` otherwise. -/
noncomputable def DCTSteganography.signal (d : DCTSteganography.Block) (bit : Nat) :
    DCTSteganography.Block :=
  if bit = 1 then DCTSteganography.setCoef d (|d 4 3| + 25)
  else DCTSteganography.setCoef d (-|d 4 3| - 25)

/-! ## The transform engines in `float64` arithmetic

The engines compute in `float64`. The definitions of this section repeat the DWT code with
every arithmetic operation followed by a rounding `rnd : ℝ → ℝ` and with `sqrt2` for the
value of `math.Sqrt(2)`. With `rnd = id` and `sqrt2 = √2` they are the definitions in exact
arithmetic above; with `rnd = rne` and `sqrt2 = rne √2` every operation returns the float64
value nearest to the exact result, as IEEE 754 prescribes for `+`, `-`, `/` and `math.Sqrt`
(the values of the transform stay far from the overflow and underflow thresholds, so the
exponent range is left unbounded). The DCT extraction is repeated with a parameter for the
coefficients `dct2D` computes. -/

/-- The integer nearest to `y`; a tie goes to the even one. -/
noncomputable def roundEven (y : ℝ) : ℤ :=
  if y - ⌊y⌋ < 1 / 2 then ⌊y⌋
  else if 1 / 2 < y - ⌊y⌋ then ⌊y⌋ + 1
  else if ⌊y⌋ % 2 = 0 then ⌊y⌋ else ⌊y⌋ + 1

/-- The spacing of the float64 values at `x`: `2 ^ (e - 52)` for `2 ^ e ≤ |x| < 2 ^ (e + 1)`,
a significand of 53 bits. -/
noncomputable def ulp (x : ℝ) : ℝ := (2 : ℝ) ^ (Int.log 2 |x| - 52)

/-- Rounding to the nearest float64 value, ties to even. -/
noncomputable def rne (x : ℝ) : ℝ := (roundEven (x / ulp x) : ℝ) * ulp x

namespace DWTSteganography

/-- The expression `(x + y) / math.Sqrt(2)` in rounded arithmetic: the sum and the quotient
are rounded. -/
noncomputable def haarSum (rnd : ℝ → ℝ) (sqrt2 x y : ℝ) : ℝ :=
  rnd (rnd (x + y) / sqrt2)

/-- The expression `(x - y) / math.Sqrt(2)` in rounded arithmetic. -/
noncomputable def haarDiff (rnd : ℝ → ℝ) (sqrt2 x y : ℝ) : ℝ :=
  rnd (rnd (x - y) / sqrt2)

/-- The method `dwt1D` in rounded arithmetic. -/
noncomputable def dwt1DF (rnd : ℝ → ℝ) (sqrt2 : ℝ) (data : Vec) : Vec × Vec :=
  let n := data.length
  (tabulate (n / 2) (fun i =>
      haarSum rnd sqrt2 (data.getD (2 * i) 0) (data.getD (2 * i + 1) 0)),
   tabulate (n / 2) (fun i =>
      haarDiff rnd sqrt2 (data.getD (2 * i) 0) (data.getD (2 * i + 1) 0)))

/-- The method `idwt1D` in rounded arithmetic. -/
noncomputable def idwt1DF (rnd : ℝ → ℝ) (sqrt2 : ℝ) (approx detail : Vec) : Vec :=
  tabulate (approx.length * 2) (fun k =>
    if k % 2 = 0 then haarSum rnd sqrt2 (approx.getD (k / 2) 0) (detail.getD (k / 2) 0)
    else haarDiff rnd sqrt2 (approx.getD (k / 2) 0) (detail.getD (k / 2) 0))

/-- The method `dwt2D` in rounded arithmetic, with the panics of `dwt2D`. -/
noncomputable def dwt2DF (rnd : ℝ → ℝ) (sqrt2 : ℝ) (img : Mat) :
    Option (Mat × Mat × Mat × Mat) :=
  let rows := img.length
  if rows = 0 then none
  else
    let cols := (img.getD 0 []).length
    let tempH : Mat := tabulate rows (fun i =>
      let ad := dwt1DF rnd sqrt2 (img.getD i [])
      tabulate cols (fun j =>
        if j < cols / 2 then ad.1.getD j 0 else ad.2.getD (j - cols / 2) 0))
    let col : Nat → Vec := fun j => tabulate rows (fun i => Mat.get tempH i j)
    if (List.range cols).all
        (fun j => decide (j < cols / 2) || decide (rows / 2 = 0)
          || decide (j - cols / 2 < cols / 2)) then
      some
        (tabulate (rows / 2) (fun i =>
           tabulate (cols / 2) (fun j => (dwt1DF rnd sqrt2 (col j)).1.getD i 0)),
         tabulate (rows / 2) (fun i =>
           tabulate (cols / 2) (fun j2 =>
             (dwt1DF rnd sqrt2 (col (j2 + cols / 2))).1.getD i 0)),
         tabulate (rows / 2) (fun i =>
           tabulate (cols / 2) (fun j => (dwt1DF rnd sqrt2 (col j)).2.getD i 0)),
         tabulate (rows / 2) (fun i =>
           tabulate (cols / 2) (fun j2 =>
             (dwt1DF rnd sqrt2 (col (j2 + cols / 2))).2.getD i 0)))
    else none

/-- The method `idwt2D` in rounded arithmetic, with the panics of `idwt2D`. -/
noncomputable def idwt2DF (rnd : ℝ → ℝ) (sqrt2 : ℝ) (ll lh hl hh : Mat) : Option Mat :=
  if ll.length = 0 then none
  else
    let rows := ll.length * 2
    let cols := (ll.getD 0 []).length * 2
    if (List.range (rows / 2)).all (fun i => (List.range (cols / 2)).all (fun j =>
        Mat.inRange ll i j && Mat.inRange hl i j && Mat.inRange lh i j && Mat.inRange hh i j))
    then
      let colLeft : Nat → Vec := fun j =>
        idwt1DF rnd sqrt2 (tabulate (rows / 2) (fun i => Mat.get ll i j))
          (tabulate (rows / 2) (fun i => Mat.get hl i j))
      let colRight : Nat → Vec := fun j =>
        idwt1DF rnd sqrt2 (tabulate (rows / 2) (fun i => Mat.get lh i j))
          (tabulate (rows / 2) (fun i => Mat.get hh i j))
      let tempH : Mat := tabulate rows (fun i => tabulate cols (fun j =>
        if j < cols / 2 then (colLeft j).getD i 0 else (colRight (j - cols / 2)).getD i 0))
      some (tabulate rows (fun i =>
        let row :=
          idwt1DF rnd sqrt2 ((tempH.getD i []).take (cols / 2))
            ((tempH.getD i []).drop (cols / 2))
        tabulate cols (fun j => row.getD j 0)))
    else none

/-- The body of the inner embedding loop at the coefficient `hl[i][j]` in rounded
arithmetic: `math.Abs` and the negation are exact, the sum and the difference rounded. -/
noncomputable def embedCoefF (rnd : ℝ → ℝ) (bits : List Nat) (i j : Nat) (s : EmbedState) :
    EmbedState :=
  { hl := if bits.getD s.bitIndex 0 = 1 then s.hl.set i j (rnd (|s.hl.get i j| + 20))
      else s.hl.set i j (rnd (-|s.hl.get i j| - 20)),
    bitIndex := s.bitIndex + 1 }

/-- The part of `EmbedText` after its two tests, in rounded arithmetic; the conversions
`float64(r >> 8)` and `uint8(...)` are exact and a truncation. -/
noncomputable def embedBodyF (rnd : ℝ → ℝ) (sqrt2 : ℝ) (img : Image) (bits : List Nat) :
    Result Image :=
  match dwt2DF rnd sqrt2 (imgData img) with
  | none => .fault
  | some (ll, lh, hl, hh) =>
    let s := forWhile (fun s => decide (s.bitIndex < bits.length))
      (fun i s => forWhile (fun s => decide (s.bitIndex < bits.length))
        (embedCoefF rnd bits i) 0 (hl.getD 0 []).length s)
      0 hl.length ⟨hl, 0⟩
    match idwt2DF rnd sqrt2 ll lh s.hl hh with
    | none => .fault
    | some result =>
      if (List.range img.h).all (fun y => (List.range img.w).all (fun x =>
          Mat.inRange result y x)) then
        .ok (outputImage img.w img.h result)
      else .fault

/-- The method `(*DWTSteganography).EmbedText` in rounded arithmetic. -/
noncomputable def EmbedTextF (rnd : ℝ → ℝ) (sqrt2 : ℝ) (img : Image) (text : Text) :
    Result Image :=
  let width := img.w
  let height := img.h
  if !isPowerOfTwo width || !isPowerOfTwo height then .geometryError
  else
    let bits := textToBits text
    if bits.length > (width * height) / 64 then .capacityError
    else embedBodyF rnd sqrt2 img bits

/-- The entry `result[r][c]` of `idwt2DF`, from the four subband entries of its cell. -/
noncomputable def synthF (rnd : ℝ → ℝ) (sqrt2 : ℝ) (ll lh hl hh : Mat) (r c : Nat) : ℝ :=
  if c % 2 = 0 then
    haarSum rnd sqrt2
      (if r % 2 = 0 then haarSum rnd sqrt2 (ll.get (r / 2) (c / 2)) (hl.get (r / 2) (c / 2))
        else haarDiff rnd sqrt2 (ll.get (r / 2) (c / 2)) (hl.get (r / 2) (c / 2)))
      (if r % 2 = 0 then haarSum rnd sqrt2 (lh.get (r / 2) (c / 2)) (hh.get (r / 2) (c / 2))
        else haarDiff rnd sqrt2 (lh.get (r / 2) (c / 2)) (hh.get (r / 2) (c / 2)))
  else
    haarDiff rnd sqrt2
      (if r % 2 = 0 then haarSum rnd sqrt2 (ll.get (r / 2) (c / 2)) (hl.get (r / 2) (c / 2))
        else haarDiff rnd sqrt2 (ll.get (r / 2) (c / 2)) (hl.get (r / 2) (c / 2)))
      (if r % 2 = 0 then haarSum rnd sqrt2 (lh.get (r / 2) (c / 2)) (hh.get (r / 2) (c / 2))
        else haarDiff rnd sqrt2 (lh.get (r / 2) (c / 2)) (hh.get (r / 2) (c / 2)))

/-- The value the transform and its inverse, both in rounded arithmetic, return at the
position `(r, c)` (by parity) of a 2×2 cell with the samples `a b` over `c d` whose
coefficients are left as they are. -/
noncomputable def restored (rnd : ℝ → ℝ) (sqrt2 : ℝ) (a b c d : ℝ) (row col : Nat) : ℝ :=
  let ll := haarSum rnd sqrt2 (haarSum rnd sqrt2 a b) (haarSum rnd sqrt2 c d)
  let lh := haarSum rnd sqrt2 (haarDiff rnd sqrt2 a b) (haarDiff rnd sqrt2 c d)
  let hl := haarDiff rnd sqrt2 (haarSum rnd sqrt2 a b) (haarSum rnd sqrt2 c d)
  let hh := haarDiff rnd sqrt2 (haarDiff rnd sqrt2 a b) (haarDiff rnd sqrt2 c d)
  let left := if row % 2 = 0 then haarSum rnd sqrt2 ll hl else haarDiff rnd sqrt2 ll hl
  let right := if row % 2 = 0 then haarSum rnd sqrt2 lh hh else haarDiff rnd sqrt2 lh hh
  if col % 2 = 0 then haarSum rnd sqrt2 left right else haarDiff rnd sqrt2 left right

end DWTSteganography

namespace DCTSteganography

/-- The body of the inner loop of `ExtractText` at the block with corner `(x, y)`, with
`T block` for the coefficients `d.dct2D(block)` returns in float64. -/
noncomputable def extractBlockF (T : Block → Block) (img : Image) (y x : Nat)
    (bits : List Nat) : Flow Text (List Nat) :=
  let dctBlock := T (getBlock img x y)
  let bits' := if dctBlock 4 3 > 0 then bits ++ [1] else bits ++ [0]
  match endMarker bits' with
  | some text => .ret text
  | none => .next bits'

/-- The method `(*DCTSteganography).ExtractText`, with `T` for the method `dct2D` as the
machine computes it; `ExtractText` is `ExtractTextF dct2D`. -/
noncomputable def ExtractTextF (T : Block → Block) (img : Image) : Result Text :=
  match forFlow (fun by' bits => forFlow (fun bx bits =>
      extractBlockF T img (by' * blockSize) (bx * blockSize) bits)
        0 (blockCount img.w) bits)
    0 (blockCount img.h) [] with
  | .ret r => .ok r
  | .next bits => .ok (bitsToText bits)

/-- The bit sequence of the DCT extraction claim: the `k`-th bit, in raster order of the 8×8
blocks, is 1 when the coefficient `[4][3]` that `dct2D` computes (`T`) for the red samples of
the block is positive, else 0. -/
noncomputable def blockBits (T : Block → Block) (img : Image) : List Nat :=
  (List.range ((img.h / 8) * (img.w / 8))).map (fun k =>
    if T (fun i j =>
        ((samples img ((k % (img.w / 8)) * 8) ((k / (img.w / 8)) * 8) i j : Nat) : ℝ)) 4 3 > 0
    then 1 else 0)

/-- The bytes assembled most significant bit first from the block bits, up to but excluding
the first zero byte. -/
noncomputable def blockText (T : Block → Block) (img : Image) : Text :=
  ((groups8 (blockBits T img)).map (fun g => toUInt8 (msbValue g))).takeWhile
    (fun b => decide (b ≠ 0))

end DCTSteganography

/-! ## Theorems -/

/-! ### Loops -/

theorem sweep_succ {σ : Type} (step : Nat → Nat → σ → σ) (W : Nat) (s0 : σ) (n : Nat) :
    sweep step W s0 (n + 1) = step (n / W) (n % W) (sweep step W s0 n) := by
  simp [sweep, List.range_succ, List.foldl_append]

theorem idx_sweep {σ : Type} (step : Nat → Nat → σ → σ) (idx : σ → Nat) (W : Nat) (s0 : σ)
    (hidx : ∀ y x s, idx (step y x s) = idx s + 1) (h0 : idx s0 = 0) (n : Nat) :
    idx (sweep step W s0 n) = n := by
  induction n with
  | zero => simpa [sweep] using h0
  | succ n ih => rw [sweep_succ, hidx, ih]

theorem forWhile_row {σ : Type} (step : Nat → Nat → σ → σ) (idx : σ → Nat) (W L : Nat) (s0 : σ)
    (hidx : ∀ y x s, idx (step y x s) = idx s + 1) (h0 : idx s0 = 0) (y : Nat) :
    ∀ n lo, lo + n ≤ W → y * W + lo ≤ L →
      forWhile (fun s => decide (idx s < L)) (step y) lo n (sweep step W s0 (y * W + lo))
        = sweep step W s0 (min L (y * W + lo + n)) := by
  intro n
  induction n with
  | zero =>
    intro lo _ hL
    simp [forWhile, Nat.min_eq_right hL]
  | succ n ih =>
    intro lo hW hL
    have hlo : lo < W := by omega
    rw [forWhile]
    by_cases hc : y * W + lo < L
    · have hi : idx (sweep step W s0 (y * W + lo)) = y * W + lo :=
        idx_sweep step idx W s0 hidx h0 _
      have hdiv : (y * W + lo) / W = y := by
        rw [Nat.mul_comm, Nat.mul_add_div (by omega), Nat.div_eq_of_lt hlo]; simp
      have hmod : (y * W + lo) % W = lo := by
        rw [Nat.mul_comm, Nat.mul_add_mod, Nat.mod_eq_of_lt hlo]
      have hs : step y lo (sweep step W s0 (y * W + lo)) = sweep step W s0 (y * W + (lo + 1)) := by
        rw [← Nat.add_assoc, sweep_succ, hdiv, hmod]
      simp only [hi, hc, decide_True, if_true]
      rw [hs, ih (lo + 1) (by omega) (by omega)]
      congr 2; omega
    · have hi : idx (sweep step W s0 (y * W + lo)) = y * W + lo :=
        idx_sweep step idx W s0 hidx h0 _
      have hL' : y * W + lo = L := by omega
      simp only [hi, hc, decide_False]
      simp [hL']

theorem forWhile_grid {σ : Type} (step : Nat → Nat → σ → σ) (idx : σ → Nat) (W H L : Nat)
    (s0 : σ) (hidx : ∀ y x s, idx (step y x s) = idx s + 1) (h0 : idx s0 = 0) :
    forWhile (fun s => decide (idx s < L))
        (fun y s => forWhile (fun s => decide (idx s < L)) (step y) 0 W s) 0 H s0
      = sweep step W s0 (min L (H * W)) := by
  have key : ∀ n lo,
      forWhile (fun s => decide (idx s < L))
          (fun y s => forWhile (fun s => decide (idx s < L)) (step y) 0 W s) lo n
          (sweep step W s0 (min L (lo * W)))
        = sweep step W s0 (min L ((lo + n) * W)) := by
    intro n
    induction n with
    | zero => intro lo; simp [forWhile]
    | succ n ih =>
      intro lo
      rw [forWhile]
      have hi : idx (sweep step W s0 (min L (lo * W))) = min L (lo * W) :=
        idx_sweep step idx W s0 hidx h0 _
      by_cases hc : lo * W < L
      · have hm : min L (lo * W) = lo * W := by omega
        have hc' : min L (lo * W) < L := by omega
        simp only [hi, hc', decide_True, if_true]
        rw [hm]
        have := forWhile_row step idx W L s0 hidx h0 lo W 0 (by omega) (by omega)
        simp only [Nat.add_zero] at this
        rw [this]
        have e : lo * W + W = (lo + 1) * W := by ring
        rw [e, ih (lo + 1)]
        congr 2; ring_nf
      · have hm : min L (lo * W) = L := by omega
        have hc' : ¬ min L (lo * W) < L := by omega
        simp only [hi, hc', decide_False]
        have : lo * W ≤ (lo + (n + 1)) * W := Nat.mul_le_mul_right _ (by omega)
        have hm2 : min L ((lo + (n + 1)) * W) = L := by omega
        simp [hm, hm2]
  have := key H 0
  simpa [sweep] using this

theorem forFlow_eq_runFlow {ρ σ : Type} (body : Nat → σ → Flow ρ σ) :
    ∀ n lo s, forFlow body lo n s = runFlow body (List.range' lo n) s := by
  intro n
  induction n with
  | zero => intro lo s; simp [forFlow, runFlow]
  | succ n ih =>
    intro lo s
    simp only [forFlow, List.range'_succ, runFlow]
    cases body lo s with
    | ret r => rfl
    | next s' => simp [ih]

theorem runFlow_append {α ρ σ : Type} (step : α → σ → Flow ρ σ) (l1 l2 : List α) (s : σ) :
    runFlow step (l1 ++ l2) s =
      match runFlow step l1 s with
      | .ret r => .ret r
      | .next s' => runFlow step l2 s' := by
  induction l1 generalizing s with
  | nil => simp [runFlow]
  | cons a l1 ih =>
    simp only [List.cons_append, runFlow]
    cases step a s with
    | ret r => rfl
    | next s' => simp [ih]

theorem runFlow_map {α β ρ σ : Type} (f : β → α) (step : α → σ → Flow ρ σ) (l : List β) (s : σ) :
    runFlow step (l.map f) s = runFlow (fun b => step (f b)) l s := by
  induction l generalizing s with
  | nil => simp [runFlow]
  | cons a l ih =>
    simp only [List.map_cons, runFlow]
    cases step (f a) s with
    | ret r => rfl
    | next s' => simp [ih]

/-- A nested loop with `return` reads its inputs in row-major order. -/
theorem forFlow_grid {ρ σ : Type} (body : Nat → Nat → σ → Flow ρ σ) (W H : Nat) (hW : 0 < W)
    (s : σ) :
    forFlow (fun y s => forFlow (body y) 0 W s) 0 H s
      = runFlow (fun k => body (k / W) (k % W)) (List.range (H * W)) s := by
  have hrow : ∀ lo s, forFlow (body lo) 0 W s
      = runFlow (fun k => body (k / W) (k % W)) (List.range' (lo * W) W) s := by
    intro lo s
    rw [forFlow_eq_runFlow]
    have e : List.range' (lo * W) W = (List.range' 0 W).map (fun x => lo * W + x) := by
      rw [List.map_add_range']; simp
    rw [e, runFlow_map]
    have hb : ∀ l : List Nat, (∀ x ∈ l, x < W) → ∀ s,
        runFlow (body lo) l s
          = runFlow (fun b => body ((lo * W + b) / W) ((lo * W + b) % W)) l s := by
      intro l
      induction l with
      | nil => intro _ s; simp [runFlow]
      | cons a l ih =>
        intro hl s
        have ha : a < W := hl a (List.mem_cons_self _ _)
        have hdiv : (lo * W + a) / W = lo := by
          rw [Nat.mul_comm, Nat.mul_add_div hW, Nat.div_eq_of_lt ha]; simp
        have hmod : (lo * W + a) % W = a := by
          rw [Nat.mul_comm, Nat.mul_add_mod, Nat.mod_eq_of_lt ha]
        simp only [runFlow, hdiv, hmod]
        cases body lo a s with
        | ret r => rfl
        | next s' => exact ih (fun x hx => hl x (List.mem_cons_of_mem _ hx)) s'
    exact hb _ (fun x hx => by simpa using (List.mem_range'_1.mp hx).2) s
  have key : ∀ n lo s, forFlow (fun y s => forFlow (body y) 0 W s) lo n s
      = runFlow (fun k => body (k / W) (k % W)) (List.range' (lo * W) (n * W)) s := by
    intro n
    induction n with
    | zero => intro lo s; simp [forFlow, runFlow]
    | succ n ih =>
      intro lo s
      have e : (n + 1) * W = n * W + W := by ring
      rw [forFlow, e, ← List.range'_append_1 (lo * W) W (n * W), runFlow_append, hrow]
      cases runFlow (fun k => body (k / W) (k % W)) (List.range' (lo * W) W) s with
      | ret r => rfl
      | next s' =>
        simp only
        rw [ih (lo + 1)]
        congr 2; ring
  have := key H 0 s
  simpa [List.range_eq_range'] using this

/-! ### Loops over a grid; bytes -/

theorem forRange_eq_foldl {σ : Type} (body : Nat → σ → σ) :
    ∀ n lo s, forRange body lo n s = (List.range' lo n).foldl (fun s i => body i s) s := by
  intro n
  induction n with
  | zero => intro lo s; simp [forRange, forWhile]
  | succ n ih =>
    intro lo s
    have := ih (lo + 1) (body lo s)
    simp only [forRange] at this
    simp [forRange, forWhile, List.range'_succ, this]

theorem forRange_grid {σ : Type} (step : Nat → Nat → σ → σ) (W H : Nat) (s0 : σ) :
    forRange (fun y s => forRange (step y) 0 W s) 0 H s0 = sweep step W s0 (H * W) := by
  rcases Nat.eq_zero_or_pos W with hW | hW
  · subst hW
    have : ∀ n lo s, forRange (fun y s => forRange (step y) 0 0 s) lo n s = s := by
      intro n
      induction n with
      | zero => intro lo s; simp [forRange, forWhile]
      | succ n ih =>
        intro lo s
        have h := ih (lo + 1) s
        simp only [forRange, forWhile] at h ⊢
        simpa using h
    simp [this, sweep]
  · have hrow : ∀ lo s, forRange (step lo) 0 W s
        = (List.range' (lo * W) W).foldl (fun s k => step (k / W) (k % W) s) s := by
      intro lo s
      rw [forRange_eq_foldl]
      have e : List.range' (lo * W) W = (List.range' 0 W).map (fun x => lo * W + x) := by
        rw [List.map_add_range']; simp
      rw [e, List.foldl_map]
      have hb : ∀ l : List Nat, (∀ x ∈ l, x < W) → ∀ s,
          l.foldl (fun s i => step lo i s) s
            = l.foldl (fun s b => step ((lo * W + b) / W) ((lo * W + b) % W) s) s := by
        intro l
        induction l with
        | nil => intro _ s; rfl
        | cons a l ih =>
          intro hl s
          have ha : a < W := hl a (List.mem_cons_self _ _)
          have hdiv : (lo * W + a) / W = lo := by
            rw [Nat.mul_comm, Nat.mul_add_div hW, Nat.div_eq_of_lt ha]; simp
          have hmod : (lo * W + a) % W = a := by
            rw [Nat.mul_comm, Nat.mul_add_mod, Nat.mod_eq_of_lt ha]
          simp only [List.foldl_cons, hdiv, hmod]
          exact ih (fun x hx => hl x (List.mem_cons_of_mem _ hx)) _
      exact hb _ (fun x hx => by simpa using (List.mem_range'_1.mp hx).2) s
    have key : ∀ n lo s, forRange (fun y s => forRange (step y) 0 W s) lo n s
        = (List.range' (lo * W) (n * W)).foldl (fun s k => step (k / W) (k % W) s) s := by
      intro n
      induction n with
      | zero => intro lo s; simp [forRange, forWhile]
      | succ n ih =>
        intro lo s
        have e : (n + 1) * W = n * W + W := by ring
        have h := ih (lo + 1) (forRange (step lo) 0 W s)
        rw [e, ← List.range'_append_1 (lo * W) W (n * W), List.foldl_append, ← hrow]
        have e2 : (lo + 1) * W = lo * W + W := by ring
        rw [e2] at h
        rw [← h]
        simp [forRange, forWhile]
    have := key H 0 s0
    simpa [sweep, List.range_eq_range'] using this

/-! ### Bytes -/

set_option maxRecDepth 100000 in
theorem toUInt8_widen (c : Byte) : toUInt8 ((c.val ||| (c.val <<< 8)) >>> 8) = c := by
  revert c; decide

set_option maxRecDepth 100000 in
theorem lsb_set (r : Byte) : (toUInt8 (r.val ||| 1)).val &&& 1 = 1 := by
  revert r; decide

set_option maxRecDepth 100000 in
theorem lsb_clear (r : Byte) : (toUInt8 (r.val &&& 0xFE)).val &&& 1 = 0 := by
  revert r; decide

/-! ### Images -/

/-! ### Images -/

@[simp] theorem Image.Set_w (img : Image) (x y : Nat) (c : Color) : (img.Set x y c).w = img.w := by
  unfold Image.Set; split <;> rfl

@[simp] theorem Image.Set_h (img : Image) (x y : Nat) (c : Color) : (img.Set x y c).h = img.h := by
  unfold Image.Set; split <;> rfl

theorem Image.At_Set (img : Image) (x y : Nat) (c : Color) (x' y' : Nat) :
    (img.Set x y c).At x' y'
      = if x' = x ∧ y' = y ∧ x < img.w ∧ y < img.h then c else img.At x' y' := by
  unfold Image.Set Image.At
  by_cases hb : x < img.w ∧ y < img.h
  · by_cases he : x' = x ∧ y' = y
    · obtain ⟨rfl, rfl⟩ := he
      simp [hb]
    · simp only [hb, and_self, if_true]
      by_cases hb' : x' < img.w ∧ y' < img.h
      · simp only [hb', and_self, if_true, he]
        have : ¬ (x' = x ∧ y' = y ∧ True) := by simpa using he
        simp [he]
      · have : ¬ (x' = x ∧ y' = y ∧ True) := by simpa using he
        simp [hb', he]
  · have : ¬ (x' = x ∧ y' = y ∧ x < img.w ∧ y < img.h) := fun h => hb h.2.2
    simp [hb, this]

theorem Image.At_out (img : Image) {x y : Nat} (h : ¬ (x < img.w ∧ y < img.h)) :
    img.At x y = ⟨0, 0, 0, 0⟩ := by
  unfold Image.At; rw [if_neg h]

/-- Two raster positions of a grid of width `W` coincide only for one index. -/
theorem raster_inj {W : Nat} (k n : Nat) : (k % W = n % W ∧ k / W = n / W) ↔ k = n := by
  constructor
  · rintro ⟨h1, h2⟩
    rw [← Nat.div_add_mod k W, ← Nat.div_add_mod n W, h1, h2]
  · rintro rfl; exact ⟨rfl, rfl⟩

theorem raster_lt {W H : Nat} (hW : 0 < W) (n : Nat) :
    (n % W < W ∧ n / W < H) ↔ n < H * W := by
  constructor
  · rintro ⟨_, h2⟩
    exact (Nat.div_lt_iff_lt_mul hW).mp h2
  · intro h
    exact ⟨Nat.mod_lt _ hW, (Nat.div_lt_iff_lt_mul hW).mpr h⟩

theorem raster_coord {W : Nat} (x y : Nat) (hx : x < W) :
    (y * W + x) % W = x ∧ (y * W + x) / W = y := by
  have hW : 0 < W := by omega
  constructor
  · rw [Nat.mul_comm, Nat.mul_add_mod, Nat.mod_eq_of_lt hx]
  · rw [Nat.mul_comm, Nat.mul_add_div hW, Nat.div_eq_of_lt hx]; simp

theorem raster_index_lt {W H : Nat} (x y : Nat) (hx : x < W) (hy : y < H) : y * W + x < H * W := by
  have : (y + 1) * W ≤ H * W := Nat.mul_le_mul_right _ hy
  have e : (y + 1) * W = y * W + W := by ring
  omega

/-- A sweep that sets the pixel `(x, y)` to `col x y`, after `n` steps. -/
theorem fill_sweep (W H : Nat) (col : Nat → Nat → Color) (n : Nat) (hn : n ≤ H * W)
    (hW : 0 < W) :
    (sweep (fun y x (out : Image) => out.Set x y (col x y)) W (NewRGBA W H) n).w = W ∧
    (sweep (fun y x (out : Image) => out.Set x y (col x y)) W (NewRGBA W H) n).h = H ∧
      ∀ k, k < H * W →
        (sweep (fun y x (out : Image) => out.Set x y (col x y)) W (NewRGBA W H) n).At
            (k % W) (k / W)
          = if k < n then col (k % W) (k / W) else ⟨0, 0, 0, 0⟩ := by
  induction n with
  | zero =>
    refine ⟨rfl, rfl, ?_⟩
    intro k _
    simp [sweep, NewRGBA, Image.At]
  | succ n ih =>
    obtain ⟨hw, hh, hat⟩ := ih (by omega)
    simp only [sweep_succ]
    refine ⟨by simpa using hw, by simpa using hh, ?_⟩
    intro k hk
    rw [Image.At_Set, hw, hh]
    have hb : n % W < W ∧ n / W < H := (raster_lt hW n).mpr (by omega)
    by_cases hkn : k = n
    · subst hkn
      simp [hb]
    · have : ¬ (k % W = n % W ∧ k / W = n / W ∧ n % W < W ∧ n / W < H) :=
        fun h => hkn ((raster_inj k n).mp ⟨h.1, h.2.1⟩)
      rw [if_neg this, hat k hk]
      have : (k < n + 1) ↔ k < n := by omega
      simp only [this]

/-- A loop nest that sets every pixel `(x, y)` of a fresh image to `col x y`. -/
theorem fill_spec (W H : Nat) (col : Nat → Nat → Color) :
    (forRange (fun y out => forRange (fun x (out : Image) => out.Set x y (col x y)) 0 W out)
      0 H (NewRGBA W H)).w = W ∧
    (forRange (fun y out => forRange (fun x (out : Image) => out.Set x y (col x y)) 0 W out)
      0 H (NewRGBA W H)).h = H ∧
    ∀ x y, (forRange (fun y out => forRange (fun x (out : Image) => out.Set x y (col x y)) 0 W out)
      0 H (NewRGBA W H)).At x y = if x < W ∧ y < H then col x y else ⟨0, 0, 0, 0⟩ := by
  rw [forRange_grid]
  rcases Nat.eq_zero_or_pos W with hW | hW
  · subst hW
    simp only [Nat.mul_zero, sweep, List.range_zero, List.foldl_nil]
    refine ⟨rfl, rfl, ?_⟩
    intro x y
    simp [Image.At, NewRGBA]
  · obtain ⟨hw, hh, hat⟩ := fill_sweep W H col (H * W) le_rfl hW
    refine ⟨hw, hh, ?_⟩
    intro x y
    by_cases hb : x < W ∧ y < H
    · have hk := raster_index_lt x y hb.1 hb.2
      have := hat (y * W + x) hk
      rw [(raster_coord x y hb.1).1, (raster_coord x y hb.1).2] at this
      rw [this, if_pos hk, if_pos hb]
    · rw [if_neg hb, Image.At_out _ (by rw [hw, hh]; exact hb)]

namespace LSB

theorem embedPixel_eq (bin : List Char) (y x : Nat) (s : EmbedState) :
    embedPixel bin y x s
      = ⟨s.rgba.Set x y (withLSB (s.rgba.At x y) (bin.getD s.binIndex '0')), s.binIndex + 1⟩ := by
  simp only [embedPixel, withLSB, Color.RGBA, toUInt8_widen]

theorem copyImage_spec (img : Image) :
    (copyImage img).w = img.w ∧ (copyImage img).h = img.h ∧
      ∀ x y, (copyImage img).At x y = img.At x y := by
  unfold copyImage
  obtain ⟨hw, hh, hat⟩ := fill_spec img.w img.h (fun x y => img.At x y)
  refine ⟨hw, hh, ?_⟩
  intro x y
  rw [hat]
  by_cases hb : x < img.w ∧ y < img.h
  · rw [if_pos hb]
  · rw [if_neg hb, Image.At_out img hb]

end LSB

/-! ### LSB extraction, bit by bit -/

namespace LSB

theorem extractPixel_eq (img : Image) (y x : Nat) (s : ExtractState) :
    extractPixel img y x s = lsbStep (lsbOf (img.At x y)) s := rfl

theorem lsbOf_withLSB (c : Color) (ch : Char) : lsbOf (withLSB c ch) = charBit ch := by
  unfold lsbOf withLSB charBit Color.RGBA
  simp only [toUInt8_widen]
  split
  · exact lsb_set _
  · exact lsb_clear _

set_option maxRecDepth 100000 in
theorem fmt08b_bits (b : Byte) : (fmt08b b).map charBit = byteBits b := by
  revert b; decide

set_option maxRecDepth 100000 in
theorem push_byteBits (b : Byte) :
    (byteBits b).foldl (fun (cur : Byte) bit => toUInt8 ((cur.val <<< 1) % 256 ||| bit)) 0 = b := by
  revert b; decide

theorem lsbStep_eight (b0 b1 b2 b3 b4 b5 b6 b7 : Nat) (res : List Byte) (rest : List Nat) :
    runFlow lsbStep ([b0, b1, b2, b3, b4, b5, b6, b7] ++ rest) ⟨res, 0, 0⟩
      = if [b0, b1, b2, b3, b4, b5, b6, b7].foldl
            (fun (cur : Byte) bit => toUInt8 ((cur.val <<< 1) % 256 ||| bit)) 0 = 0
        then .ret res
        else runFlow lsbStep rest
          ⟨res ++ [[b0, b1, b2, b3, b4, b5, b6, b7].foldl
            (fun (cur : Byte) bit => toUInt8 ((cur.val <<< 1) % 256 ||| bit)) 0], 0, 0⟩ := by
  simp only [List.cons_append, List.nil_append, runFlow, lsbStep, List.foldl_cons, List.foldl_nil]
  simp only [Nat.reduceAdd, Nat.reduceEqDiff, if_false, if_true]
  split_ifs <;> rfl

theorem lsbStep_byte (b : Byte) (res : List Byte) (rest : List Nat) :
    runFlow lsbStep (byteBits b ++ rest) ⟨res, 0, 0⟩
      = if b = 0 then .ret res else runFlow lsbStep rest ⟨res ++ [b], 0, 0⟩ := by
  have h := push_byteBits b
  have e : byteBits b = [(b.val >>> 7) &&& 1, (b.val >>> 6) &&& 1, (b.val >>> 5) &&& 1,
      (b.val >>> 4) &&& 1, (b.val >>> 3) &&& 1, (b.val >>> 2) &&& 1, (b.val >>> 1) &&& 1,
      (b.val >>> 0) &&& 1] := rfl
  rw [e] at h ⊢
  rw [lsbStep_eight, h]

theorem lsbStep_text (text : Text) (h0 : ∀ b ∈ text, b ≠ 0) (res : List Byte) (rest : List Nat) :
    runFlow lsbStep ((text ++ [0]).flatMap byteBits ++ rest) ⟨res, 0, 0⟩ = .ret (res ++ text) := by
  induction text generalizing res with
  | nil =>
    have := lsbStep_byte 0 res rest
    simpa using this
  | cons b text ih =>
    have hb : b ≠ 0 := h0 b (List.mem_cons_self _ _)
    have := lsbStep_byte b res ((text ++ [0]).flatMap byteBits ++ rest)
    simp only [List.cons_append, List.flatMap_cons, List.append_assoc]
    rw [this, if_neg hb, ih (fun b hb => h0 b (List.mem_cons_of_mem _ hb))]
    simp

end LSB

/-! ### LSB round trip -/

namespace LSB

theorem binString_length (text : Text) : (binString text).length = 8 * (text.length + 1) := by
  unfold binString
  induction text with
  | nil => rfl
  | cons b text ih =>
    simp only [List.cons_append, List.flatMap_cons, List.length_append, ih, List.length_cons]
    simp [fmt08b]; ring

theorem binString_bits (text : Text) :
    (binString text).map charBit = (text ++ [0]).flatMap byteBits := by
  unfold binString
  induction (text ++ [0]) with
  | nil => rfl
  | cons b l ih => simp only [List.flatMap_cons, List.map_append, ih, fmt08b_bits]

theorem embedPixel_sweep (img : Image) (bin : List Char) (hW : 0 < img.w) (n : Nat)
    (hn : n ≤ img.h * img.w) :
    (sweep (embedPixel bin) img.w ⟨copyImage img, 0⟩ n).binIndex = n ∧
    (sweep (embedPixel bin) img.w ⟨copyImage img, 0⟩ n).rgba.w = img.w ∧
    (sweep (embedPixel bin) img.w ⟨copyImage img, 0⟩ n).rgba.h = img.h ∧
    ∀ k, k < img.h * img.w →
      (sweep (embedPixel bin) img.w ⟨copyImage img, 0⟩ n).rgba.At (k % img.w) (k / img.w)
        = if k < n then withLSB (img.At (k % img.w) (k / img.w)) (bin.getD k '0')
          else img.At (k % img.w) (k / img.w) := by
  induction n with
  | zero =>
    obtain ⟨hw, hh, hat⟩ := copyImage_spec img
    exact ⟨rfl, hw, hh, fun k _ => by simp [sweep, hat]⟩
  | succ n ih =>
    obtain ⟨hi, hw, hh, hat⟩ := ih (by omega)
    rw [sweep_succ, embedPixel_eq]
    refine ⟨by simp [hi], by simpa using hw, by simpa using hh, ?_⟩
    intro k hk
    simp only []
    rw [Image.At_Set, hw, hh, hi]
    have hb : n % img.w < img.w ∧ n / img.w < img.h := (raster_lt hW n).mpr (by omega)
    by_cases hkn : k = n
    · subst hkn
      rw [if_pos ⟨rfl, rfl, hb⟩, if_pos (by omega), hat k hk, if_neg (by omega)]
    · have : ¬ (k % img.w = n % img.w ∧ k / img.w = n / img.w ∧ n % img.w < img.w
          ∧ n / img.w < img.h) := fun h => hkn ((raster_inj k n).mp ⟨h.1, h.2.1⟩)
      rw [if_neg this, hat k hk]
      have : (k < n + 1) ↔ k < n := by omega
      simp only [this]

theorem EmbedText_ok (img : Image) (text : Text) (hcap : 8 * (text.length + 1) ≤ img.w * img.h) :
    EmbedText img text
      = .ok (sweep (embedPixel (binString text)) img.w ⟨copyImage img, 0⟩
          (8 * (text.length + 1))).rgba := by
  unfold EmbedText
  simp only [binString_length]
  rw [if_neg (by omega)]
  have := forWhile_grid (embedPixel (binString text)) EmbedState.binIndex img.w img.h
    (8 * (text.length + 1)) ⟨copyImage img, 0⟩ (fun _ _ _ => rfl) rfl
  rw [this, Nat.min_eq_left (by rw [Nat.mul_comm img.h]; exact hcap)]

theorem ExtractText_eq (img : Image) (hW : 0 < img.w) :
    ExtractText img =
      match runFlow lsbStep
        ((List.range (img.h * img.w)).map (fun k => lsbOf (img.At (k % img.w) (k / img.w))))
        ⟨[], 0, 0⟩ with
      | .ret r => .ok r
      | .next s => .ok s.result := by
  unfold ExtractText
  rw [forFlow_grid (fun y x s => extractPixel img y x s) img.w img.h hW, runFlow_map]
  rfl

theorem range_map_getD {α : Type} (l : List α) (d : α) :
    (List.range l.length).map (fun k => l.getD k d) = l := by
  apply List.ext_getElem
  · simp
  · intro i h1 h2
    simp [List.getD_eq_getElem?_getD, h2]

end LSB

/-- C1. LSB round trip: for every RGBA image and every text without a zero byte whose
`8 * (len + 1)` bits fit into the `w * h` pixels, `EmbedText` succeeds and `ExtractText` of
the returned image is the text, byte for byte. -/
theorem lsb_roundtrip (img : Image) (text : Text) (h0 : ∀ b ∈ text, b ≠ 0)
    (hcap : 8 * (text.length + 1) ≤ img.w * img.h) :
    ∃ out, LSB.EmbedText img text = .ok out ∧ LSB.ExtractText out = .ok text := by
  have hW : 0 < img.w := by
    rcases Nat.eq_zero_or_pos img.w with h | h
    · rw [h] at hcap; omega
    · exact h
  have hcap' : 8 * (text.length + 1) ≤ img.h * img.w := by rw [Nat.mul_comm img.h]; exact hcap
  obtain ⟨_, hw, hh, hat⟩ :=
    LSB.embedPixel_sweep img (LSB.binString text) hW (8 * (text.length + 1)) hcap'
  refine ⟨_, LSB.EmbedText_ok img text hcap, ?_⟩
  rw [LSB.ExtractText_eq _ (by rw [hw]; exact hW), hw, hh]
  have hsplit : List.range (img.h * img.w)
      = List.range (LSB.binString text).length
        ++ List.range' (LSB.binString text).length (img.h * img.w - 8 * (text.length + 1)) := by
    rw [LSB.binString_length, List.range_eq_range', List.range_eq_range']
    have := List.range'_append_1 0 (8 * (text.length + 1)) (img.h * img.w - 8 * (text.length + 1))
    simp only [Nat.zero_add] at this
    rw [this]
    congr 1; omega
  have hfirst : (List.range (LSB.binString text).length).map
      (fun k => LSB.lsbOf ((sweep (LSB.embedPixel (LSB.binString text)) img.w
        ⟨LSB.copyImage img, 0⟩ (8 * (text.length + 1))).rgba.At (k % img.w) (k / img.w)))
      = (text ++ [0]).flatMap byteBits := by
    rw [← LSB.binString_bits]
    conv_rhs => rw [← LSB.range_map_getD (LSB.binString text) '0']
    rw [List.map_map]
    apply List.map_congr_left
    intro k hk
    have hk' : k < 8 * (text.length + 1) := by
      rw [← LSB.binString_length]; exact List.mem_range.mp hk
    simp only [Function.comp]
    rw [hat k (by omega), if_pos hk', LSB.lsbOf_withLSB]
  rw [hsplit, List.map_append, hfirst, LSB.lsbStep_text text h0]
  simp

/-! ### Powers of two -/

theorem land_parts (a b : Nat) : a &&& b = 2 * (a / 2 &&& b / 2) + (a % 2) * (b % 2) := by
  have h1 := @Nat.and_div_two a b
  have h2 : (a &&& b) % 2 = (a % 2) * (b % 2) := by
    have : (a &&& b) % 2 = ((a &&& b) &&& 1) := by simp
    rw [this, Nat.and_assoc, Nat.and_one_is_mod]
    rcases Nat.mod_two_eq_zero_or_one b with hb | hb
    · simp [hb]
    · simp [hb]
  omega

/-- For a positive `m`, `m & (m - 1)` is zero exactly at the powers of two. -/
theorem and_pred_eq_zero_iff : ∀ m : Nat, 0 < m → (m &&& (m - 1) = 0 ↔ ∃ k : Nat, m = 2 ^ k) := by
  intro m
  induction m using Nat.strong_induction_on with
  | _ m ih =>
    intro hm
    rw [land_parts]
    rcases Nat.mod_two_eq_zero_or_one m with h0 | h1
    · -- m even: m = 2q, m - 1 = 2(q-1)+1
      have hq : 0 < m / 2 := by omega
      have e1 : (m - 1) / 2 = m / 2 - 1 := by omega
      have e2 : (m - 1) % 2 = 1 := by omega
      rw [e1, e2, h0]
      have := ih (m / 2) (by omega) hq
      constructor
      · intro h
        have h' : m / 2 &&& (m / 2 - 1) = 0 := by omega
        obtain ⟨k, hk⟩ := this.mp h'
        exact ⟨k + 1, by rw [pow_succ]; omega⟩
      · rintro ⟨k, hk⟩
        cases k with
        | zero => simp at hk; omega
        | succ k =>
          have : m / 2 = 2 ^ k := by rw [hk, pow_succ]; simp
          have h' := (ih (m / 2) (by omega) hq).mpr ⟨k, this⟩
          omega
    · have e1 : (m - 1) / 2 = m / 2 := by omega
      have e2 : (m - 1) % 2 = 0 := by omega
      rw [e1, e2, h1, Nat.and_self]
      constructor
      · intro h
        exact ⟨0, by simp; omega⟩
      · rintro ⟨k, hk⟩
        cases k with
        | zero => simp at hk; omega
        | succ k => rw [hk, pow_succ] at h1; omega

theorem isPowerOfTwo_spec (n : Int) : isPowerOfTwo n = true ↔ ∃ k : Nat, n = 2 ^ k := by
  unfold isPowerOfTwo
  rcases n with m | m
  · rcases Nat.eq_zero_or_pos m with h | h
    · subst h
      constructor
      · intro h; simp at h
      · rintro ⟨k, hk⟩
        have : (0 : Int) < 2 ^ k := by positivity
        simp at hk
        omega
    · have e : Int.ofNat m - 1 = Int.ofNat (m - 1) := by
        simp; omega
      rw [e]
      simp only [Int.land, Bool.and_eq_true, decide_eq_true_eq, beq_iff_eq]
      have := and_pred_eq_zero_iff m h
      constructor
      · rintro ⟨_, h2⟩
        have h3 : m &&& (m - 1) = 0 := by exact_mod_cast h2
        obtain ⟨k, hk⟩ := this.mp h3
        exact ⟨k, by simp [hk]⟩
      · rintro ⟨k, hk⟩
        have hk' : m = 2 ^ k := by
          have : (m : Int) = ((2 ^ k : Nat) : Int) := by simpa using hk
          exact_mod_cast this
        refine ⟨by simp; omega, ?_⟩
        have := this.mpr ⟨k, hk'⟩
        exact_mod_cast this
  · constructor
    · intro h
      simp at h
    · rintro ⟨k, hk⟩
      have : (0 : Int) < 2 ^ k := by positivity
      rw [← hk] at this
      simp at this

/-- C9. `isPowerOfTwo n` is true exactly when `n = 2 ^ k` for a natural `k`, for every
integer `n`; so it is false at zero and at every negative integer `-(m + 1)`, and true at one. -/
theorem isPowerOfTwo_iff (n : Int) (m : Nat) :
    (isPowerOfTwo n = true ↔ ∃ k : Nat, n = 2 ^ k) ∧ isPowerOfTwo 0 = false ∧
      isPowerOfTwo (Int.negSucc m) = false ∧ isPowerOfTwo 1 = true := by
  refine ⟨isPowerOfTwo_spec n, by decide, ?_, by decide⟩
  rw [← Bool.not_eq_true, isPowerOfTwo_spec]
  rintro ⟨k, hk⟩
  have h1 : (0 : Int) < 2 ^ k := by positivity
  have h2 : Int.negSucc m < 0 := Int.negSucc_lt_zero m
  omega

/-! ### Capacity and geometry tests -/

theorem byteBits_length (b : Byte) : (byteBits b).length = 8 := rfl

theorem textToBits_length (text : Text) : (textToBits text).length = 8 * (text.length + 1) := by
  unfold textToBits
  induction text with
  | nil => rfl
  | cons b text ih =>
    simp only [List.flatMap_cons, List.length_append, byteBits_length, List.length_cons] at ih ⊢
    omega

/-- C5. LSB capacity: `EmbedText` returns the capacity error, and no image, exactly when
`8 * (len + 1) > w * h`, and returns an image exactly when `8 * (len + 1) ≤ w * h`; a payload
whose bit length equals `w * h` is accepted. -/
theorem lsb_capacity (img : Image) (text : Text) :
    (LSB.EmbedText img text = .capacityError ↔ 8 * (text.length + 1) > img.w * img.h) ∧
    ((∃ out, LSB.EmbedText img text = .ok out) ↔ 8 * (text.length + 1) ≤ img.w * img.h) := by
  unfold LSB.EmbedText
  simp only [LSB.binString_length]
  by_cases h : 8 * (text.length + 1) > img.w * img.h
  · simp only [h, if_true, true_iff, iff_true]
    constructor
    · trivial
    · constructor
      · rintro ⟨out, ho⟩; cases ho
      · intro h'; omega
  · simp only [h, if_false]
    constructor
    · constructor
      · intro h'; cases h'
      · intro h'; exact absurd h' (by tauto)
    · constructor
      · intro _; omega
      · intro _; exact ⟨_, rfl⟩

/-- C6. DCT geometry: whatever the text, `EmbedText` returns the geometry error exactly when
the width or the height is not a multiple of 8; the test comes before the capacity test. -/
theorem dct_geometry (img : Image) (text : Text) :
    DCTSteganography.EmbedText img text = .geometryError ↔ (img.w % 8 ≠ 0 ∨ img.h % 8 ≠ 0) := by
  unfold DCTSteganography.EmbedText
  simp only [DCTSteganography.blockSize]
  by_cases h : img.w % 8 ≠ 0 ∨ img.h % 8 ≠ 0
  · simp only [h, if_true]
  · simp only [h, if_false, iff_false]
    split_ifs <;> intro h' <;> cases h'

/-- C7. DCT capacity: on an image whose width and height are multiples of 8, `EmbedText`
returns the capacity error exactly when `8 * (len + 1) > (w * h) / 64`; so a payload with as
many bits as there are 8×8 blocks is accepted. -/
theorem dct_capacity (img : Image) (text : Text) (hw : img.w % 8 = 0) (hh : img.h % 8 = 0) :
    DCTSteganography.EmbedText img text = .capacityError
      ↔ 8 * (text.length + 1) > (img.w * img.h) / 64 := by
  unfold DCTSteganography.EmbedText
  simp only [DCTSteganography.blockSize, textToBits_length, Nat.reduceMul]
  have hg : ¬ (img.w % 8 ≠ 0 ∨ img.h % 8 ≠ 0) := by simp [hw, hh]
  rw [if_neg hg]
  by_cases h : 8 * (text.length + 1) > img.w * img.h / 64
  · rw [if_pos h]
    exact ⟨fun _ => h, fun _ => rfl⟩
  · rw [if_neg h]
    constructor
    · intro h'; cases h'
    · intro h'; exact absurd h' h

namespace DWTSteganography

theorem EmbedText_eq (img : Image) (text : Text) :
    EmbedText img text =
      if (!isPowerOfTwo img.w || !isPowerOfTwo img.h) = true then .geometryError
      else if (textToBits text).length > (img.w * img.h) / 64 then .capacityError
      else embedBody img (textToBits text) := rfl

theorem embedBody_cases (img : Image) (bits : List Nat) :
    embedBody img bits = .fault ∨ ∃ out, embedBody img bits = .ok out := by
  unfold embedBody
  split
  · left; rfl
  · simp only []
    split
    · left; rfl
    · split_ifs
      · right; exact ⟨_, rfl⟩
      · left; rfl

end DWTSteganography

theorem isPowerOfTwo_nat (n : Nat) : isPowerOfTwo (n : Int) = true ↔ ∃ k : Nat, n = 2 ^ k := by
  rw [isPowerOfTwo_spec]
  constructor
  · rintro ⟨k, hk⟩; exact ⟨k, by exact_mod_cast hk⟩
  · rintro ⟨k, hk⟩; exact ⟨k, by exact_mod_cast hk⟩

open DWTSteganography in
/-- C8. DWT geometry: whatever the text, `EmbedText` returns the geometry error exactly when
the width or the height is not a power of two; a 100×100 image is rejected, a 256×256 image
is not rejected for its geometry. -/
theorem dwt_geometry (img : Image) (text : Text) :
    (DWTSteganography.EmbedText img text = .geometryError
      ↔ ((¬ ∃ k : Nat, img.w = 2 ^ k) ∨ (¬ ∃ k : Nat, img.h = 2 ^ k))) ∧
    DWTSteganography.EmbedText ⟨100, 100, img.pix⟩ text = .geometryError ∧
    DWTSteganography.EmbedText ⟨256, 256, img.pix⟩ text ≠ .geometryError := by
  have embedBody_ne_geometry : ∀ (img : Image) (bits : List Nat), embedBody img bits ≠
      .geometryError := by
    intro img bits
    rcases embedBody_cases img bits with h | ⟨out, h⟩ <;> rw [h] <;> intro h' <;> cases h'
  have key : ∀ (img : Image), DWTSteganography.EmbedText img text = .geometryError
      ↔ (¬ isPowerOfTwo img.w = true ∨ ¬ isPowerOfTwo img.h = true) := by
    intro img
    rw [DWTSteganography.EmbedText_eq]
    by_cases h : (!isPowerOfTwo img.w || !isPowerOfTwo img.h) = true
    · rw [if_pos h]
      simp only [true_iff]
      simpa using h
    · rw [if_neg h]
      have h' : ¬ (¬ isPowerOfTwo img.w = true ∨ ¬ isPowerOfTwo img.h = true) := by
        simpa using h
      simp only [h', iff_false]
      split_ifs
      · intro h; cases h
      · exact embedBody_ne_geometry _ _
  refine ⟨?_, ?_, ?_⟩
  · rw [key, isPowerOfTwo_nat, isPowerOfTwo_nat]
  · rw [key]; left
    show ¬ isPowerOfTwo ((100 : Nat) : Int) = true
    decide
  · rw [Ne, key]
    have h1 : isPowerOfTwo ((256 : Nat) : Int) = true := by decide
    show ¬ (¬ isPowerOfTwo ((256 : Nat) : Int) = true ∨ ¬ isPowerOfTwo ((256 : Nat) : Int) = true)
    simp only [h1, not_true_eq_false, or_self, not_false_eq_true]

open DWTSteganography in
/-- C10. DWT capacity: on an image whose width and height are powers of two, `EmbedText`
returns the capacity error exactly when `8 * (len + 1) > ((w * h) / 4) / 16`, and that limit
is `(w * h) / 64`. -/
theorem dwt_capacity (img : Image) (text : Text) (hw : ∃ k : Nat, img.w = 2 ^ k)
    (hh : ∃ k : Nat, img.h = 2 ^ k) :
    (DWTSteganography.EmbedText img text = .capacityError
      ↔ 8 * (text.length + 1) > ((img.w * img.h) / 4) / 16) ∧
    ((img.w * img.h) / 4) / 16 = (img.w * img.h) / 64 := by
  have embedBody_ne_capacity : ∀ (img : Image) (bits : List Nat), embedBody img bits ≠
      .capacityError := by
    intro img bits
    rcases embedBody_cases img bits with h | ⟨out, h⟩ <;> rw [h] <;> intro h' <;> cases h'
  have e : ((img.w * img.h) / 4) / 16 = (img.w * img.h) / 64 := by
    rw [Nat.div_div_eq_div_mul]
  refine ⟨?_, e⟩
  rw [e]
  have h1 : isPowerOfTwo img.w = true := (isPowerOfTwo_nat _).mpr hw
  have h2 : isPowerOfTwo img.h = true := (isPowerOfTwo_nat _).mpr hh
  rw [DWTSteganography.EmbedText_eq, if_neg (by simp [h1, h2]), textToBits_length]
  by_cases h : 8 * (text.length + 1) > img.w * img.h / 64
  · rw [if_pos h]
    exact ⟨fun _ => h, fun _ => rfl⟩
  · rw [if_neg h]
    simp only [h, iff_false]
    exact embedBody_ne_capacity _ _

/-! ### The Haar transform, cell by cell -/

namespace DWTSteganography

@[simp] theorem tabulate_length {α : Type} (n : Nat) (f : Nat → α) : (tabulate n f).length = n := by
  simp [tabulate]

theorem getD_tabulate {α : Type} {n i : Nat} (f : Nat → α) (d : α) (h : i < n) :
    (tabulate n f).getD i d = f i := by
  simp [tabulate, List.getD_eq_getElem?_getD, h]

theorem tabulate_congr {α : Type} {n : Nat} {f g : Nat → α} (h : ∀ i, i < n → f i = g i) :
    tabulate n f = tabulate n g := by
  unfold tabulate
  apply List.map_congr_left
  intro i hi
  exact h i (List.mem_range.mp hi)

theorem Mat.get_tabulate {r c i j : Nat} (f : Nat → Nat → ℝ) (hi : i < r) (hj : j < c) :
    Mat.get (tabulate r (fun i => tabulate c (f i))) i j = f i j := by
  unfold Mat.get
  rw [getD_tabulate _ _ hi, getD_tabulate _ _ hj]

theorem Mat.inRange_tabulate {r c i j : Nat} (f : Nat → Nat → ℝ) (hi : i < r) (hj : j < c) :
    Mat.inRange (tabulate r (fun i => tabulate c (f i))) i j = true := by
  unfold Mat.inRange
  rw [getD_tabulate _ _ hi]
  simp [hi, hj]

theorem div_sqrt2_twice (x : ℝ) : x / Real.sqrt 2 / Real.sqrt 2 = x / 2 := by
  have sqrt2_mul : Real.sqrt 2 * Real.sqrt 2 = 2 :=
    Real.mul_self_sqrt (by norm_num)
  rw [div_div, sqrt2_mul]

theorem dwt1D_fst_getD (data : Vec) {i : Nat} (h : i < data.length / 2) :
    (dwt1D data).1.getD i 0 = (data.getD (2 * i) 0 + data.getD (2 * i + 1) 0) / Real.sqrt 2 := by
  unfold dwt1D
  simp only []
  rw [getD_tabulate _ _ h]

theorem dwt1D_snd_getD (data : Vec) {i : Nat} (h : i < data.length / 2) :
    (dwt1D data).2.getD i 0 = (data.getD (2 * i) 0 - data.getD (2 * i + 1) 0) / Real.sqrt 2 := by
  unfold dwt1D
  simp only []
  rw [getD_tabulate _ _ h]

/-- The four subbands of a rectangular matrix with an even number of columns, cell by
cell. -/
theorem dwt2D_tabulate (H W : Nat) (X : Nat → Nat → ℝ) (hH : 0 < H) (hW : W % 2 = 0) :
    dwt2D (tabulate H (fun i => tabulate W (X i)))
      = some
        (tabulate (H / 2) (fun i => tabulate (W / 2) (fun j =>
            (X (2 * i) (2 * j) + X (2 * i) (2 * j + 1)
              + X (2 * i + 1) (2 * j) + X (2 * i + 1) (2 * j + 1)) / 2)),
         tabulate (H / 2) (fun i => tabulate (W / 2) (fun j =>
            (X (2 * i) (2 * j) - X (2 * i) (2 * j + 1)
              + X (2 * i + 1) (2 * j) - X (2 * i + 1) (2 * j + 1)) / 2)),
         tabulate (H / 2) (fun i => tabulate (W / 2) (fun j =>
            (X (2 * i) (2 * j) + X (2 * i) (2 * j + 1)
              - X (2 * i + 1) (2 * j) - X (2 * i + 1) (2 * j + 1)) / 2)),
         tabulate (H / 2) (fun i => tabulate (W / 2) (fun j =>
            (X (2 * i) (2 * j) - X (2 * i) (2 * j + 1)
              - X (2 * i + 1) (2 * j) + X (2 * i + 1) (2 * j + 1)) / 2))) := by
  unfold dwt2D
  simp only [tabulate_length]
  rw [if_neg (by omega)]
  have hrow0 : ((tabulate H (fun i => tabulate W (X i))).getD 0 []).length = W := by
    rw [getD_tabulate _ _ hH, tabulate_length]
  simp only [hrow0]
  have hall : (List.range W).all
      (fun j => decide (j < W / 2) || decide (H / 2 = 0) || decide (j - W / 2 < W / 2)) = true := by
    rw [List.all_eq_true]
    intro j hj
    have := List.mem_range.mp hj
    simp only [Bool.or_eq_true, decide_eq_true_eq]
    omega
  rw [if_pos hall]
  -- the intermediate matrix `tempH`
  have htemp : ∀ r c, r < H → c < W →
      Mat.get (tabulate H (fun i => tabulate W (fun j =>
        if j < W / 2 then
          (dwt1D ((tabulate H (fun i => tabulate W (X i))).getD i [])).1.getD j 0
        else (dwt1D ((tabulate H (fun i => tabulate W (X i))).getD i [])).2.getD (j - W / 2) 0)))
        r c
      = if c < W / 2 then (X r (2 * c) + X r (2 * c + 1)) / Real.sqrt 2
        else (X r (2 * (c - W / 2)) - X r (2 * (c - W / 2) + 1)) / Real.sqrt 2 := by
    intro r c hr hc
    rw [Mat.get_tabulate _ hr hc, getD_tabulate _ _ hr]
    by_cases h : c < W / 2
    · rw [if_pos h, if_pos h, dwt1D_fst_getD _ (by simpa using h), getD_tabulate _ _ (by omega),
        getD_tabulate _ _ (by omega)]
    · rw [if_neg h, if_neg h, dwt1D_snd_getD _ (by simp; omega), getD_tabulate _ _ (by omega),
        getD_tabulate _ _ (by omega)]
  have hcol : ∀ c i, c < W → i < H / 2 →
      ((dwt1D (tabulate H (fun r => Mat.get (tabulate H (fun i => tabulate W (fun j =>
        if j < W / 2 then
          (dwt1D ((tabulate H (fun i => tabulate W (X i))).getD i [])).1.getD j 0
        else (dwt1D ((tabulate H (fun i => tabulate W (X i))).getD i [])).2.getD (j - W / 2) 0)))
        r c))).1.getD i 0
        = ((if c < W / 2 then (X (2 * i) (2 * c) + X (2 * i) (2 * c + 1)) / Real.sqrt 2
            else (X (2 * i) (2 * (c - W / 2)) - X (2 * i) (2 * (c - W / 2) + 1)) / Real.sqrt 2)
          + (if c < W / 2 then (X (2 * i + 1) (2 * c) + X (2 * i + 1) (2 * c + 1)) / Real.sqrt 2
            else (X (2 * i + 1) (2 * (c - W / 2)) - X (2 * i + 1) (2 * (c - W / 2) + 1))
              / Real.sqrt 2)) / Real.sqrt 2)
      ∧
      ((dwt1D (tabulate H (fun r => Mat.get (tabulate H (fun i => tabulate W (fun j =>
        if j < W / 2 then
          (dwt1D ((tabulate H (fun i => tabulate W (X i))).getD i [])).1.getD j 0
        else (dwt1D ((tabulate H (fun i => tabulate W (X i))).getD i [])).2.getD (j - W / 2) 0)))
        r c))).2.getD i 0
        = ((if c < W / 2 then (X (2 * i) (2 * c) + X (2 * i) (2 * c + 1)) / Real.sqrt 2
            else (X (2 * i) (2 * (c - W / 2)) - X (2 * i) (2 * (c - W / 2) + 1)) / Real.sqrt 2)
          - (if c < W / 2 then (X (2 * i + 1) (2 * c) + X (2 * i + 1) (2 * c + 1)) / Real.sqrt 2
            else (X (2 * i + 1) (2 * (c - W / 2)) - X (2 * i + 1) (2 * (c - W / 2) + 1))
              / Real.sqrt 2)) / Real.sqrt 2) := by
    intro c i hc hi
    rw [dwt1D_fst_getD _ (by simpa using hi), dwt1D_snd_getD _ (by simpa using hi),
      getD_tabulate _ _ (by omega), getD_tabulate _ _ (by omega),
      htemp _ _ (by omega) hc, htemp _ _ (by omega) hc]
    exact ⟨rfl, rfl⟩
  congr 1
  refine Prod.ext ?_ (Prod.ext ?_ (Prod.ext ?_ ?_))
  · apply tabulate_congr; intro i hi
    apply tabulate_congr; intro j hj
    rw [(hcol j i (by omega) hi).1, if_pos hj, if_pos hj, ← add_div, div_sqrt2_twice]
    ring
  · apply tabulate_congr; intro i hi
    apply tabulate_congr; intro j hj
    have e : j + W / 2 - W / 2 = j := by omega
    rw [(hcol (j + W / 2) i (by omega) hi).1, if_neg (by omega), if_neg (by omega), e,
      ← add_div, div_sqrt2_twice]
    ring
  · apply tabulate_congr; intro i hi
    apply tabulate_congr; intro j hj
    rw [(hcol j i (by omega) hi).2, if_pos hj, if_pos hj, ← sub_div, div_sqrt2_twice]
    ring
  · apply tabulate_congr; intro i hi
    apply tabulate_congr; intro j hj
    have e : j + W / 2 - W / 2 = j := by omega
    rw [(hcol (j + W / 2) i (by omega) hi).2, if_neg (by omega), if_neg (by omega), e,
      ← sub_div, div_sqrt2_twice]
    ring

end DWTSteganography

/-! ### The inverse Haar transform -/

namespace DWTSteganography

theorem getD_take {α : Type} (l : List α) (k j : Nat) (d : α) (h : j < k) :
    (l.take k).getD j d = l.getD j d := by
  simp [List.getD_eq_getElem?_getD, List.getElem?_take, h]

theorem getD_drop {α : Type} (l : List α) (k j : Nat) (d : α) :
    (l.drop k).getD j d = l.getD (k + j) d := by
  simp [List.getD_eq_getElem?_getD, List.getElem?_drop]

theorem idwt2D_spec (ll lh hl hh : Mat) (R C : Nat) (hR : 0 < R) (hll : ll.length = R)
    (hC : (ll.getD 0 []).length = C)
    (hin : ∀ i, i < R → ∀ j, j < C → Mat.inRange ll i j = true ∧ Mat.inRange hl i j = true
      ∧ Mat.inRange lh i j = true ∧ Mat.inRange hh i j = true) :
    idwt2D ll lh hl hh
      = some (tabulate (R * 2) (fun r => tabulate (C * 2) (fun c => synth ll lh hl hh r c))) := by
  have idwt1D_getD : ∀ (approx detail : Vec) {k : Nat} (h : k < approx.length * 2), (idwt1D
      approx detail).getD k 0 = if k % 2 = 0 then (approx.getD (k / 2) 0 + detail.getD (k / 2) 0)
      / Real.sqrt 2 else (approx.getD (k / 2) 0 - detail.getD (k / 2) 0) / Real.sqrt 2 := by
    intro approx detail k h
    unfold idwt1D
    rw [getD_tabulate _ _ h]
  unfold idwt2D
  rw [if_neg (by omega)]
  simp only [hll, hC, Nat.mul_div_cancel _ (by norm_num : 0 < 2)]
  have hall : (List.range R).all (fun i => (List.range C).all (fun j =>
      Mat.inRange ll i j && Mat.inRange hl i j && Mat.inRange lh i j && Mat.inRange hh i j))
      = true := by
    rw [List.all_eq_true]
    intro i hi
    rw [List.all_eq_true]
    intro j hj
    obtain ⟨h1, h2, h3, h4⟩ := hin i (List.mem_range.mp hi) j (List.mem_range.mp hj)
    simp [h1, h2, h3, h4]
  rw [if_pos hall]
  congr 1
  apply tabulate_congr; intro r hr
  apply tabulate_congr; intro c hc
  have hcol : ∀ (a d : Mat) (j : Nat),
      (idwt1D (tabulate R (fun i => Mat.get a i j)) (tabulate R (fun i => Mat.get d i j))).getD r 0
        = if r % 2 = 0 then (a.get (r / 2) j + d.get (r / 2) j) / Real.sqrt 2
          else (a.get (r / 2) j - d.get (r / 2) j) / Real.sqrt 2 := by
    intro a d j
    rw [idwt1D_getD _ _ (by simp only [tabulate_length]; omega),
      getD_tabulate _ _ (by omega), getD_tabulate _ _ (by omega)]
  rw [getD_tabulate _ _ hr]
  generalize hT : (tabulate (C * 2) (fun j =>
      if j < C then
        (idwt1D (tabulate R (fun i => Mat.get ll i j)) (tabulate R (fun i => Mat.get hl i j))).getD r 0
      else
        (idwt1D (tabulate R (fun i => Mat.get lh i (j - C)))
          (tabulate R (fun i => Mat.get hh i (j - C)))).getD r 0)) = T
  have hTlen : T.length = C * 2 := by rw [← hT, tabulate_length]
  have hA : (T.take C).getD (c / 2) 0
      = if r % 2 = 0 then (ll.get (r / 2) (c / 2) + hl.get (r / 2) (c / 2)) / Real.sqrt 2
        else (ll.get (r / 2) (c / 2) - hl.get (r / 2) (c / 2)) / Real.sqrt 2 := by
    rw [getD_take _ _ _ _ (by omega), ← hT, getD_tabulate _ _ (by omega), if_pos (by omega), hcol]
  have hD : (T.drop C).getD (c / 2) 0
      = if r % 2 = 0 then (lh.get (r / 2) (c / 2) + hh.get (r / 2) (c / 2)) / Real.sqrt 2
        else (lh.get (r / 2) (c / 2) - hh.get (r / 2) (c / 2)) / Real.sqrt 2 := by
    have e : C + c / 2 - C = c / 2 := by omega
    rw [getD_drop, ← hT, getD_tabulate _ _ (by omega), if_neg (by omega), e, hcol]
  rw [idwt1D_getD _ _ (by simp only [List.length_take, hTlen]; omega), hA, hD]
  unfold synth
  by_cases h1 : c % 2 = 0 <;> by_cases h2 : r % 2 = 0
  · simp only [h1, h2, if_true, ← add_div, div_sqrt2_twice]
  · simp only [h1, h2, if_true, if_false, ← add_div, div_sqrt2_twice]
  · simp only [h1, h2, if_true, if_false, ← sub_div, div_sqrt2_twice]
  · simp only [h1, h2, if_false, ← sub_div, div_sqrt2_twice]

end DWTSteganography

/-! ### The DWT embedding loop -/

namespace DWTSteganography

theorem getD_set_row (m : Mat) (i i' : Nat) (row : List ℝ) (hi : i < m.length) :
    (List.set m i row).getD i' [] = if i' = i then row else m.getD i' [] := by
  simp only [List.getD_eq_getElem?_getD, List.getElem?_set]
  by_cases h : i = i'
  · subst h; simp [hi]
  · have h' : ¬ i' = i := fun e => h e.symm
    simp [h, h']

theorem Mat.inRange_iff (m : Mat) (i j : Nat) :
    m.inRange i j = true ↔ i < m.length ∧ j < (m.getD i []).length := by
  simp [Mat.inRange]

@[simp] theorem Mat.set_length (m : Mat) (i j : Nat) (v : ℝ) : (m.set i j v).length = m.length := by
  simp [Mat.set]

theorem Mat.set_row_length (m : Mat) (i j : Nat) (v : ℝ) (i' : Nat) :
    ((m.set i j v).getD i' []).length = (m.getD i' []).length := by
  unfold Mat.set
  by_cases hi : i < m.length
  · rw [getD_set_row _ _ _ _ hi]
    by_cases h : i' = i
    · subst h; simp
    · simp [h]
  · rw [List.set_eq_of_length_le (by omega)]

theorem Mat.inRange_set (m : Mat) (i j : Nat) (v : ℝ) (i' j' : Nat) :
    (m.set i j v).inRange i' j' = m.inRange i' j' := by
  unfold Mat.inRange
  rw [Mat.set_length, Mat.set_row_length]

theorem Mat.get_set (m : Mat) (i j : Nat) (v : ℝ) (i' j' : Nat) (h : m.inRange i j = true) :
    (m.set i j v).get i' j' = if i' = i ∧ j' = j then v else m.get i' j' := by
  have getD_set_elem : ∀ (l : List ℝ) (j j' : Nat) (v : ℝ) (hj : j < l.length), (l.set j v).getD
      j' 0 = if j' = j then v else l.getD j' 0 := by
    intro l j j' v hj
    simp only [List.getD_eq_getElem?_getD, List.getElem?_set]
    by_cases h : j = j'
    · subst h; simp [hj]
    · have h' : ¬ j' = j := fun e => h e.symm
      simp [h, h']
  obtain ⟨hi, hj⟩ := (Mat.inRange_iff m i j).mp h
  unfold Mat.set Mat.get
  rw [getD_set_row _ _ _ _ hi]
  by_cases h1 : i' = i
  · subst h1
    rw [if_pos rfl, getD_set_elem _ _ _ _ hj]
    by_cases h2 : j' = j
    · simp [h2]
    · simp [h2]
  · simp [h1]

theorem embedCoef_sweep (bits : List Nat) (hl0 : Mat) (R C : Nat) (hC : 0 < C)
    (hin : ∀ i, i < R → ∀ j, j < C → hl0.inRange i j = true) (n : Nat) (hn : n ≤ R * C) :
    (sweep (embedCoef bits) C ⟨hl0, 0⟩ n).bitIndex = n ∧
    (sweep (embedCoef bits) C ⟨hl0, 0⟩ n).hl.length = hl0.length ∧
    (∀ i j, (sweep (embedCoef bits) C ⟨hl0, 0⟩ n).hl.inRange i j = hl0.inRange i j) ∧
    ∀ k, k < R * C →
      (sweep (embedCoef bits) C ⟨hl0, 0⟩ n).hl.get (k / C) (k % C)
        = if k < n then enc (bits.getD k 0) (hl0.get (k / C) (k % C))
          else hl0.get (k / C) (k % C) := by
  have embedCoef_eq : ∀ (bits : List Nat) (i j : Nat) (s : EmbedState), embedCoef bits i j s =
      ⟨s.hl.set i j (enc (bits.getD s.bitIndex 0) (s.hl.get i j)), s.bitIndex + 1⟩ := by
    intro bits i j s
    unfold embedCoef enc
    split <;> rfl
  induction n with
  | zero => exact ⟨rfl, rfl, fun _ _ => rfl, fun k _ => by simp [sweep]⟩
  | succ n ih =>
    obtain ⟨hi, hlen, hr, hat⟩ := ih (by omega)
    rw [sweep_succ, embedCoef_eq]
    refine ⟨by simp [hi], by simpa using hlen, ?_, ?_⟩
    · intro i j
      simp only []
      rw [Mat.inRange_set, hr]
    · intro k hk
      simp only []
      have hb : n % C < C ∧ n / C < R := (raster_lt hC n).mpr (by omega)
      rw [Mat.get_set _ _ _ _ _ _ (by rw [hr]; exact hin _ hb.2 _ hb.1), hi]
      by_cases hkn : k = n
      · subst hkn
        rw [if_pos ⟨rfl, rfl⟩, if_pos (by omega), hat k hk, if_neg (by omega)]
      · have : ¬ (k / C = n / C ∧ k % C = n % C) :=
          fun h => hkn ((raster_inj k n).mp ⟨h.2, h.1⟩)
        rw [if_neg this, hat k hk]
        have : (k < n + 1) ↔ k < n := by omega
        simp only [this]

end DWTSteganography

/-! ### One 2×2 cell through embedding and extraction -/

namespace DWTSteganography

theorem floor_clamp_nat (n : Nat) : ⌊max (0 : ℝ) (min 255 ((n : ℝ) / 2))⌋₊ = min 255 (n / 2) := by
  by_cases h : 510 ≤ n
  · have h1 : (255 : ℝ) ≤ (n : ℝ) / 2 := by
      have : (510 : ℝ) ≤ n := by exact_mod_cast h
      linarith
    rw [min_eq_left h1, max_eq_right (by norm_num)]
    have : (⌊(255 : ℝ)⌋₊ : ℕ) = 255 := by
      have := @Nat.floor_natCast ℝ _ _ 255
      simp
    rw [this]
    omega
  · have h1 : (n : ℝ) / 2 ≤ 255 := by
      have : (n : ℝ) ≤ 510 := by exact_mod_cast (by omega : n ≤ 510)
      linarith
    have h2 : (0 : ℝ) ≤ (n : ℝ) / 2 := by positivity
    rw [min_eq_right h1, max_eq_right h2]
    have := @Nat.floor_div_eq_div ℝ _ _ n 2
    simp only [Nat.cast_ofNat] at this
    rw [this]
    omega

theorem floor_clamp_sub (n m : Nat) :
    ⌊max (0 : ℝ) (min 255 (((n : ℝ) - m) / 2))⌋₊ = min 255 ((n - m) / 2) := by
  by_cases h : m ≤ n
  · have : ((n : ℝ) - m) = ((n - m : ℕ) : ℝ) := by push_cast [Nat.cast_sub h]; ring
    rw [this, floor_clamp_nat]
  · have h1 : ((n : ℝ) - m) / 2 ≤ 0 := by
      have : (n : ℝ) ≤ m := by exact_mod_cast (by omega : n ≤ m)
      linarith
    rw [min_eq_right (by linarith), max_eq_left h1]
    have : n - m = 0 := by omega
    simp [this]

theorem clampToUInt8_val (v : ℝ) : (clampToUInt8 v).val = ⌊max (0 : ℝ) (min 255 v)⌋₊ := by
  unfold clampToUInt8 toUInt8
  have h : ⌊max (0 : ℝ) (min 255 v)⌋₊ ≤ 255 := by
    apply Nat.floor_le_of_le
    simp
  simp only [Fin.ofNat, Fin.val_mk]
  omega

/-- One 2×2 cell through embedding and extraction: the sign of the `HL` coefficient of the
clamped and truncated output pixels tells the embedded bit. -/
theorem cell_roundtrip (a b c d bit : Nat) (ha : a ≤ 255) (hb : b ≤ 255) (hc : c ≤ 255)
    (hd : d ≤ 255) (hbit : bit = 0 ∨ bit = 1) :
    let ll : ℝ := ((a : ℝ) + b + c + d) / 2
    let lh : ℝ := ((a : ℝ) - b + c - d) / 2
    let hl : ℝ := ((a : ℝ) + b - c - d) / 2
    let hh : ℝ := ((a : ℝ) - b - c + d) / 2
    let v := enc bit hl
    (if ((((clampToUInt8 (((ll + v) + (lh + hh)) / 2)).val : ℝ)
          + ((clampToUInt8 (((ll + v) - (lh + hh)) / 2)).val : ℝ)
          - ((clampToUInt8 (((ll - v) + (lh - hh)) / 2)).val : ℝ)
          - ((clampToUInt8 (((ll - v) - (lh - hh)) / 2)).val : ℝ)) / 2 > 0) then 1 else 0)
      = bit := by
  intro ll lh hl hh v
  simp only [clampToUInt8_val]
  rcases hbit with h0 | h1
  · -- bit 0: the coefficient becomes `-|hl| - 20`
    subst h0
    have hm : ∃ m : ℕ, m = 20 + ((a + b) - (c + d)) ∧ v = hl - (m : ℝ) := by
      refine ⟨_, rfl, ?_⟩
      show enc 0 hl = _
      unfold enc
      rw [if_neg (by norm_num)]
      by_cases h : c + d ≤ a + b
      · have : (0 : ℝ) ≤ hl := by
          show (0 : ℝ) ≤ ((a : ℝ) + b - c - d) / 2
          have : ((c + d : ℕ) : ℝ) ≤ ((a + b : ℕ) : ℝ) := by exact_mod_cast h
          push_cast at this
          linarith
        rw [abs_of_nonneg this]
        push_cast [Nat.cast_sub h]
        show _ = ((a : ℝ) + b - c - d) / 2 - _
        ring
      · have : hl ≤ 0 := by
          show ((a : ℝ) + b - c - d) / 2 ≤ 0
          have : ((a + b : ℕ) : ℝ) ≤ ((c + d : ℕ) : ℝ) := by exact_mod_cast (by omega)
          push_cast at this
          linarith
        rw [abs_of_nonpos this]
        have e : a + b - (c + d) = 0 := by omega
        rw [e]
        push_cast
        ring
    obtain ⟨m, hm, hv⟩ := hm
    have e1 : ((ll + v) + (lh + hh)) / 2 = (((2 * a : ℕ) : ℝ) - m) / 2 := by
      rw [hv]; simp only [ll, lh, hl, hh]; push_cast; ring
    have e2 : ((ll + v) - (lh + hh)) / 2 = (((2 * b : ℕ) : ℝ) - m) / 2 := by
      rw [hv]; simp only [ll, lh, hl, hh]; push_cast; ring
    have e3 : ((ll - v) + (lh - hh)) / 2 = (((2 * c + m : ℕ) : ℝ)) / 2 := by
      rw [hv]; simp only [ll, lh, hl, hh]; push_cast; ring
    have e4 : ((ll - v) - (lh - hh)) / 2 = (((2 * d + m : ℕ) : ℝ)) / 2 := by
      rw [hv]; simp only [ll, lh, hl, hh]; push_cast; ring
    rw [e1, e2, e3, e4, floor_clamp_sub, floor_clamp_sub, floor_clamp_nat, floor_clamp_nat]
    have key : min 255 ((2 * a - m) / 2) + min 255 ((2 * b - m) / 2)
        ≤ min 255 ((2 * c + m) / 2) + min 255 ((2 * d + m) / 2) := by
      omega
    have key' : ((min 255 ((2 * a - m) / 2) + min 255 ((2 * b - m) / 2) : ℕ) : ℝ)
        ≤ ((min 255 ((2 * c + m) / 2) + min 255 ((2 * d + m) / 2) : ℕ) : ℝ) := by
      exact_mod_cast key
    rw [if_neg]
    push_cast at key' ⊢
    linarith
  · subst h1
    have hm : ∃ m : ℕ, m = 20 + ((c + d) - (a + b)) ∧ v = hl + (m : ℝ) := by
      refine ⟨_, rfl, ?_⟩
      show enc 1 hl = _
      unfold enc
      rw [if_pos rfl]
      by_cases h : c + d ≤ a + b
      · have : (0 : ℝ) ≤ hl := by
          show (0 : ℝ) ≤ ((a : ℝ) + b - c - d) / 2
          have : ((c + d : ℕ) : ℝ) ≤ ((a + b : ℕ) : ℝ) := by exact_mod_cast h
          push_cast at this
          linarith
        rw [abs_of_nonneg this]
        have e : c + d - (a + b) = 0 := by omega
        rw [e]
        push_cast
        ring
      · have : hl ≤ 0 := by
          show ((a : ℝ) + b - c - d) / 2 ≤ 0
          have : ((a + b : ℕ) : ℝ) ≤ ((c + d : ℕ) : ℝ) := by exact_mod_cast (by omega)
          push_cast at this
          linarith
        rw [abs_of_nonpos this]
        push_cast [Nat.cast_sub (by omega : a + b ≤ c + d)]
        show _ = ((a : ℝ) + b - c - d) / 2 + _
        ring
    obtain ⟨m, hm, hv⟩ := hm
    have e1 : ((ll + v) + (lh + hh)) / 2 = (((2 * a + m : ℕ) : ℝ)) / 2 := by
      rw [hv]; simp only [ll, lh, hl, hh]; push_cast; ring
    have e2 : ((ll + v) - (lh + hh)) / 2 = (((2 * b + m : ℕ) : ℝ)) / 2 := by
      rw [hv]; simp only [ll, lh, hl, hh]; push_cast; ring
    have e3 : ((ll - v) + (lh - hh)) / 2 = (((2 * c : ℕ) : ℝ) - m) / 2 := by
      rw [hv]; simp only [ll, lh, hl, hh]; push_cast; ring
    have e4 : ((ll - v) - (lh - hh)) / 2 = (((2 * d : ℕ) : ℝ) - m) / 2 := by
      rw [hv]; simp only [ll, lh, hl, hh]; push_cast; ring
    rw [e1, e2, e3, e4, floor_clamp_sub, floor_clamp_sub, floor_clamp_nat, floor_clamp_nat]
    have key : min 255 ((2 * c - m) / 2) + min 255 ((2 * d - m) / 2)
        < min 255 ((2 * a + m) / 2) + min 255 ((2 * b + m) / 2) := by
      omega
    have key' : ((min 255 ((2 * c - m) / 2) + min 255 ((2 * d - m) / 2) : ℕ) : ℝ)
        < ((min 255 ((2 * a + m) / 2) + min 255 ((2 * b + m) / 2) : ℕ) : ℝ) := by
      exact_mod_cast key
    rw [if_pos]
    push_cast at key' ⊢
    linarith

end DWTSteganography

/-! ### The end marker -/

set_option maxRecDepth 100000 in
theorem packByte_byteBits (b : Byte) : packByte (byteBits b) = b := by
  revert b; decide

theorem bitsToText_byteBits (b : Byte) (rest : List Nat) :
    bitsToText (byteBits b ++ rest) = b :: bitsToText rest := by
  have e : byteBits b = [(b.val >>> 7) &&& 1, (b.val >>> 6) &&& 1, (b.val >>> 5) &&& 1,
      (b.val >>> 4) &&& 1, (b.val >>> 3) &&& 1, (b.val >>> 2) &&& 1, (b.val >>> 1) &&& 1,
      (b.val >>> 0) &&& 1] := rfl
  have h := packByte_byteBits b
  rw [e] at h ⊢
  show bitsToText (_ :: _ :: _ :: _ :: _ :: _ :: _ :: _ :: rest) = _
  rw [bitsToText, h]

theorem bitsToText_flatMap (text : Text) (rest : List Nat) :
    bitsToText (text.flatMap byteBits ++ rest) = text ++ bitsToText rest := by
  induction text with
  | nil => simp
  | cons b text ih =>
    simp only [List.flatMap_cons, List.append_assoc, bitsToText_byteBits, ih, List.cons_append]

theorem flatMap_byteBits_length (text : Text) : (text.flatMap byteBits).length = 8 * text.length := by
  induction text with
  | nil => rfl
  | cons b text ih =>
    simp only [List.flatMap_cons, List.length_append, byteBits_length, ih, List.length_cons]
    omega

theorem textToBits_eq (text : Text) : textToBits text = (text ++ [0]).flatMap byteBits := by
  unfold textToBits
  simp only [List.flatMap_append, List.flatMap_cons, List.flatMap_nil, List.append_nil]
  rfl

theorem textToBits_mem (text : Text) : ∀ x ∈ textToBits text, x = 0 ∨ x = 1 := by
  intro x hx
  rw [textToBits_eq, List.mem_flatMap] at hx
  obtain ⟨b, _, hb⟩ := hx
  unfold byteBits at hb
  simp only [List.mem_map] at hb
  obtain ⟨i, _, rfl⟩ := hb
  rw [Nat.and_one_is_mod]
  omega

theorem endMarker_none (acc : Text) (l : List Nat) (h0 : 0 < l.length) (h8 : l.length < 8) :
    endMarker (acc.flatMap byteBits ++ l) = none := by
  unfold endMarker
  rw [if_neg]
  rw [List.length_append, flatMap_byteBits_length]
  omega

theorem endMarker_byte (acc : Text) (b : Byte) :
    endMarker (acc.flatMap byteBits ++ byteBits b) = if b = 0 then some acc else none := by
  unfold endMarker
  rw [if_pos (by rw [List.length_append, flatMap_byteBits_length, byteBits_length]; omega)]
  have e : bitsToText (acc.flatMap byteBits ++ byteBits b) = acc ++ [b] := by
    have := bitsToText_flatMap (acc ++ [b]) []
    simpa [bitsToText] using this
  simp only [e]
  by_cases hb : b = 0
  · subst hb
    simp
  · simp [hb]

theorem markerStep_skip (acc : Text) (l pre rest : List Nat) (h8 : pre.length + l.length < 8) :
    runFlow markerStep (l ++ rest) (acc.flatMap byteBits ++ pre)
      = runFlow markerStep rest (acc.flatMap byteBits ++ pre ++ l) := by
  induction l generalizing pre with
  | nil => simp
  | cons x l ih =>
    simp only [List.cons_append, runFlow, markerStep]
    have hn : endMarker (acc.flatMap byteBits ++ pre ++ [x]) = none := by
      rw [List.append_assoc]
      exact endMarker_none acc (pre ++ [x]) (by simp) (by simp at h8 ⊢; omega)
    rw [hn]
    simp only []
    have := ih (pre ++ [x]) (by simp at h8 ⊢; omega)
    simp only [List.append_assoc] at this ⊢
    simpa using this

theorem markerStep_byte (acc : Text) (b : Byte) (rest : List Nat) :
    runFlow markerStep (byteBits b ++ rest) (acc.flatMap byteBits)
      = if b = 0 then .ret acc
        else runFlow markerStep rest ((acc ++ [b]).flatMap byteBits) := by
  have e : byteBits b = [(b.val >>> 7) &&& 1, (b.val >>> 6) &&& 1, (b.val >>> 5) &&& 1,
      (b.val >>> 4) &&& 1, (b.val >>> 3) &&& 1, (b.val >>> 2) &&& 1, (b.val >>> 1) &&& 1]
      ++ [(b.val >>> 0) &&& 1] := rfl
  have h7 := markerStep_skip acc [(b.val >>> 7) &&& 1, (b.val >>> 6) &&& 1,
      (b.val >>> 5) &&& 1, (b.val >>> 4) &&& 1, (b.val >>> 3) &&& 1, (b.val >>> 2) &&& 1,
      (b.val >>> 1) &&& 1] [] ([(b.val >>> 0) &&& 1] ++ rest) (by simp)
  simp only [List.append_nil] at h7
  have hm := endMarker_byte acc b
  rw [e] at hm ⊢
  rw [List.append_assoc, h7]
  simp only [List.cons_append, List.nil_append, runFlow, markerStep]
  simp only [List.append_assoc, List.cons_append, List.nil_append] at hm ⊢
  rw [hm]
  by_cases hb : b = 0
  · simp [hb]
  · simp only [hb, if_false]
    congr 1
    simp [List.flatMap_append, byteBits]

/-- The transform engines' extraction loop, fed the bits of a text without a zero byte and
anything after them, returns the text. -/
theorem markerStep_text (text : Text) (h0 : ∀ b ∈ text, b ≠ 0) (acc : Text) (rest : List Nat) :
    runFlow markerStep ((text ++ [0]).flatMap byteBits ++ rest) (acc.flatMap byteBits)
      = .ret (acc ++ text) := by
  induction text generalizing acc with
  | nil =>
    have := markerStep_byte acc 0 rest
    simpa using this
  | cons b text ih =>
    have hb : b ≠ 0 := h0 b (List.mem_cons_self _ _)
    simp only [List.cons_append, List.flatMap_cons, List.append_assoc]
    rw [markerStep_byte, if_neg hb, ih (fun b hb => h0 b (List.mem_cons_of_mem _ hb))]
    simp

/-! ### DWT embedding -/

set_option maxRecDepth 100000 in
theorem Color.red_eq (c : Color) : c.red = c.R.val := by
  have h : ∀ r : Byte, (r.val ||| (r.val <<< 8)) >>> 8 = r.val := by decide
  exact h c.R

theorem Color.red_le (c : Color) : c.red ≤ 255 := by
  rw [Color.red_eq]; have := c.R.isLt; omega

theorem red_grey (v : Byte) : (grey v).red = v.val := Color.red_eq _

namespace DWTSteganography

theorem imgData_eq (img : Image) :
    imgData img = tabulate img.h (fun i => tabulate img.w (fun j => ((img.At j i).red : ℝ))) :=
  rfl

theorem outputImage_spec (W H : Nat) (result : Mat) :
    (outputImage W H result).w = W ∧ (outputImage W H result).h = H ∧
    ∀ x y, x < W → y < H →
      (outputImage W H result).At x y = grey (clampToUInt8 (result.get y x)) := by
  obtain ⟨hw, hh, hat⟩ := fill_spec W H (fun x y => grey (clampToUInt8 (result.get y x)))
  refine ⟨hw, hh, ?_⟩
  intro x y hx hy
  have := hat x y
  rw [if_pos ⟨hx, hy⟩] at this
  exact this

/-- What `embedBody` returns on an image with even, positive dimensions, and the `HL`
coefficients of the returned image. -/
theorem embedBody_spec (img : Image) (bits : List Nat) (hWe : img.w % 2 = 0)
    (hHe : img.h % 2 = 0) (hW : 0 < img.w) (hH : 0 < img.h)
    (hbits : ∀ x ∈ bits, x = 0 ∨ x = 1) (hL : bits.length ≤ (img.h / 2) * (img.w / 2)) :
    ∃ out, embedBody img bits = .ok out ∧ out.w = img.w ∧ out.h = img.h ∧
      ∀ k, k < bits.length →
        (if hlOf (fun r c => ((out.At c r).red : ℝ)) (k / (img.w / 2)) (k % (img.w / 2)) > 0
          then 1 else 0) = bits.getD k 0 := by
  have hR : 0 < img.h / 2 := by omega
  have hC : 0 < img.w / 2 := by omega
  unfold embedBody
  rw [imgData_eq, dwt2D_tabulate img.h img.w _ hH hWe]
  simp only []
  -- the four subbands
  generalize hLL : (tabulate (img.h / 2) (fun i => tabulate (img.w / 2) (fun j =>
      (((img.At (2 * j) (2 * i)).red : ℝ) + ((img.At (2 * j + 1) (2 * i)).red : ℝ)
        + ((img.At (2 * j) (2 * i + 1)).red : ℝ) + ((img.At (2 * j + 1) (2 * i + 1)).red : ℝ))
        / 2))) = LL
  generalize hLH : (tabulate (img.h / 2) (fun i => tabulate (img.w / 2) (fun j =>
      (((img.At (2 * j) (2 * i)).red : ℝ) - ((img.At (2 * j + 1) (2 * i)).red : ℝ)
        + ((img.At (2 * j) (2 * i + 1)).red : ℝ) - ((img.At (2 * j + 1) (2 * i + 1)).red : ℝ))
        / 2))) = LH
  generalize hHL : (tabulate (img.h / 2) (fun i => tabulate (img.w / 2) (fun j =>
      (((img.At (2 * j) (2 * i)).red : ℝ) + ((img.At (2 * j + 1) (2 * i)).red : ℝ)
        - ((img.At (2 * j) (2 * i + 1)).red : ℝ) - ((img.At (2 * j + 1) (2 * i + 1)).red : ℝ))
        / 2))) = HL
  generalize hHH : (tabulate (img.h / 2) (fun i => tabulate (img.w / 2) (fun j =>
      (((img.At (2 * j) (2 * i)).red : ℝ) - ((img.At (2 * j + 1) (2 * i)).red : ℝ)
        - ((img.At (2 * j) (2 * i + 1)).red : ℝ) + ((img.At (2 * j + 1) (2 * i + 1)).red : ℝ))
        / 2))) = HH
  have hHLlen : HL.length = img.h / 2 := by rw [← hHL, tabulate_length]
  have hHLrow : (HL.getD 0 []).length = img.w / 2 := by
    rw [← hHL, getD_tabulate _ _ hR, tabulate_length]
  have hHLin : ∀ i, i < img.h / 2 → ∀ j, j < img.w / 2 → Mat.inRange HL i j = true := by
    intro i hi j hj; rw [← hHL]; exact Mat.inRange_tabulate _ hi hj
  rw [hHLlen, hHLrow,
    forWhile_grid (embedCoef bits) EmbedState.bitIndex (img.w / 2) (img.h / 2) bits.length
      ⟨HL, 0⟩ (fun _ _ _ => rfl) rfl,
    Nat.min_eq_left hL]
  obtain ⟨_, hlen', hin', hget'⟩ :=
    embedCoef_sweep bits HL (img.h / 2) (img.w / 2) hC hHLin bits.length hL
  generalize (sweep (embedCoef bits) (img.w / 2) ⟨HL, 0⟩ bits.length).hl = HL' at hlen' hin' hget' ⊢
  have hspec := idwt2D_spec LL LH HL' HH (img.h / 2) (img.w / 2) hR
    (by rw [← hLL, tabulate_length])
    (by rw [← hLL, getD_tabulate _ _ hR, tabulate_length])
    (by
      intro i hi j hj
      refine ⟨?_, ?_, ?_, ?_⟩
      · rw [← hLL]; exact Mat.inRange_tabulate _ hi hj
      · rw [hin']; exact hHLin i hi j hj
      · rw [← hLH]; exact Mat.inRange_tabulate _ hi hj
      · rw [← hHH]; exact Mat.inRange_tabulate _ hi hj)
  have e1 : img.h / 2 * 2 = img.h := by omega
  have e2 : img.w / 2 * 2 = img.w := by omega
  rw [e1, e2] at hspec
  rw [hspec]
  simp only []
  have hall : (List.range img.h).all (fun y => (List.range img.w).all (fun x =>
      Mat.inRange (tabulate img.h (fun r => tabulate img.w (fun c => synth LL LH HL' HH r c)))
        y x)) = true := by
    rw [List.all_eq_true]
    intro y hy
    rw [List.all_eq_true]
    intro x hx
    exact Mat.inRange_tabulate _ (List.mem_range.mp hy) (List.mem_range.mp hx)
  rw [if_pos hall]
  obtain ⟨ow, oh, oat⟩ := outputImage_spec img.w img.h
    (tabulate img.h (fun r => tabulate img.w (fun c => synth LL LH HL' HH r c)))
  refine ⟨_, rfl, ow, oh, ?_⟩
  intro k hk
  have hkRC : k < img.h / 2 * (img.w / 2) := by omega
  obtain ⟨hj, hi⟩ := (raster_lt hC k).mpr hkRC
  have hk' := hget' k hkRC
  rw [if_pos hk] at hk'
  have hbit : bits.getD k 0 = 0 ∨ bits.getD k 0 = 1 := by
    apply hbits
    rw [List.getD_eq_getElem?_getD, List.getElem?_eq_getElem hk]
    exact List.getElem_mem _
  generalize bits.getD k 0 = bit at hk' hbit ⊢
  generalize k / (img.w / 2) = i at hi hk' ⊢
  generalize k % (img.w / 2) = j at hj hk' ⊢
  have hcell := cell_roundtrip (img.At (2 * j) (2 * i)).red (img.At (2 * j + 1) (2 * i)).red
    (img.At (2 * j) (2 * i + 1)).red (img.At (2 * j + 1) (2 * i + 1)).red bit
    (Color.red_le _) (Color.red_le _) (Color.red_le _) (Color.red_le _) hbit
  simp only [] at hcell
  have hHLget : Mat.get HL i j
      = (((img.At (2 * j) (2 * i)).red : ℝ) + ((img.At (2 * j + 1) (2 * i)).red : ℝ)
        - ((img.At (2 * j) (2 * i + 1)).red : ℝ) - ((img.At (2 * j + 1) (2 * i + 1)).red : ℝ))
        / 2 := by
    rw [← hHL, Mat.get_tabulate _ hi hj]
  have hLLget : Mat.get LL i j
      = (((img.At (2 * j) (2 * i)).red : ℝ) + ((img.At (2 * j + 1) (2 * i)).red : ℝ)
        + ((img.At (2 * j) (2 * i + 1)).red : ℝ) + ((img.At (2 * j + 1) (2 * i + 1)).red : ℝ))
        / 2 := by
    rw [← hLL, Mat.get_tabulate _ hi hj]
  have hLHget : Mat.get LH i j
      = (((img.At (2 * j) (2 * i)).red : ℝ) - ((img.At (2 * j + 1) (2 * i)).red : ℝ)
        + ((img.At (2 * j) (2 * i + 1)).red : ℝ) - ((img.At (2 * j + 1) (2 * i + 1)).red : ℝ))
        / 2 := by
    rw [← hLH, Mat.get_tabulate _ hi hj]
  have hHHget : Mat.get HH i j
      = (((img.At (2 * j) (2 * i)).red : ℝ) - ((img.At (2 * j + 1) (2 * i)).red : ℝ)
        - ((img.At (2 * j) (2 * i + 1)).red : ℝ) + ((img.At (2 * j + 1) (2 * i + 1)).red : ℝ))
        / 2 := by
    rw [← hHH, Mat.get_tabulate _ hi hj]
  have d1 : 2 * i / 2 = i := by omega
  have d2 : (2 * i + 1) / 2 = i := by omega
  have d3 : 2 * j / 2 = j := by omega
  have d4 : (2 * j + 1) / 2 = j := by omega
  have m1 : 2 * i % 2 = 0 := by omega
  have m2 : (2 * i + 1) % 2 = 1 := by omega
  have m3 : 2 * j % 2 = 0 := by omega
  have m4 : (2 * j + 1) % 2 = 1 := by omega
  unfold hlOf
  simp only []
  have g1 := Mat.get_tabulate (fun r c => synth LL LH HL' HH r c)
    (by omega : 2 * i < img.h) (by omega : 2 * j < img.w)
  have g2 := Mat.get_tabulate (fun r c => synth LL LH HL' HH r c)
    (by omega : 2 * i < img.h) (by omega : 2 * j + 1 < img.w)
  have g3 := Mat.get_tabulate (fun r c => synth LL LH HL' HH r c)
    (by omega : 2 * i + 1 < img.h) (by omega : 2 * j < img.w)
  have g4 := Mat.get_tabulate (fun r c => synth LL LH HL' HH r c)
    (by omega : 2 * i + 1 < img.h) (by omega : 2 * j + 1 < img.w)
  simp only [oat (2 * j) (2 * i) (by omega) (by omega),
    oat (2 * j + 1) (2 * i) (by omega) (by omega),
    oat (2 * j) (2 * i + 1) (by omega) (by omega),
    oat (2 * j + 1) (2 * i + 1) (by omega) (by omega), red_grey, g1, g2, g3, g4]
  unfold synth
  simp only [d1, d2, d3, d4, m1, m2, m3, m4, if_true, if_false, one_ne_zero, hk', hHLget, hLLget,
    hLHget, hHHget]
  exact hcell

end DWTSteganography

/-! ### DWT extraction and round trip -/

namespace DWTSteganography

theorem even_of_pow_two {n : Nat} (h : ∃ k : Nat, n = 2 ^ k) (h2 : 2 ≤ n) : n % 2 = 0 := by
  obtain ⟨k, rfl⟩ := h
  cases k with
  | zero => simp at h2
  | succ k => rw [pow_succ]; simp

end DWTSteganography

/-- Witness of C1 on a 4×4 image and the one-byte text `"A"`. -/
theorem lsb_roundtrip_witness :
    (∀ b ∈ ([65] : Text), b ≠ 0) ∧ 8 * (([65] : Text).length + 1) ≤ sampleImage4.w * sampleImage4.h ∧
      ∃ out, LSB.EmbedText sampleImage4 [65] = .ok out ∧ LSB.ExtractText out = .ok [65] :=
  ⟨by simp, by decide, lsb_roundtrip sampleImage4 [65] (by simp) (by decide)⟩

/-- Witness of C7 on a 32×32 image: sixteen blocks hold the sixteen bits of `"H"`. -/
theorem dct_capacity_witness :
    sampleImage32.w % 8 = 0 ∧ sampleImage32.h % 8 = 0 ∧
      (DCTSteganography.EmbedText sampleImage32 [72] = .capacityError
        ↔ 8 * (([72] : Text).length + 1) > (sampleImage32.w * sampleImage32.h) / 64) :=
  ⟨by decide, by decide, dct_capacity sampleImage32 [72] (by decide) (by decide)⟩

/-- Witness of C10 on a 32×32 image. -/
theorem dwt_capacity_witness :
    (∃ k : Nat, sampleImage32.w = 2 ^ k) ∧ (∃ k : Nat, sampleImage32.h = 2 ^ k) ∧
      ((DWTSteganography.EmbedText sampleImage32 [72, 105] = .capacityError
        ↔ 8 * (([72, 105] : Text).length + 1) > ((sampleImage32.w * sampleImage32.h) / 4) / 16) ∧
      ((sampleImage32.w * sampleImage32.h) / 4) / 16 = (sampleImage32.w * sampleImage32.h) / 64) :=
  ⟨⟨5, rfl⟩, ⟨5, rfl⟩, dwt_capacity sampleImage32 [72, 105] ⟨5, rfl⟩ ⟨5, rfl⟩⟩

/-- C4, at its failing input. A 512×1 image passes the geometry test of the DWT engine
(`isPowerOfTwo 1` holds) and the capacity test for the empty text (8 bits, 512/64 = 8), yet
`EmbedText` does not return an image: `dwt2D` yields empty subbands and `idwt2D` indexes
`ll[0]`, a runtime panic. -/
theorem dwt_empty_text_faults :
    isPowerOfTwo stripImage.w = true ∧ isPowerOfTwo stripImage.h = true ∧
      (textToBits []).length ≤ (stripImage.w * stripImage.h) / 64 ∧
      DWTSteganography.EmbedText stripImage [] = .fault := by
  refine ⟨by decide, by decide, by decide, ?_⟩
  have h1 : isPowerOfTwo stripImage.w = true := by decide
  have h2 : isPowerOfTwo stripImage.h = true := by decide
  rw [DWTSteganography.EmbedText_eq, if_neg (by simp [h1, h2]), if_neg (by decide)]
  unfold DWTSteganography.embedBody
  rw [DWTSteganography.imgData_eq,
    DWTSteganography.dwt2D_tabulate stripImage.h stripImage.w _ (by decide) (by decide)]
  have e : stripImage.h / 2 = 0 := by decide
  simp only [e, DWTSteganography.tabulate, List.range_zero, List.map_nil, List.length_nil,
    forWhile]
  rfl

/-! ### Soundness of the certificate checker -/

namespace Cert

theorem blo_pos (k : Nat) : 0 < blo k := by
  unfold blo; split <;> norm_num

theorem blo_le_bhi (k : Nat) : blo k ≤ bhi k := by
  unfold blo bhi; split <;> norm_num

theorem mem_cands {a6 : Nat} {pq : Int × Int} (h : pq ∈ cands a6) : 0 ≤ pq.1 ∧ 0 < pq.2 := by
  unfold cands at h
  rcases List.mem_append.mp h with h | h
  · rw [List.mem_filterMap] at h
    obtain ⟨g, _, hg⟩ := h
    by_cases hlt : Gam a6 g < 255
    · rw [if_pos hlt] at hg
      cases hg
      have h0 : 0 ≤ Gam a6 g := by unfold Gam; positivity
      exact ⟨h0, by simp only; omega⟩
    · rw [if_neg hlt] at hg
      cases hg
  · rcases List.mem_cons.mp h with h | h
    · subst h; norm_num
    rcases List.mem_cons.mp h with h | h
    · subst h; norm_num
    · cases h

theorem contrib_le {beta : Nat → ℝ} {lam : ℝ} (G : Groups beta lam) (a6 : Nat)
    (ha : (a6 : ℝ) / 10 ^ 6 < lam) (p q : Int) (hp : 0 ≤ p) (hq : 0 < q)
    (fixed : Nat → Option Nat) (hfix : ∀ g m, fixed g = some m → (m : Int) = G.n g)
    (g : Nat) (hg : g < 8) :
    contrib a6 p q fixed g ≤ q * G.su g - p * G.sv g := by
  have hγ := G.lower a6 ha g hg
  have hn0 := G.n_nonneg g
  have hn8 := G.n_le g hg
  have hgain := G.gain g
  have hroom := G.room g
  have hact : G.n g * (q * G.Gm g - p * (255 - G.Gm g)) ≤ q * G.su g - p * G.sv g := by
    have h1 : q * (G.n g * G.Gm g) ≤ q * G.su g := mul_le_mul_of_nonneg_left hgain (le_of_lt hq)
    have h2 : p * G.sv g ≤ p * (G.n g * (255 - G.Gm g)) := mul_le_mul_of_nonneg_left hroom hp
    nlinarith
  have hmono : tau a6 p q g ≤ q * G.Gm g - p * (255 - G.Gm g) := by
    unfold tau
    have : 0 ≤ (q + p) * (G.Gm g - Gam a6 g) := mul_nonneg (by omega) (by omega)
    nlinarith
  unfold contrib
  cases hf : fixed g with
  | some m =>
    simp only []
    rw [hfix g m hf]
    have : G.n g * tau a6 p q g ≤ G.n g * (q * G.Gm g - p * (255 - G.Gm g)) :=
      mul_le_mul_of_nonneg_left hmono hn0
    linarith
  | none =>
    simp only []
    by_cases hs : 0 ≤ q * G.Gm g - p * (255 - G.Gm g)
    · have h1 : 8 * min 0 (tau a6 p q g) ≤ 0 := by
        have : min 0 (tau a6 p q g) ≤ 0 := min_le_left _ _
        omega
      have h2 : 0 ≤ G.n g * (q * G.Gm g - p * (255 - G.Gm g)) := mul_nonneg hn0 hs
      linarith
    · have h1 : min 0 (tau a6 p q g) ≤ tau a6 p q g := min_le_right _ _
      have h2 : (8 - G.n g) * (q * G.Gm g - p * (255 - G.Gm g)) ≤ 0 :=
        mul_nonpos_of_nonneg_of_nonpos (by omega) (by omega)
      nlinarith

theorem sel_le {beta : Nat → ℝ} (k : Nat) (hlo : ((blo k : Int) : ℝ) / 10 ^ 9 ≤ beta k)
    (hhi : beta k ≤ ((bhi k : Int) : ℝ) / 10 ^ 9) (c : Int) :
    ((sel k c : Int) : ℝ) ≤ 10 ^ 9 * (beta k * (c : ℝ)) := by
  unfold sel
  have h9 : (0 : ℝ) < 10 ^ 9 := by positivity
  have hlo' : ((blo k : Int) : ℝ) ≤ 10 ^ 9 * beta k := by
    rw [div_le_iff₀ h9] at hlo; linarith
  have hhi' : 10 ^ 9 * beta k ≤ ((bhi k : Int) : ℝ) := by
    rw [le_div_iff₀ h9] at hhi; linarith
  by_cases hc : 0 ≤ c
  · rw [if_pos hc]
    have hc' : (0 : ℝ) ≤ (c : ℝ) := by exact_mod_cast hc
    push_cast
    nlinarith
  · rw [if_neg hc]
    have hc' : (c : ℝ) ≤ 0 := by exact_mod_cast (by omega : c ≤ 0)
    push_cast
    nlinarith

theorem classCoef_le {beta : Nat → ℝ} {lam : ℝ} (G : Groups beta lam) (a6 : Nat)
    (ha : (a6 : ℝ) / 10 ^ 6 < lam) (p q : Int) (hp : 0 ≤ p) (hq : 0 < q)
    (fixed : Nat → Option Nat) (hfix : ∀ g m, fixed g = some m → (m : Int) = G.n g)
    (k : Nat) (hk : k < 4) :
    classCoef a6 p q fixed k
      ≤ 2040 * p + q * (G.su (2 * k) + G.su (2 * k + 1)) - p * (G.sv (2 * k) + G.sv (2 * k + 1)) := by
  unfold classCoef
  have h1 := contrib_le G a6 ha p q hp hq fixed hfix (2 * k) (by omega)
  have h2 := contrib_le G a6 ha p q hp hq fixed hfix (2 * k + 1) (by omega)
  linarith

theorem sel_classCoef_le {beta : Nat → ℝ} {lam : ℝ}
    (hb : ∀ k, k < 4 → ((blo k : Int) : ℝ) / 10 ^ 9 ≤ beta k ∧ beta k ≤ ((bhi k : Int) : ℝ) / 10 ^ 9)
    (G : Groups beta lam) (a6 : Nat)
    (ha : (a6 : ℝ) / 10 ^ 6 < lam) (p q : Int) (hp : 0 ≤ p) (hq : 0 < q)
    (fixed : Nat → Option Nat) (hfix : ∀ g m, fixed g = some m → (m : Int) = G.n g)
    (k : Nat) (hk : k < 4) :
    ((sel k (classCoef a6 p q fixed k) : Int) : ℝ)
      ≤ 10 ^ 9 * (beta k * (2040 * (p : ℝ) + (q : ℝ) * ((G.su (2 * k) + G.su (2 * k + 1) : Int) : ℝ)
          - (p : ℝ) * ((G.sv (2 * k) + G.sv (2 * k + 1) : Int) : ℝ))) := by
  have h1 := sel_le k (hb k hk).1 (hb k hk).2 (classCoef a6 p q fixed k)
  have h2 := classCoef_le G a6 ha p q hp hq fixed hfix k hk
  have h3 : ((classCoef a6 p q fixed k : Int) : ℝ)
      ≤ 2040 * (p : ℝ) + (q : ℝ) * ((G.su (2 * k) + G.su (2 * k + 1) : Int) : ℝ)
          - (p : ℝ) * ((G.sv (2 * k) + G.sv (2 * k + 1) : Int) : ℝ) := by
    exact_mod_cast h2
  have hβ : 0 ≤ beta k := by
    have h0 : (0 : ℝ) < ((blo k : Int) : ℝ) := by exact_mod_cast blo_pos k
    have : (0 : ℝ) ≤ ((blo k : Int) : ℝ) / 10 ^ 9 := by positivity
    linarith [(hb k hk).1]
  have h4 := mul_le_mul_of_nonneg_left h3 hβ
  linarith

theorem leaf_sound {beta : Nat → ℝ} {lam : ℝ}
    (hb : ∀ k, k < 4 → ((blo k : Int) : ℝ) / 10 ^ 9 ≤ beta k ∧ beta k ≤ ((bhi k : Int) : ℝ) / 10 ^ 9)
    (G : Groups beta lam) (a6 b6 : Nat)
    (ha : (a6 : ℝ) / 10 ^ 6 < lam) (hl : lam ≤ (b6 : ℝ) / 10 ^ 6)
    (fixed : Nat → Option Nat) (hfix : ∀ g m, fixed g = some m → (m : Int) = G.n g)
    (pq : Int × Int) (hpq : pq ∈ cands a6) :
    leafOK a6 b6 fixed pq = false := by
  obtain ⟨hp, hq⟩ := mem_cands hpq
  by_contra hne
  have ht : leafOK a6 b6 fixed pq = true := by
    cases h : leafOK a6 b6 fixed pq
    · exact absurd h hne
    · rfl
  unfold leafOK at ht
  have hlt := of_decide_eq_true ht
  have hltR : ((pq.2 * (8 * (b6 : Int) - 50000000) * 1000 : Int) : ℝ)
      < ((sel 0 (classCoef a6 pq.1 pq.2 fixed 0) + sel 1 (classCoef a6 pq.1 pq.2 fixed 1)
      + sel 2 (classCoef a6 pq.1 pq.2 fixed 2) + sel 3 (classCoef a6 pq.1 pq.2 fixed 3) : Int) : ℝ) := by
    exact_mod_cast hlt
  have s0 := sel_classCoef_le hb G a6 ha pq.1 pq.2 hp hq fixed hfix 0 (by norm_num)
  have s1 := sel_classCoef_le hb G a6 ha pq.1 pq.2 hp hq fixed hfix 1 (by norm_num)
  have s2 := sel_classCoef_le hb G a6 ha pq.1 pq.2 hp hq fixed hfix 2 (by norm_num)
  have s3 := sel_classCoef_le hb G a6 ha pq.1 pq.2 hp hq fixed hfix 3 (by norm_num)
  have ht := G.total
  have hf := G.flipped
  have hpR : (0 : ℝ) ≤ (pq.1 : ℝ) := by exact_mod_cast hp
  have hqR : (0 : ℝ) < (pq.2 : ℝ) := by exact_mod_cast hq
  have hl6 : lam * 10 ^ 6 ≤ (b6 : ℝ) := by
    rwa [le_div_iff₀ (by positivity)] at hl
  simp only [Nat.mul_zero, Nat.mul_one, Nat.zero_add, Nat.reduceMul, Nat.reduceAdd] at s0 s1 s2 s3
  push_cast at hltR s0 s1 s2 s3 ht hf
  have e1 := mul_le_mul_of_nonneg_left ht (le_of_lt hqR)
  have e2 := mul_le_mul_of_nonneg_left hf (add_nonneg hpR (le_of_lt hqR))
  have e3 := mul_le_mul_of_nonneg_left hl6 (le_of_lt hqR)
  nlinarith

set_option maxRecDepth 100000 in
theorem tree_sound {beta : Nat → ℝ} {lam : ℝ}
    (hb : ∀ k, k < 4 → ((blo k : Int) : ℝ) / 10 ^ 9 ≤ beta k ∧ beta k ≤ ((bhi k : Int) : ℝ) / 10 ^ 9)
    (G : Groups beta lam) (a6 b6 : Nat)
    (ha : (a6 : ℝ) / 10 ^ 6 < lam) (hl : lam ≤ (b6 : ℝ) / 10 ^ 6) :
    ∀ (ord : List Nat), (∀ g ∈ ord, g < 8) →
      ∀ (fixed : Nat → Option Nat), (∀ g m, fixed g = some m → (m : Int) = G.n g) →
        tree a6 b6 ord fixed = false := by
  have hleaf : ∀ (fixed : Nat → Option Nat), (∀ g m, fixed g = some m → (m : Int) = G.n g) →
      (cands a6).any (leafOK a6 b6 fixed) = false := by
    intro fixed hfix
    rw [List.any_eq_false]
    intro pq hpq
    rw [leaf_sound hb G a6 b6 ha hl fixed hfix pq hpq]
    simp
  intro ord
  induction ord with
  | nil =>
    intro _ fixed hfix
    unfold tree
    exact hleaf fixed hfix
  | cons g rest ih =>
    intro hord fixed hfix
    unfold tree
    rw [hleaf fixed hfix, Bool.false_or, List.all_eq_false]
    have hg : g < 8 := hord g (List.mem_cons_self _ _)
    have h0 := G.n_nonneg g
    have h8 := G.n_le g hg
    refine ⟨(G.n g).toNat, ?_, ?_⟩
    · rw [List.mem_range]; omega
    · rw [ih (fun g' hg' => hord g' (List.mem_cons_of_mem _ hg'))]
      · simp
      · intro g' m hm
        by_cases hgg : g' = g
        · rw [if_pos hgg] at hm
          cases hm
          subst hgg
          omega
        · rw [if_neg hgg] at hm
          exact hfix g' m hm

set_option maxRecDepth 100000 in
theorem walk_sound {beta : Nat → ℝ} {lam : ℝ}
    (hb : ∀ k, k < 4 → ((blo k : Int) : ℝ) / 10 ^ 9 ≤ beta k ∧ beta k ≤ ((bhi k : Int) : ℝ) / 10 ^ 9)
    (G : Groups beta lam) (limit : Nat) (hl : lam ≤ (limit : ℝ) / 10 ^ 6) :
    ∀ (fuel a6 : Nat), (a6 : ℝ) / 10 ^ 6 < lam → walk limit fuel a6 = false := by
  have hbig : ∀ a6 : Nat, (a6 : ℝ) / 10 ^ 6 < lam → ¬ limit ≤ a6 := by
    intro a6 ha h
    have h' : (limit : ℝ) ≤ (a6 : ℝ) := by exact_mod_cast h
    have : (limit : ℝ) / 10 ^ 6 ≤ (a6 : ℝ) / 10 ^ 6 :=
      div_le_div_of_nonneg_right h' (by positivity)
    linarith
  intro fuel
  induction fuel with
  | zero =>
    intro a6 ha
    unfold walk
    exact decide_eq_false (hbig a6 ha)
  | succ fuel ih =>
    intro a6 ha
    unfold walk
    rw [if_neg (hbig a6 ha)]
    by_cases hn : lam ≤ ((nextb a6 : Nat) : ℝ) / 10 ^ 6
    · rw [tree_sound hb G a6 (nextb a6) ha hn order (by decide) (fun _ => none) (by simp)]
      rfl
    · rw [ih (nextb a6) (lt_of_not_le hn)]
      simp

/-- A certificate for the strengths from `a` to `b` excludes the groups of a block. -/
theorem walk_excludes {beta : Nat → ℝ} {lam : ℝ}
    (hb : ∀ k, k < 4 → ((blo k : Int) : ℝ) / 10 ^ 9 ≤ beta k ∧ beta k ≤ ((bhi k : Int) : ℝ) / 10 ^ 9)
    (G : Groups beta lam) (a b fuel : Nat) (hw : walk b fuel a = true)
    (h1 : (a : ℝ) / 10 ^ 6 < lam) (h2 : lam ≤ (b : ℝ) / 10 ^ 6) : False := by
  rw [walk_sound hb G b h2 fuel a h1] at hw
  exact Bool.noConfusion hw

end Cert

/-! ### The certificate -/

namespace Cert

set_option maxRecDepth 100000 in
theorem walk_ok_0 : walk 38931831 100 6249999 = true := by decide!

set_option maxRecDepth 100000 in
theorem walk_ok_1 : walk 40373751 100 38931831 = true := by decide!

set_option maxRecDepth 100000 in
theorem walk_ok_2 : walk 40728275 100 40373751 = true := by decide!

set_option maxRecDepth 100000 in
theorem walk_ok_3 : walk 44699510 100 40728275 = true := by decide!

set_option maxRecDepth 100000 in
theorem walk_ok_4 : walk 45819310 100 44699510 = true := by decide!

set_option maxRecDepth 100000 in
theorem walk_ok_5 : walk 50467188 100 45819310 = true := by decide!

set_option maxRecDepth 100000 in
theorem walk_ok_6 : walk 50743138 100 50467188 = true := by decide!

set_option maxRecDepth 100000 in
theorem walk_ok_7 : walk 54792947 100 50743138 = true := by decide!

set_option maxRecDepth 100000 in
theorem walk_ok_8 : walk 56001378 100 54792947 = true := by decide!

set_option maxRecDepth 100000 in
theorem walk_ok_9 : walk 88444731 100 56001378 = true := by decide!

set_option maxRecDepth 100000 in
theorem walk_ok_10 : walk 122184825 100 88444731 = true := by decide!

set_option maxRecDepth 100000 in
theorem walk_ok_11 : walk 154778278 100 122184825 = true := by decide!

set_option maxRecDepth 100000 in
theorem walk_ok_12 : walk 188368271 100 154778278 = true := by decide!

set_option maxRecDepth 100000 in
theorem walk_ok_13 : walk 221111826 100 188368271 = true := by decide!

set_option maxRecDepth 100000 in
theorem walk_ok_14 : walk 253777858 100 221111826 = true := by decide!

set_option maxRecDepth 100000 in
theorem walk_ok_15 : walk 287445373 100 253777858 = true := by decide!

set_option maxRecDepth 100000 in
theorem walk_ok_16 : walk 320106162 100 287445373 = true := by decide!

set_option maxRecDepth 100000 in
theorem walk_ok_17 : walk 353778921 100 320106162 = true := by decide!

set_option maxRecDepth 100000 in
theorem walk_ok_18 : walk 386434466 100 353778921 = true := by decide!

set_option maxRecDepth 100000 in
theorem walk_ok_19 : walk 420010333 100 386434466 = true := by decide!

set_option maxRecDepth 100000 in
theorem walk_ok_20 : walk 452762770 100 420010333 = true := by decide!

set_option maxRecDepth 100000 in
theorem walk_ok_21 : walk 469000000 100 452762770 = true := by decide!

end Cert

/-! ### The cosines of the coefficient `[4][3]` -/

namespace DCTSteganography

theorem basis_prod (x y : Fin 8) :
    basis x 4 * basis y 3 = (if rowNeg x = colNeg y then 1 else -1) * beta (cls y) := by
  have basis_eq : ∀ (x u : Fin 8), basis x u = Real.cos ((2 * (x.val : ℝ) + 1) * (u.val : ℝ) *
      Real.pi / 16) := by
    intro x u
    unfold basis blockSize
    congr 1
    push_cast
    ring
  have basis_col : ∀ (y : Fin 8), basis y 3 = (if colNeg y then -1 else 1) * gamma (cls y) := by
    intro y
    rw [basis_eq]
    fin_cases y
    · show Real.cos ((2 * ((0 : Nat) : ℝ) + 1) * ((3 : Nat) : ℝ) * Real.pi / 16) = _
      rw [show (2 * ((0 : Nat) : ℝ) + 1) * ((3 : Nat) : ℝ) * Real.pi / 16 = 3 * Real.pi / 16 by
        push_cast; ring]
      simp [colNeg, cls, gamma]
    · show Real.cos ((2 * ((1 : Nat) : ℝ) + 1) * ((3 : Nat) : ℝ) * Real.pi / 16) = _
      rw [show (2 * ((1 : Nat) : ℝ) + 1) * ((3 : Nat) : ℝ) * Real.pi / 16
          = Real.pi - 7 * Real.pi / 16 by push_cast; ring, Real.cos_pi_sub]
      simp [colNeg, cls, gamma]
    · show Real.cos ((2 * ((2 : Nat) : ℝ) + 1) * ((3 : Nat) : ℝ) * Real.pi / 16) = _
      rw [show (2 * ((2 : Nat) : ℝ) + 1) * ((3 : Nat) : ℝ) * Real.pi / 16
          = Real.pi - Real.pi / 16 by push_cast; ring, Real.cos_pi_sub]
      simp [colNeg, cls, gamma]
    · show Real.cos ((2 * ((3 : Nat) : ℝ) + 1) * ((3 : Nat) : ℝ) * Real.pi / 16) = _
      rw [show (2 * ((3 : Nat) : ℝ) + 1) * ((3 : Nat) : ℝ) * Real.pi / 16
          = 5 * Real.pi / 16 + Real.pi by push_cast; ring, Real.cos_add_pi]
      simp [colNeg, cls, gamma]
    · show Real.cos ((2 * ((4 : Nat) : ℝ) + 1) * ((3 : Nat) : ℝ) * Real.pi / 16) = _
      rw [show (2 * ((4 : Nat) : ℝ) + 1) * ((3 : Nat) : ℝ) * Real.pi / 16
          = 2 * Real.pi - 5 * Real.pi / 16 by push_cast; ring, Real.cos_two_pi_sub]
      simp [colNeg, cls, gamma]
    · show Real.cos ((2 * ((5 : Nat) : ℝ) + 1) * ((3 : Nat) : ℝ) * Real.pi / 16) = _
      rw [show (2 * ((5 : Nat) : ℝ) + 1) * ((3 : Nat) : ℝ) * Real.pi / 16
          = Real.pi / 16 + 2 * Real.pi by push_cast; ring, Real.cos_add_two_pi]
      simp [colNeg, cls, gamma]
    · show Real.cos ((2 * ((6 : Nat) : ℝ) + 1) * ((3 : Nat) : ℝ) * Real.pi / 16) = _
      rw [show (2 * ((6 : Nat) : ℝ) + 1) * ((3 : Nat) : ℝ) * Real.pi / 16
          = 7 * Real.pi / 16 + 2 * Real.pi by push_cast; ring, Real.cos_add_two_pi]
      simp [colNeg, cls, gamma]
    · show Real.cos ((2 * ((7 : Nat) : ℝ) + 1) * ((3 : Nat) : ℝ) * Real.pi / 16) = _
      rw [show (2 * ((7 : Nat) : ℝ) + 1) * ((3 : Nat) : ℝ) * Real.pi / 16
          = (Real.pi - 3 * Real.pi / 16) + 2 * Real.pi by push_cast; ring, Real.cos_add_two_pi,
        Real.cos_pi_sub]
      simp [colNeg, cls, gamma]
  have basis_row : ∀ (x : Fin 8), basis x 4 = (if rowNeg x then -1 else 1) * Real.cos (Real.pi /
      4) := by
    intro x
    rw [basis_eq]
    fin_cases x
    · show Real.cos ((2 * ((0 : Nat) : ℝ) + 1) * ((4 : Nat) : ℝ) * Real.pi / 16) = _
      rw [show (2 * ((0 : Nat) : ℝ) + 1) * ((4 : Nat) : ℝ) * Real.pi / 16 = Real.pi / 4 by
        push_cast; ring]
      simp [rowNeg]
    · show Real.cos ((2 * ((1 : Nat) : ℝ) + 1) * ((4 : Nat) : ℝ) * Real.pi / 16) = _
      rw [show (2 * ((1 : Nat) : ℝ) + 1) * ((4 : Nat) : ℝ) * Real.pi / 16 = Real.pi - Real.pi / 4 by
        push_cast; ring, Real.cos_pi_sub]
      simp [rowNeg]
    · show Real.cos ((2 * ((2 : Nat) : ℝ) + 1) * ((4 : Nat) : ℝ) * Real.pi / 16) = _
      rw [show (2 * ((2 : Nat) : ℝ) + 1) * ((4 : Nat) : ℝ) * Real.pi / 16 = Real.pi / 4 + Real.pi by
        push_cast; ring, Real.cos_add_pi]
      simp [rowNeg]
    · show Real.cos ((2 * ((3 : Nat) : ℝ) + 1) * ((4 : Nat) : ℝ) * Real.pi / 16) = _
      rw [show (2 * ((3 : Nat) : ℝ) + 1) * ((4 : Nat) : ℝ) * Real.pi / 16
          = 2 * Real.pi - Real.pi / 4 by push_cast; ring, Real.cos_two_pi_sub]
      simp [rowNeg]
    · show Real.cos ((2 * ((4 : Nat) : ℝ) + 1) * ((4 : Nat) : ℝ) * Real.pi / 16) = _
      rw [show (2 * ((4 : Nat) : ℝ) + 1) * ((4 : Nat) : ℝ) * Real.pi / 16
          = Real.pi / 4 + 2 * Real.pi by push_cast; ring, Real.cos_add_two_pi]
      simp [rowNeg]
    · show Real.cos ((2 * ((5 : Nat) : ℝ) + 1) * ((4 : Nat) : ℝ) * Real.pi / 16) = _
      rw [show (2 * ((5 : Nat) : ℝ) + 1) * ((4 : Nat) : ℝ) * Real.pi / 16
          = (Real.pi - Real.pi / 4) + 2 * Real.pi by push_cast; ring, Real.cos_add_two_pi,
        Real.cos_pi_sub]
      simp [rowNeg]
    · show Real.cos ((2 * ((6 : Nat) : ℝ) + 1) * ((4 : Nat) : ℝ) * Real.pi / 16) = _
      rw [show (2 * ((6 : Nat) : ℝ) + 1) * ((4 : Nat) : ℝ) * Real.pi / 16
          = (Real.pi / 4 + Real.pi) + 2 * Real.pi by push_cast; ring, Real.cos_add_two_pi,
        Real.cos_add_pi]
      simp [rowNeg]
    · show Real.cos ((2 * ((7 : Nat) : ℝ) + 1) * ((4 : Nat) : ℝ) * Real.pi / 16) = _
      rw [show (2 * ((7 : Nat) : ℝ) + 1) * ((4 : Nat) : ℝ) * Real.pi / 16
          = (2 * Real.pi - Real.pi / 4) + 2 * Real.pi by push_cast; ring, Real.cos_add_two_pi,
        Real.cos_two_pi_sub]
      simp [rowNeg]
  rw [basis_row, basis_col]
  unfold beta
  cases rowNeg x <;> cases colNeg y <;> simp

theorem cos_quarter_pos : 0 < Real.cos (Real.pi / 4) := by
  rw [Real.cos_pi_div_four]
  positivity

theorem gamma_nonneg (k : Nat) : 0 ≤ gamma k := by
  have hpi := Real.pi_pos
  unfold gamma
  split <;> apply Real.cos_nonneg_of_neg_pi_div_two_le_of_le <;> linarith

theorem beta_nonneg (k : Nat) : 0 ≤ beta k :=
  mul_nonneg (le_of_lt cos_quarter_pos) (gamma_nonneg k)

theorem beta_sq (k : Nat) (hk : k < 4) :
    beta k ^ 2 = (1 + (match k with
      | 0 => -Real.cos (Real.pi / 8)
      | 1 => -Real.sin (Real.pi / 8)
      | 2 => Real.sin (Real.pi / 8)
      | _ => Real.cos (Real.pi / 8))) / 4 := by
  have cos_quarter_sq : Real.cos (Real.pi / 4) ^ 2 = 1 / 2 := by
    rw [Real.cos_pi_div_four, div_pow, Real.sq_sqrt (by norm_num)]
    norm_num
  unfold beta
  rw [mul_pow, cos_quarter_sq]
  interval_cases k
  · show 1 / 2 * Real.cos (7 * Real.pi / 16) ^ 2 = (1 + -Real.cos (Real.pi / 8)) / 4
    rw [Real.cos_sq, show 2 * (7 * Real.pi / 16) = Real.pi - Real.pi / 8 by ring, Real.cos_pi_sub]
    ring
  · show 1 / 2 * Real.cos (5 * Real.pi / 16) ^ 2 = (1 + -Real.sin (Real.pi / 8)) / 4
    rw [Real.cos_sq, show 2 * (5 * Real.pi / 16) = Real.pi / 8 + Real.pi / 2 by ring,
      Real.cos_add_pi_div_two]
    ring
  · show 1 / 2 * Real.cos (3 * Real.pi / 16) ^ 2 = (1 + Real.sin (Real.pi / 8)) / 4
    rw [Real.cos_sq, show 2 * (3 * Real.pi / 16) = Real.pi / 2 - Real.pi / 8 by ring,
      Real.cos_pi_div_two_sub]
    ring
  · show 1 / 2 * Real.cos (Real.pi / 16) ^ 2 = (1 + Real.cos (Real.pi / 8)) / 4
    rw [Real.cos_sq, show 2 * (Real.pi / 16) = Real.pi / 8 by ring]
    ring

theorem le_of_sq_bound {a b c v : ℝ} (ha : 0 ≤ a) (hb : 0 ≤ b) (hc : 0 ≤ c) (hv : b ^ 2 = v)
    (h1 : a ^ 2 ≤ v) (h2 : v ≤ c ^ 2) : a ≤ b ∧ b ≤ c :=
  ⟨(pow_le_pow_iff_left₀ ha hb two_ne_zero).mp (hv ▸ h1),
    (pow_le_pow_iff_left₀ hb hc two_ne_zero).mp (hv ▸ h2)⟩

theorem beta_bounds (k : Nat) (hk : k < 4) :
    ((Cert.blo k : Int) : ℝ) / 10 ^ 9 ≤ beta k ∧ beta k ≤ ((Cert.bhi k : Int) : ℝ) / 10 ^ 9 := by
  have sqrt_two_bounds : (1.414213562373 : ℝ) ≤ Real.sqrt 2 ∧ Real.sqrt 2 ≤ 1.414213562374 := by
    constructor
    · rw [Real.le_sqrt' (by norm_num)]; norm_num
    · rw [Real.sqrt_le_left (by norm_num)]; norm_num
  have sin_eighth_bounds : (0.3826834323645 : ℝ) ≤ Real.sin (Real.pi / 8) ∧ Real.sin (Real.pi /
      8) ≤ 0.3826834323655 := by
    rw [Real.sin_pi_div_eight]
    obtain ⟨h1, h2⟩ := sqrt_two_bounds
    have hl : (0.765366864729 : ℝ) ≤ Real.sqrt (2 - Real.sqrt 2) := by
      rw [Real.le_sqrt' (by norm_num)]
      have : (0.765366864729 : ℝ) ^ 2 ≤ 2 - 1.414213562374 := by norm_num
      linarith
    have hh : Real.sqrt (2 - Real.sqrt 2) ≤ 0.765366864731 := by
      rw [Real.sqrt_le_left (by norm_num)]
      have : (2 : ℝ) - 1.414213562373 ≤ 0.765366864731 ^ 2 := by norm_num
      linarith
    constructor <;> linarith
  have cos_eighth_bounds : (0.923879532511 : ℝ) ≤ Real.cos (Real.pi / 8) ∧ Real.cos (Real.pi / 8)
      ≤ 0.9238795325115 := by
    rw [Real.cos_pi_div_eight]
    obtain ⟨h1, h2⟩ := sqrt_two_bounds
    have hl : (1.847759065022 : ℝ) ≤ Real.sqrt (2 + Real.sqrt 2) := by
      rw [Real.le_sqrt' (by norm_num)]
      have : (1.847759065022 : ℝ) ^ 2 ≤ 2 + 1.414213562373 := by norm_num
      linarith
    have hh : Real.sqrt (2 + Real.sqrt 2) ≤ 1.847759065023 := by
      rw [Real.sqrt_le_left (by norm_num)]
      have : (2 : ℝ) + 1.414213562374 ≤ 1.847759065023 ^ 2 := by norm_num
      linarith
    constructor <;> linarith
  have hsq := beta_sq k hk
  have h0 := beta_nonneg k
  obtain ⟨c1, c2⟩ := cos_eighth_bounds
  obtain ⟨s1, s2⟩ := sin_eighth_bounds
  generalize Real.cos (Real.pi / 8) = c at hsq c1 c2
  generalize Real.sin (Real.pi / 8) = s at hsq s1 s2
  interval_cases k
  · simp only [] at hsq
    refine le_of_sq_bound ?_ h0 ?_ hsq ?_ ?_ <;> simp only [Cert.blo, Cert.bhi] <;> norm_num <;>
      linarith
  · simp only [] at hsq
    refine le_of_sq_bound ?_ h0 ?_ hsq ?_ ?_ <;> simp only [Cert.blo, Cert.bhi] <;> norm_num <;>
      linarith
  · simp only [] at hsq
    refine le_of_sq_bound ?_ h0 ?_ hsq ?_ ?_ <;> simp only [Cert.blo, Cert.bhi] <;> norm_num <;>
      linarith
  · simp only [] at hsq
    refine le_of_sq_bound ?_ h0 ?_ hsq ?_ ?_ <;> simp only [Cert.blo, Cert.bhi] <;> norm_num <;>
      linarith

end DCTSteganography

/-! ### Orthogonality of the DCT basis -/

namespace DCTSteganography

open Finset

theorem coef_zero_sq : coef 0 ^ 2 = 1 / 2 := by
  unfold coef
  simp only [Fin.val_zero, if_true]
  rw [div_pow, Real.sq_sqrt (by norm_num)]
  norm_num

theorem coef_succ (u : Fin 8) (hu : u.val ≠ 0) : coef u = 1 := by
  unfold coef
  rw [if_neg hu]

theorem basis_zero (x : Fin 8) : basis x 0 = 1 := by
  unfold basis
  simp

/-- The rows of the DCT matrix are orthogonal, with squared norm 4. -/
theorem orth (x y : Fin 8) :
    ∑ u : Fin 8, coef u ^ 2 * basis x u * basis y u = if x = y then 4 else 0 := by
  have cos_sum : ∀ (m : Nat) (h0 : 0 < m) (h16 : m < 16), cosSum ((m : ℝ) * Real.pi / 8) = (-(-1)
      ^ m - 1) / 2 := by
    intro m h0 h16
    have two_sin_mul_cos : ∀ (A B : ℝ), 2 * Real.sin B * Real.cos A = Real.sin (A + B) - Real.sin
        (A - B) := by
      intro A B
      rw [Real.sin_add, Real.sin_sub]; ring
    have dirichlet : ∀ (θ : ℝ), 2 * Real.sin (θ / 2) * cosSum θ = Real.sin (15 * θ / 2) - Real.sin
        (θ / 2) := by
      intro θ
      unfold cosSum
      have h1 := two_sin_mul_cos θ (θ / 2)
      have h2 := two_sin_mul_cos (2 * θ) (θ / 2)
      have h3 := two_sin_mul_cos (3 * θ) (θ / 2)
      have h4 := two_sin_mul_cos (4 * θ) (θ / 2)
      have h5 := two_sin_mul_cos (5 * θ) (θ / 2)
      have h6 := two_sin_mul_cos (6 * θ) (θ / 2)
      have h7 := two_sin_mul_cos (7 * θ) (θ / 2)
      rw [show θ + θ / 2 = 3 * θ / 2 by ring, show θ - θ / 2 = θ / 2 by ring] at h1
      rw [show 2 * θ + θ / 2 = 5 * θ / 2 by ring, show 2 * θ - θ / 2 = 3 * θ / 2 by ring] at h2
      rw [show 3 * θ + θ / 2 = 7 * θ / 2 by ring, show 3 * θ - θ / 2 = 5 * θ / 2 by ring] at h3
      rw [show 4 * θ + θ / 2 = 9 * θ / 2 by ring, show 4 * θ - θ / 2 = 7 * θ / 2 by ring] at h4
      rw [show 5 * θ + θ / 2 = 11 * θ / 2 by ring, show 5 * θ - θ / 2 = 9 * θ / 2 by ring] at h5
      rw [show 6 * θ + θ / 2 = 13 * θ / 2 by ring, show 6 * θ - θ / 2 = 11 * θ / 2 by ring] at h6
      rw [show 7 * θ + θ / 2 = 15 * θ / 2 by ring, show 7 * θ - θ / 2 = 13 * θ / 2 by ring] at h7
      linear_combination h1 + h2 + h3 + h4 + h5 + h6 + h7
    have hd := dirichlet ((m : ℝ) * Real.pi / 8)
    have hpi := Real.pi_pos
    have hm0 : (0 : ℝ) < (m : ℝ) := by exact_mod_cast h0
    have hm16 : (m : ℝ) < 16 := by exact_mod_cast h16
    have hs : 0 < Real.sin ((m : ℝ) * Real.pi / 8 / 2) := by
      apply Real.sin_pos_of_pos_of_lt_pi
      · positivity
      · nlinarith
    have e : Real.sin (15 * ((m : ℝ) * Real.pi / 8) / 2)
        = -(-1) ^ m * Real.sin ((m : ℝ) * Real.pi / 8 / 2) := by
      rw [show 15 * ((m : ℝ) * Real.pi / 8) / 2 = (m : ℝ) * Real.pi - (m : ℝ) * Real.pi / 8 / 2 by
        ring, Real.sin_nat_mul_pi_sub]
      ring
    rw [e] at hd
    have hne : Real.sin ((m : ℝ) * Real.pi / 8 / 2) ≠ 0 := ne_of_gt hs
    apply mul_left_cancel₀ hne
    linear_combination hd / 2
  have cosSum_pair : ∀ (m j : Nat) (h0 : 0 < m) (h16 : m + (2 * j + 1) < 16), cosSum ((m : ℝ) *
      Real.pi / 8) + cosSum (((m + (2 * j + 1) : Nat) : ℝ) * Real.pi / 8) = -1 := by
    intro m j h0 h16
    have neg_one_pow_odd_add : ∀ (m j : Nat), (-1 : ℝ) ^ (m + (2 * j + 1)) = -(-1) ^ m := by
      intro m j
      rw [pow_add, pow_succ, pow_mul]
      simp
    rw [cos_sum m h0 (by omega), cos_sum (m + (2 * j + 1)) (by omega) h16, neg_one_pow_odd_add]
    ring
  have orth_expand : ∀ (x y : Fin 8), ∑ u : Fin 8, coef u ^ 2 * basis x u * basis y u = 1 / 2 +
      (cosSum ((2 * (x.val : ℝ) + 1) * Real.pi / 16 - (2 * (y.val : ℝ) + 1) * Real.pi / 16) +
      cosSum ((2 * (x.val : ℝ) + 1) * Real.pi / 16 + (2 * (y.val : ℝ) + 1) * Real.pi / 16)) / 2
      := by
    intro x y
    have cos_mul_cos : ∀ (A B : ℝ), Real.cos A * Real.cos B = (Real.cos (A - B) + Real.cos (A + B))
        / 2 := by
      intro A B
      rw [Real.cos_add, Real.cos_sub]; ring
    have basis_val : ∀ (x u : Fin 8), basis x u = Real.cos ((u.val : ℝ) * ((2 * (x.val : ℝ) + 1) *
        Real.pi / 16)) := by
      intro x u
      unfold basis blockSize
      congr 1
      push_cast
      ring
    rw [Fin.sum_univ_eight, coef_zero_sq, basis_zero, basis_zero]
    rw [coef_succ 1 (by decide), coef_succ 2 (by decide), coef_succ 3 (by decide),
      coef_succ 4 (by decide), coef_succ 5 (by decide), coef_succ 6 (by decide),
      coef_succ 7 (by decide)]
    simp only [basis_val]
    have v1 : ((1 : Fin 8).val : ℝ) = 1 := by
      rw [show (1 : Fin 8).val = 1 from rfl]; norm_num
    have v2 : ((2 : Fin 8).val : ℝ) = 2 := by
      rw [show (2 : Fin 8).val = 2 from rfl]; norm_num
    have v3 : ((3 : Fin 8).val : ℝ) = 3 := by
      rw [show (3 : Fin 8).val = 3 from rfl]; norm_num
    have v4 : ((4 : Fin 8).val : ℝ) = 4 := by
      rw [show (4 : Fin 8).val = 4 from rfl]; norm_num
    have v5 : ((5 : Fin 8).val : ℝ) = 5 := by
      rw [show (5 : Fin 8).val = 5 from rfl]; norm_num
    have v6 : ((6 : Fin 8).val : ℝ) = 6 := by
      rw [show (6 : Fin 8).val = 6 from rfl]; norm_num
    have v7 : ((7 : Fin 8).val : ℝ) = 7 := by
      rw [show (7 : Fin 8).val = 7 from rfl]; norm_num
    rw [v1, v2, v3, v4, v5, v6, v7]
    unfold cosSum
    simp only [one_pow, one_mul, mul_one]
    simp only [cos_mul_cos, mul_sub, mul_add]
    ring
  have cosSum_zero : cosSum 0 = 7 := by
    unfold cosSum
    simp only [mul_zero, Real.cos_zero]
    norm_num
  have cosSum_neg : ∀ (θ : ℝ), cosSum (-θ) = cosSum θ := by
    intro θ
    unfold cosSum
    simp only [mul_neg, Real.cos_neg]
  rw [orth_expand]
  have hx := x.isLt
  have hy := y.isLt
  rcases lt_trichotomy x.val y.val with h | h | h
  · rw [if_neg (fun e => by rw [e] at h; exact lt_irrefl _ h)]
    have e1 : (2 * (x.val : ℝ) + 1) * Real.pi / 16 - (2 * (y.val : ℝ) + 1) * Real.pi / 16
        = -(((y.val - x.val : Nat) : ℝ) * Real.pi / 8) := by
      rw [Nat.cast_sub (le_of_lt h)]; ring
    have e2 : (2 * (x.val : ℝ) + 1) * Real.pi / 16 + (2 * (y.val : ℝ) + 1) * Real.pi / 16
        = (((y.val - x.val) + (2 * x.val + 1) : Nat) : ℝ) * Real.pi / 8 := by
      rw [Nat.cast_add, Nat.cast_sub (le_of_lt h)]; push_cast; ring
    rw [e1, e2, cosSum_neg, cosSum_pair _ _ (by omega) (by omega)]
    norm_num
  · rw [if_pos (Fin.ext h)]
    have e1 : (2 * (x.val : ℝ) + 1) * Real.pi / 16 - (2 * (y.val : ℝ) + 1) * Real.pi / 16 = 0 := by
      rw [h]; ring
    have e2 : (2 * (x.val : ℝ) + 1) * Real.pi / 16 + (2 * (y.val : ℝ) + 1) * Real.pi / 16
        = ((2 * x.val + 1 : Nat) : ℝ) * Real.pi / 8 := by
      rw [h]; push_cast; ring
    rw [e1, e2, cosSum_zero, cos_sum _ (by omega) (by omega)]
    rw [show (-1 : ℝ) ^ (2 * x.val + 1) = -1 by rw [pow_succ, pow_mul]; simp]
    norm_num
  · rw [if_neg (fun e => by rw [e] at h; exact lt_irrefl _ h)]
    have e1 : (2 * (x.val : ℝ) + 1) * Real.pi / 16 - (2 * (y.val : ℝ) + 1) * Real.pi / 16
        = ((x.val - y.val : Nat) : ℝ) * Real.pi / 8 := by
      rw [Nat.cast_sub (le_of_lt h)]; ring
    have e2 : (2 * (x.val : ℝ) + 1) * Real.pi / 16 + (2 * (y.val : ℝ) + 1) * Real.pi / 16
        = (((x.val - y.val) + (2 * y.val + 1) : Nat) : ℝ) * Real.pi / 8 := by
      rw [Nat.cast_add, Nat.cast_sub (le_of_lt h)]; push_cast; ring
    rw [e1, e2, cosSum_pair _ _ (by omega) (by omega)]
    norm_num

theorem sum4_swap (F : Fin 8 → Fin 8 → Fin 8 → Fin 8 → ℝ) :
    ∑ a : Fin 8, ∑ b : Fin 8, ∑ c : Fin 8, ∑ d : Fin 8, F a b c d
      = ∑ c : Fin 8, ∑ d : Fin 8, ∑ a : Fin 8, ∑ b : Fin 8, F a b c d := by
  calc ∑ a : Fin 8, ∑ b : Fin 8, ∑ c : Fin 8, ∑ d : Fin 8, F a b c d
      = ∑ a : Fin 8, ∑ c : Fin 8, ∑ b : Fin 8, ∑ d : Fin 8, F a b c d :=
        Finset.sum_congr rfl (fun a _ => Finset.sum_comm)
    _ = ∑ c : Fin 8, ∑ a : Fin 8, ∑ b : Fin 8, ∑ d : Fin 8, F a b c d := Finset.sum_comm
    _ = ∑ c : Fin 8, ∑ a : Fin 8, ∑ d : Fin 8, ∑ b : Fin 8, F a b c d :=
        Finset.sum_congr rfl (fun c _ => Finset.sum_congr rfl (fun a _ => Finset.sum_comm))
    _ = ∑ c : Fin 8, ∑ d : Fin 8, ∑ a : Fin 8, ∑ b : Fin 8, F a b c d :=
        Finset.sum_congr rfl (fun c _ => Finset.sum_comm)

/-- The inverse transform undoes the forward transform. -/
theorem idct2D_dct2D (h : Block) (x y : Fin 8) : idct2D (dct2D h) x y = h x y := by
  unfold idct2D dct2D blockSize
  have step : ∑ u : Fin 8, ∑ v : Fin 8, coef u * coef v
        * ((2 * coef u * coef v * ∑ a : Fin 8, ∑ b : Fin 8, h a b * basis a u * basis b v)
            / ((8 : Nat) : ℝ)) * basis x u * basis y v
      = ∑ a : Fin 8, ∑ b : Fin 8, h a b / 4
          * (∑ u : Fin 8, coef u ^ 2 * basis a u * basis x u)
          * (∑ v : Fin 8, coef v ^ 2 * basis b v * basis y v) := by
    have l : ∀ u v : Fin 8, coef u * coef v
        * ((2 * coef u * coef v * ∑ a : Fin 8, ∑ b : Fin 8, h a b * basis a u * basis b v)
            / ((8 : Nat) : ℝ)) * basis x u * basis y v
        = ∑ a : Fin 8, ∑ b : Fin 8, h a b / 4 * (coef u ^ 2 * basis a u * basis x u)
            * (coef v ^ 2 * basis b v * basis y v) := by
      intro u v
      simp only [Finset.mul_sum, Finset.sum_mul, Finset.sum_div]
      apply Finset.sum_congr rfl
      intro a _
      apply Finset.sum_congr rfl
      intro b _
      push_cast
      ring
    have r : ∀ a b : Fin 8, h a b / 4
          * (∑ u : Fin 8, coef u ^ 2 * basis a u * basis x u)
          * (∑ v : Fin 8, coef v ^ 2 * basis b v * basis y v)
        = ∑ u : Fin 8, ∑ v : Fin 8, h a b / 4 * (coef u ^ 2 * basis a u * basis x u)
            * (coef v ^ 2 * basis b v * basis y v) := by
      intro a b
      rw [mul_assoc, Finset.sum_mul_sum, Finset.mul_sum]
      apply Finset.sum_congr rfl
      intro u _
      rw [Finset.mul_sum]
      apply Finset.sum_congr rfl
      intro v _
      ring
    simp only [l, r]
    exact sum4_swap (fun u v a b => h a b / 4 * (coef u ^ 2 * basis a u * basis x u)
            * (coef v ^ 2 * basis b v * basis y v))
  rw [step]
  simp only [orth]
  rw [Finset.sum_eq_single x, Finset.sum_eq_single y]
  · rw [if_pos rfl, if_pos rfl]
    push_cast
    ring
  · intro b _ hb
    rw [if_neg hb, mul_zero]
  · intro hn
    exact absurd (Finset.mem_univ y) hn
  · intro a _ ha
    apply Finset.sum_eq_zero
    intro b _
    rw [if_neg ha, mul_zero, zero_mul]
  · intro hn
    exact absurd (Finset.mem_univ x) hn

/-- The inverse transform after the assignment `dctBlock[4][3] = t`. -/
theorem idct2D_setCoef (h : Block) (t : ℝ) (x y : Fin 8) :
    idct2D (setCoef (dct2D h) t) x y
      = h x y + (t - dct2D h 4 3) / 4 * (basis x 4 * basis y 3) := by
  have hs : ∀ u v : Fin 8, coef u * coef v * setCoef (dct2D h) t u v * basis x u * basis y v
      = coef u * coef v * dct2D h u v * basis x u * basis y v
        + (if u = 4 then (if v = 3 then (t - dct2D h 4 3) * (basis x 4 * basis y 3) else 0)
            else 0) := by
    intro u v
    unfold setCoef
    by_cases hu : u = 4
    · by_cases hv : v = 3
      · rw [if_pos ⟨hu, hv⟩, if_pos hu, if_pos hv]
        subst hu; subst hv
        rw [coef_succ 4 (by decide), coef_succ 3 (by decide)]
        ring
      · rw [if_neg (fun e => hv e.2), if_pos hu, if_neg hv, add_zero]
    · rw [if_neg (fun e => hu e.1), if_neg hu, add_zero]
  have e : ∑ u : Fin 8, ∑ v : Fin 8,
      (if u = 4 then (if v = 3 then (t - dct2D h 4 3) * (basis x 4 * basis y 3) else 0) else 0)
      = (t - dct2D h 4 3) * (basis x 4 * basis y 3) := by
    rw [Finset.sum_eq_single 4, Finset.sum_eq_single 3]
    · rw [if_pos rfl, if_pos rfl]
    · intro b _ hb
      rw [if_pos rfl, if_neg hb]
    · intro hn
      exact absurd (Finset.mem_univ _) hn
    · intro a _ ha
      apply Finset.sum_eq_zero
      intro b _
      rw [if_neg ha]
    · intro hn
      exact absurd (Finset.mem_univ _) hn
  have hi := idct2D_dct2D h x y
  unfold idct2D at hi ⊢
  simp only [hs, Finset.sum_add_distrib]
  rw [e, mul_add, add_div, hi]
  unfold blockSize
  push_cast
  ring

end DCTSteganography

/-! ### The sign of the coefficient after clamping and truncation -/

namespace Cert

theorem cert_sound {beta : Nat → ℝ} {lam : ℝ}
    (hb : ∀ k, k < 4 → ((blo k : Int) : ℝ) / 10 ^ 9 ≤ beta k ∧ beta k ≤ ((bhi k : Int) : ℝ) / 10 ^ 9)
    (G : Groups beta lam) (h1 : 25 / 4 ≤ lam) (h2 : lam ≤ 469) : False := by
  have g0 : ((6249999 : Nat) : ℝ) / 10 ^ 6 < lam := by norm_num; linarith
  rcases le_or_lt lam (((38931831 : Nat) : ℝ) / 10 ^ 6) with c | g1
  · exact walk_excludes hb G 6249999 38931831 100 walk_ok_0 g0 c
  rcases le_or_lt lam (((40373751 : Nat) : ℝ) / 10 ^ 6) with c | g2
  · exact walk_excludes hb G 38931831 40373751 100 walk_ok_1 g1 c
  rcases le_or_lt lam (((40728275 : Nat) : ℝ) / 10 ^ 6) with c | g3
  · exact walk_excludes hb G 40373751 40728275 100 walk_ok_2 g2 c
  rcases le_or_lt lam (((44699510 : Nat) : ℝ) / 10 ^ 6) with c | g4
  · exact walk_excludes hb G 40728275 44699510 100 walk_ok_3 g3 c
  rcases le_or_lt lam (((45819310 : Nat) : ℝ) / 10 ^ 6) with c | g5
  · exact walk_excludes hb G 44699510 45819310 100 walk_ok_4 g4 c
  rcases le_or_lt lam (((50467188 : Nat) : ℝ) / 10 ^ 6) with c | g6
  · exact walk_excludes hb G 45819310 50467188 100 walk_ok_5 g5 c
  rcases le_or_lt lam (((50743138 : Nat) : ℝ) / 10 ^ 6) with c | g7
  · exact walk_excludes hb G 50467188 50743138 100 walk_ok_6 g6 c
  rcases le_or_lt lam (((54792947 : Nat) : ℝ) / 10 ^ 6) with c | g8
  · exact walk_excludes hb G 50743138 54792947 100 walk_ok_7 g7 c
  rcases le_or_lt lam (((56001378 : Nat) : ℝ) / 10 ^ 6) with c | g9
  · exact walk_excludes hb G 54792947 56001378 100 walk_ok_8 g8 c
  rcases le_or_lt lam (((88444731 : Nat) : ℝ) / 10 ^ 6) with c | g10
  · exact walk_excludes hb G 56001378 88444731 100 walk_ok_9 g9 c
  rcases le_or_lt lam (((122184825 : Nat) : ℝ) / 10 ^ 6) with c | g11
  · exact walk_excludes hb G 88444731 122184825 100 walk_ok_10 g10 c
  rcases le_or_lt lam (((154778278 : Nat) : ℝ) / 10 ^ 6) with c | g12
  · exact walk_excludes hb G 122184825 154778278 100 walk_ok_11 g11 c
  rcases le_or_lt lam (((188368271 : Nat) : ℝ) / 10 ^ 6) with c | g13
  · exact walk_excludes hb G 154778278 188368271 100 walk_ok_12 g12 c
  rcases le_or_lt lam (((221111826 : Nat) : ℝ) / 10 ^ 6) with c | g14
  · exact walk_excludes hb G 188368271 221111826 100 walk_ok_13 g13 c
  rcases le_or_lt lam (((253777858 : Nat) : ℝ) / 10 ^ 6) with c | g15
  · exact walk_excludes hb G 221111826 253777858 100 walk_ok_14 g14 c
  rcases le_or_lt lam (((287445373 : Nat) : ℝ) / 10 ^ 6) with c | g16
  · exact walk_excludes hb G 253777858 287445373 100 walk_ok_15 g15 c
  rcases le_or_lt lam (((320106162 : Nat) : ℝ) / 10 ^ 6) with c | g17
  · exact walk_excludes hb G 287445373 320106162 100 walk_ok_16 g16 c
  rcases le_or_lt lam (((353778921 : Nat) : ℝ) / 10 ^ 6) with c | g18
  · exact walk_excludes hb G 320106162 353778921 100 walk_ok_17 g17 c
  rcases le_or_lt lam (((386434466 : Nat) : ℝ) / 10 ^ 6) with c | g19
  · exact walk_excludes hb G 353778921 386434466 100 walk_ok_18 g18 c
  rcases le_or_lt lam (((420010333 : Nat) : ℝ) / 10 ^ 6) with c | g20
  · exact walk_excludes hb G 386434466 420010333 100 walk_ok_19 g19 c
  rcases le_or_lt lam (((452762770 : Nat) : ℝ) / 10 ^ 6) with c | g21
  · exact walk_excludes hb G 420010333 452762770 100 walk_ok_20 g20 c
  exact walk_excludes hb G 452762770 469000000 100 walk_ok_21 g21 (by norm_num; linarith)

end Cert

namespace DCTSteganography

open Finset

/-- Every group has eight samples. -/
theorem grp_count (flip : Bool) (g : Nat) (hg : g < 8) :
    ∑ i : Fin 8, ∑ j : Fin 8, (if grp flip i j = g then (1 : Int) else 0) = 8 := by
  cases flip <;> interval_cases g <;> decide

theorem class_split (flip : Bool) (X : Fin 8 → Fin 8 → Int) :
    ∑ i : Fin 8, ∑ j : Fin 8, beta (cls j) * (X i j : ℝ)
      = beta 0 * ((gsum flip X 0 + gsum flip X 1 : Int) : ℝ)
        + beta 1 * ((gsum flip X 2 + gsum flip X 3 : Int) : ℝ)
        + beta 2 * ((gsum flip X 4 + gsum flip X 5 : Int) : ℝ)
        + beta 3 * ((gsum flip X 6 + gsum flip X 7 : Int) : ℝ) := by
  cases flip
  · simp only [gsum, Fin.sum_univ_eight]
    simp [grp, up, cls, rowNeg, colNeg]
    ring
  · simp only [gsum, Fin.sum_univ_eight]
    simp [grp, up, cls, rowNeg, colNeg]
    ring

theorem room_bounds (flip : Bool) (F : Fin 8 → Fin 8 → Nat) (hF : ∀ i j, F i j ≤ 255)
    (i j : Fin 8) : 0 ≤ room flip F i j ∧ room flip F i j ≤ 255 := by
  unfold room
  have := hF i j
  split <;> omega

theorem gain_lower (lam : ℝ) (a6 : Nat) (ha : (a6 : ℝ) / 10 ^ 6 < lam) (g : Nat) (hg : g < 8) :
    Cert.Gam a6 g ≤ gain lam g := by
  have hk : g / 2 < 4 := by omega
  obtain ⟨hlo, _⟩ := beta_bounds (g / 2) hk
  have hpos := Cert.blo_pos (g / 2)
  have hposR : (0 : ℝ) < ((Cert.blo (g / 2) : Int) : ℝ) := by exact_mod_cast hpos
  have hq : ((a6 * (Cert.blo (g / 2)).toNat / 10 ^ 15 : Nat) : ℝ) < lam * beta (g / 2) := by
    have h1 : a6 * (Cert.blo (g / 2)).toNat / 10 ^ 15 * 10 ^ 15 ≤ a6 * (Cert.blo (g / 2)).toNat :=
      Nat.div_mul_le_self _ _
    have h2 : ((a6 * (Cert.blo (g / 2)).toNat / 10 ^ 15 : Nat) : ℝ) * 10 ^ 15
        ≤ (a6 : ℝ) * ((Cert.blo (g / 2) : Int) : ℝ) := by
      have e : (((Cert.blo (g / 2)).toNat : Nat) : ℝ) = ((Cert.blo (g / 2) : Int) : ℝ) := by
        have : (((Cert.blo (g / 2)).toNat : Nat) : Int) = Cert.blo (g / 2) :=
          Int.toNat_of_nonneg (le_of_lt hpos)
        exact_mod_cast this
      rw [← e]
      exact_mod_cast h1
    have h3 : (a6 : ℝ) < lam * 10 ^ 6 := by
      rwa [div_lt_iff₀ (by positivity)] at ha
    have h4 : ((Cert.blo (g / 2) : Int) : ℝ) ≤ beta (g / 2) * 10 ^ 9 := by
      rwa [div_le_iff₀ (by positivity)] at hlo
    have h5 : (0 : ℝ) ≤ (a6 : ℝ) := Nat.cast_nonneg _
    have hlam : 0 < lam := by
      have : (0 : ℝ) ≤ (a6 : ℝ) / 10 ^ 6 := by positivity
      linarith
    have h6 : (a6 : ℝ) * ((Cert.blo (g / 2) : Int) : ℝ)
        < lam * 10 ^ 6 * (beta (g / 2) * 10 ^ 9) := by
      calc (a6 : ℝ) * ((Cert.blo (g / 2) : Int) : ℝ)
          < lam * 10 ^ 6 * ((Cert.blo (g / 2) : Int) : ℝ) :=
            mul_lt_mul_of_pos_right h3 hposR
        _ ≤ lam * 10 ^ 6 * (beta (g / 2) * 10 ^ 9) :=
            mul_le_mul_of_nonneg_left h4 (by positivity)
    nlinarith
  unfold Cert.Gam Cert.gam gain
  by_cases he : g % 2 = 0
  · rw [if_pos he, he]
    simp only [Nat.cast_zero, add_zero]
    apply Int.le_floor.2
    exact_mod_cast le_of_lt hq
  · rw [if_neg he]
    have h1 : g % 2 = 1 := by omega
    rw [h1]
    have : ((a6 * (Cert.blo (g / 2)).toNat / 10 ^ 15 : Nat) : Int) < ⌈lam * beta (g / 2)⌉ := by
      apply Int.lt_ceil.2
      exact_mod_cast hq
    simp only [Nat.cast_one]
    omega

theorem pattern_sum (flip : Bool) (P R : Fin 8 → Fin 8 → Int)
    (h : ∀ i j, P i j = if up flip i j then 255 - R i j else R i j) :
    ∑ i : Fin 8, ∑ j : Fin 8, (P i j : ℝ) * pattern flip i j
      = 2040 * (beta 0 + beta 1 + beta 2 + beta 3)
        - ∑ i : Fin 8, ∑ j : Fin 8, beta (cls j) * (R i j : ℝ) := by
  have pattern_mul : ∀ (flip : Bool) (i j : Fin 8) (p r : Int) (h : p = if up flip i j then 255 -
      r else r), (p : ℝ) * pattern flip i j = beta (cls j) * (((if up flip i j then 255 else 0 :
      Int)) : ℝ) - beta (cls j) * (r : ℝ) := by
    intro flip i j p r h
    unfold pattern
    cases hu : up flip i j
    · simp only [hu, Bool.false_eq_true, if_false] at h ⊢
      rw [h]
      push_cast
      ring
    · simp only [hu, if_true] at h ⊢
      rw [h]
      push_cast
      ring
  have up_weight : ∀ (flip : Bool), ∑ i : Fin 8, ∑ j : Fin 8, beta (cls j) * (((if up flip i j
      then 255 else 0 : Int)) : ℝ) = 2040 * (beta 0 + beta 1 + beta 2 + beta 3) := by
    intro flip
    rw [class_split flip]
    have h : ∀ k, k < 4 → gsum flip (fun i j => if up flip i j then 255 else 0) (2 * k) = 2040
        ∧ gsum flip (fun i j => if up flip i j then 255 else 0) (2 * k + 1) = 0 := by
      intro k hk
      cases flip <;> interval_cases k <;> decide
    have h0 := h 0 (by norm_num)
    have h1 := h 1 (by norm_num)
    have h2 := h 2 (by norm_num)
    have h3 := h 3 (by norm_num)
    simp only [Nat.mul_zero, Nat.mul_one, Nat.zero_add, Nat.reduceMul, Nat.reduceAdd] at h0 h1 h2 h3
    rw [h0.1, h0.2, h1.1, h1.2, h2.1, h2.2, h3.1, h3.2]
    push_cast
    ring
  rw [← up_weight flip, ← Finset.sum_sub_distrib]
  apply Finset.sum_congr rfl
  intro i _
  rw [← Finset.sum_sub_distrib]
  apply Finset.sum_congr rfl
  intro j _
  exact pattern_mul flip i j (P i j) (R i j) (h i j)

/-- The sign of the coefficient survives the clamp and the truncation: when the samples `F`
have been moved by `lam` times the pattern, where `lam ≥ 25/4` makes up for a coefficient of
the other sign, the moved samples correlate positively with the pattern. -/
theorem block_sign (flip : Bool) (F : Fin 8 → Fin 8 → Nat) (hF : ∀ i j, F i j ≤ 255)
    (lam : ℝ) (h1 : 25 / 4 ≤ lam) (h2 : lam ≤ 469)
    (h3 : 50 - 8 * lam ≤ ∑ i : Fin 8, ∑ j : Fin 8, (F i j : ℝ) * pattern flip i j) :
    0 < ∑ i : Fin 8, ∑ j : Fin 8, (moved flip F lam i j : ℝ) * pattern flip i j := by
  have gain_nonneg : ∀ (lam : ℝ) (hl : 0 ≤ lam) (g : Nat), 0 ≤ gain lam g := by
    intro lam hl g
    unfold gain
    have h : 0 ≤ lam * beta (g / 2) := mul_nonneg hl (beta_nonneg _)
    split
    · exact Int.floor_nonneg.2 h
    · exact Int.ceil_nonneg h
  have gsum_le : ∀ (flip : Bool) (X Y : Fin 8 → Fin 8 → Int) (g : Nat) (h : ∀ i j, grp flip i j =
      g → X i j ≤ Y i j), gsum flip X g ≤ gsum flip Y g := by
    intro flip X Y g h
    unfold gsum
    apply Finset.sum_le_sum
    intro i _
    apply Finset.sum_le_sum
    intro j _
    by_cases hg : grp flip i j = g
    · rw [if_pos hg, if_pos hg]
      exact h i j hg
    · rw [if_neg hg, if_neg hg]
  have grp_mod : ∀ (flip : Bool) (i j : Fin 8), grp flip i j % 2 = if up flip i j then 0 else 1
      := by
    intro flip i j
    unfold grp
    split <;> omega
  have grp_div : ∀ (flip : Bool) (i j : Fin 8), grp flip i j / 2 = cls j := by
    intro flip i j
    unfold grp
    split <;> omega
  have gsum_nonneg : ∀ (flip : Bool) (X : Fin 8 → Fin 8 → Int) (g : Nat) (h : ∀ i j, 0 ≤ X i j),
      0 ≤ gsum flip X g := by
    intro flip X g h
    unfold gsum
    apply Finset.sum_nonneg
    intro i _
    apply Finset.sum_nonneg
    intro j _
    split
    · exact h i j
    · exact le_refl 0
  have gsum_one : ∀ (flip : Bool) (g : Nat) (hg : g < 8), gsum flip (fun _ _ => 1) g = 8 :=
    fun flip g hg => grp_count flip g hg
  have gsum_add : ∀ (flip : Bool) (X Y : Fin 8 → Fin 8 → Int) (g : Nat), gsum flip X g + gsum
      flip Y g = gsum flip (fun i j => X i j + Y i j) g := by
    intro flip X Y g
    unfold gsum
    rw [← Finset.sum_add_distrib]
    apply Finset.sum_congr rfl
    intro i _
    rw [← Finset.sum_add_distrib]
    apply Finset.sum_congr rfl
    intro j _
    split <;> simp
  have gsum_congr : ∀ (flip : Bool) (X Y : Fin 8 → Fin 8 → Int) (g : Nat) (h : ∀ i j, grp flip i
      j = g → X i j = Y i j), gsum flip X g = gsum flip Y g :=
    fun flip X Y g h => le_antisymm (gsum_le flip X Y g (fun i j hg => le_of_eq (h i j hg))) (gsum_le flip Y X g (fun i j hg => le_of_eq (h i j hg).symm))
  have clamp_floor : ∀ (z : ℝ), ((⌊max (0 : ℝ) (min 255 z)⌋₊ : Nat) : Int) = max 0 (min 255 ⌊z⌋)
      := by
    intro z
    rw [← Int.floor_toNat, Int.toNat_of_nonneg (Int.floor_nonneg.2 (le_max_left _ _))]
    have hm : Monotone (Int.floor : ℝ → ℤ) := Int.floor_mono
    rw [hm.map_max, hm.map_min]
    have e : ⌊(255 : ℝ)⌋ = 255 := by simp
    rw [Int.floor_zero, e]
  have gsum_mul : ∀ (flip : Bool) (X : Fin 8 → Fin 8 → Int) (g : Nat) (c : Int), gsum flip X g *
      c = gsum flip (fun i j => X i j * c) g := by
    intro flip X g c
    unfold gsum
    rw [Finset.sum_mul]
    apply Finset.sum_congr rfl
    intro i _
    rw [Finset.sum_mul]
    apply Finset.sum_congr rfl
    intro j _
    split <;> simp
  have moved_eq : ∀ (flip : Bool) (F : Fin 8 → Fin 8 → Nat) (hF : ∀ i j, F i j ≤ 255) (lam : ℝ)
      (hl : 0 ≤ lam) (i j : Fin 8), (moved flip F lam i j : Int) = if up flip i j then 255 -
      slack flip F lam i j else slack flip F lam i j := by
    intro flip F hF lam hl i j
    have hG := gain_nonneg lam hl (grp flip i j)
    have hF' := hF i j
    unfold moved
    rw [clamp_floor]
    unfold slack room pattern
    unfold gain at hG ⊢
    rw [grp_mod, grp_div] at hG ⊢
    cases hu : up flip i j
    · simp only [hu, Bool.false_eq_true, if_false, one_ne_zero] at hG ⊢
      rw [show ((F i j : Nat) : ℝ) + lam * (-1 * beta (cls j))
          = ((F i j : Nat) : ℝ) + -(lam * beta (cls j)) by ring, Int.floor_nat_add, Int.floor_neg]
      omega
    · simp only [hu, if_true] at hG ⊢
      rw [one_mul, Int.floor_nat_add]
      omega
  have hl : 0 ≤ lam := by linarith
  by_contra hT
  rw [not_lt] at hT
  have eF := pattern_sum flip (fun i j => (F i j : Int)) (room flip F) (by
    intro i j
    unfold room
    split <;> ring)
  have eM := pattern_sum flip (fun i j => (moved flip F lam i j : Int)) (slack flip F lam)
    (moved_eq flip F hF lam hl)
  simp only [Int.cast_natCast] at eF eM
  have sR := class_split flip (room flip F)
  have sS := class_split flip (slack flip F lam)
  have split : ∀ g, gsum flip (fun i j => min (room flip F i j) (gain lam (grp flip i j))) g
      + gsum flip (slack flip F lam) g = gsum flip (room flip F) g := by
    intro g
    rw [gsum_add]
    apply gsum_congr
    intro i j _
    unfold slack
    omega
  refine Cert.cert_sound beta_bounds
    { n := gsum flip (fun i j => if 0 < slack flip F lam i j then 1 else 0)
      Gm := gain lam
      su := gsum flip (fun i j => min (room flip F i j) (gain lam (grp flip i j)))
      sv := gsum flip (slack flip F lam)
      n_nonneg := ?_
      n_le := ?_
      gain := ?_
      room := ?_
      lower := ?_
      total := ?_
      flipped := ?_ } h1 h2
  · intro g
    apply gsum_nonneg
    intro i j
    split <;> norm_num
  · intro g hg
    rw [← gsum_one flip g hg]
    apply gsum_le
    intro i j _
    split <;> norm_num
  · intro g
    rw [gsum_mul]
    apply gsum_le
    intro i j hg
    have hr := room_bounds flip F hF i j
    have hG := gain_nonneg lam hl g
    unfold slack
    rw [hg]
    by_cases hs : 0 < max 0 (room flip F i j - gain lam g)
    · rw [if_pos hs, one_mul]
      omega
    · rw [if_neg hs, zero_mul]
      omega
  · intro g
    rw [gsum_mul]
    apply gsum_le
    intro i j hg
    have hr := room_bounds flip F hF i j
    have hG := gain_nonneg lam hl g
    unfold slack
    rw [hg]
    by_cases hs : 0 < max 0 (room flip F i j - gain lam g)
    · rw [if_pos hs, one_mul]
      omega
    · rw [if_neg hs, zero_mul]
      omega
  · intro a6 ha g hg
    exact gain_lower lam a6 ha g hg
  · have e0 := split 0
    have e1 := split 1
    have e2 := split 2
    have e3 := split 3
    have e4 := split 4
    have e5 := split 5
    have e6 := split 6
    have e7 := split 7
    rw [← e0, ← e1, ← e2, ← e3, ← e4, ← e5, ← e6, ← e7] at sR
    push_cast at sR ⊢
    linarith
  · push_cast at sS ⊢
    linarith

end DCTSteganography

/-! ### One 8×8 block through embedding and extraction -/

namespace DCTSteganography

open Finset

theorem clamp_val (v : ℝ) : (clampToUInt8 v).val = ⌊max (0 : ℝ) (min 255 v)⌋₊ := by
  unfold clampToUInt8 toUInt8
  have h : ⌊max (0 : ℝ) (min 255 v)⌋₊ ≤ 255 := by
    apply Nat.floor_le_of_le
    simp
  simp only [Fin.ofNat, Fin.val_mk]
  omega

/-- One block through embedding and extraction: the coefficient `[4][3]` of the written
block is positive exactly for the bit 1. -/
theorem block_roundtrip (F : Fin 8 → Fin 8 → Nat) (hF : ∀ i j, F i j ≤ 255) (bit : Nat) :
    0 < dct2D (fun i j => (((clampToUInt8 (postprocessBlock (idct2D
        (if bit = 1 then
          setCoef (dct2D (preprocessBlock (fun i j => (F i j : ℝ))))
            (|dct2D (preprocessBlock (fun i j => (F i j : ℝ))) 4 3| + 25)
        else
          setCoef (dct2D (preprocessBlock (fun i j => (F i j : ℝ))))
            (-|dct2D (preprocessBlock (fun i j => (F i j : ℝ))) 4 3| - 25))) i j)).val : Nat) : ℝ))
      4 3 ↔ bit = 1 := by
  have pattern_true : ∀ (i j : Fin 8), pattern true i j = -(basis i 4 * basis j 3) := by
    intro i j
    rw [basis_prod]
    unfold pattern up
    cases rowNeg i <;> cases colNeg j <;> simp
  have pattern_false : ∀ (i j : Fin 8), pattern false i j = basis i 4 * basis j 3 := by
    intro i j
    rw [basis_prod]
    unfold pattern up
    cases rowNeg i <;> cases colNeg j <;> simp
  have dct2D_coef : ∀ (blk : Block), dct2D blk 4 3 = (∑ i : Fin 8, ∑ j : Fin 8, blk i j * (basis
      i 4 * basis j 3)) / 4 := by
    intro blk
    unfold dct2D blockSize
    rw [coef_succ 4 (by decide), coef_succ 3 (by decide)]
    simp only [mul_assoc]
    push_cast
    ring
  have clamp_idem : ∀ (z : ℝ), max (0 : ℝ) (min 255 (max 0 (min 255 z))) = max 0 (min 255 z) := by
    intro z
    have h1 : max (0 : ℝ) (min 255 z) ≤ 255 := max_le (by norm_num) (min_le_left _ _)
    rw [min_eq_right h1, max_eq_right (le_max_left _ _)]
  have corr_bounds : ∀ (flip : Bool) (F : Fin 8 → Fin 8 → Nat) (hF : ∀ i j, F i j ≤ 255), |∑ i :
      Fin 8, ∑ j : Fin 8, (F i j : ℝ) * pattern flip i j| ≤ 3697 := by
    intro flip F hF
    have beta_sum_le : 2040 * (beta 0 + beta 1 + beta 2 + beta 3) ≤ 3697 := by
      have h0 := (beta_bounds 0 (by norm_num)).2
      have h1 := (beta_bounds 1 (by norm_num)).2
      have h2 := (beta_bounds 2 (by norm_num)).2
      have h3 := (beta_bounds 3 (by norm_num)).2
      simp only [Cert.bhi] at h0 h1 h2 h3
      norm_num at h0 h1 h2 h3
      linarith
    have all_weight : ∀ (flip : Bool), ∑ _i : Fin 8, ∑ j : Fin 8, beta (cls j) * (((255 : Int)) :
        ℝ) = 4080 * (beta 0 + beta 1 + beta 2 + beta 3) := by
      intro flip
      rw [class_split flip (fun _ _ => 255)]
      have h : ∀ g, g < 8 → gsum flip (fun _ _ => 255) g = 2040 := by
        intro g hg
        cases flip <;> interval_cases g <;> decide
      rw [h 0 (by norm_num), h 1 (by norm_num), h 2 (by norm_num), h 3 (by norm_num),
        h 4 (by norm_num), h 5 (by norm_num), h 6 (by norm_num), h 7 (by norm_num)]
      push_cast
      ring
    have eF := pattern_sum flip (fun i j => (F i j : Int)) (room flip F) (by
      intro i j
      unfold room
      split <;> ring)
    simp only [Int.cast_natCast] at eF
    have hlo : 0 ≤ ∑ i : Fin 8, ∑ j : Fin 8, beta (cls j) * (room flip F i j : ℝ) := by
      apply Finset.sum_nonneg
      intro i _
      apply Finset.sum_nonneg
      intro j _
      apply mul_nonneg (beta_nonneg _)
      exact_mod_cast (room_bounds flip F hF i j).1
    have hhi : ∑ i : Fin 8, ∑ j : Fin 8, beta (cls j) * (room flip F i j : ℝ)
        ≤ 4080 * (beta 0 + beta 1 + beta 2 + beta 3) := by
      rw [← all_weight flip]
      apply Finset.sum_le_sum
      intro i _
      apply Finset.sum_le_sum
      intro j _
      apply mul_le_mul_of_nonneg_left _ (beta_nonneg _)
      exact_mod_cast (room_bounds flip F hF i j).2
    have hQ := beta_sum_le
    rw [abs_le]
    constructor <;> linarith
  have embedded_eq : ∀ (F : Fin 8 → Fin 8 → Nat) (bit : Nat) (i j : Fin 8), ((clampToUInt8
      (postprocessBlock (idct2D (if bit = 1 then setCoef (dct2D (preprocessBlock (fun i j => (F i
      j : ℝ)))) (|dct2D (preprocessBlock (fun i j => (F i j : ℝ))) 4 3| + 25) else setCoef (dct2D
      (preprocessBlock (fun i j => (F i j : ℝ)))) (-|dct2D (preprocessBlock (fun i j => (F i j :
      ℝ))) 4 3| - 25))) i j)).val : Nat) = if bit = 1 then moved false F ((|(∑ i : Fin 8, ∑ j :
      Fin 8, (F i j : ℝ) * pattern false i j) / 4| + 25 - (∑ i : Fin 8, ∑ j : Fin 8, (F i j : ℝ)
      * pattern false i j) / 4) / 4) i j else moved true F ((|(∑ i : Fin 8, ∑ j : Fin 8, (F i j :
      ℝ) * pattern false i j) / 4| + 25 + (∑ i : Fin 8, ∑ j : Fin 8, (F i j : ℝ) * pattern false
      i j) / 4) / 4) i j := by
    intro F bit i j
    have pattern_total : ∀ (flip : Bool), ∑ i : Fin 8, ∑ j : Fin 8, pattern flip i j = 0 := by
      intro flip
      have e : ∀ i j : Fin 8, pattern flip i j
          = beta (cls j) * (((if up flip i j then 1 else -1 : Int)) : ℝ) := by
        intro i j
        unfold pattern
        split <;> push_cast <;> ring
      simp only [e]
      rw [class_split flip]
      have h : ∀ k, k < 4 → gsum flip (fun i j => if up flip i j then 1 else -1) (2 * k) = 8
          ∧ gsum flip (fun i j => if up flip i j then 1 else -1) (2 * k + 1) = -8 := by
        intro k hk
        cases flip <;> interval_cases k <;> decide
      have h0 := h 0 (by norm_num)
      have h1 := h 1 (by norm_num)
      have h2 := h 2 (by norm_num)
      have h3 := h 3 (by norm_num)
      simp only [Nat.mul_zero, Nat.mul_one, Nat.zero_add, Nat.reduceMul, Nat.reduceAdd] at h0 h1 h2 h3
      rw [h0.1, h0.2, h1.1, h1.2, h2.1, h2.2, h3.1, h3.2]
      push_cast
      ring
    have hc : dct2D (preprocessBlock (fun i j => (F i j : ℝ))) 4 3
        = (∑ i : Fin 8, ∑ j : Fin 8, (F i j : ℝ) * pattern false i j) / 4 := by
      rw [dct2D_coef]
      congr 1
      have ht := pattern_total false
      have e : ∀ i j : Fin 8, preprocessBlock (fun i j => (F i j : ℝ)) i j * (basis i 4 * basis j 3)
          = (F i j : ℝ) * pattern false i j - 128 * pattern false i j := by
        intro i j
        rw [pattern_false]
        unfold preprocessBlock
        ring
      simp only [e, Finset.sum_sub_distrib, ← Finset.mul_sum, ht]
      ring
    rw [clamp_val]
    unfold postprocessBlock
    rw [clamp_idem]
    by_cases hb : bit = 1
    · rw [if_pos hb, if_pos hb, idct2D_setCoef, hc]
      unfold moved
      rw [pattern_false]
      unfold preprocessBlock
      congr 3
      ring
    · rw [if_neg hb, if_neg hb, idct2D_setCoef, hc]
      unfold moved
      rw [pattern_true]
      unfold preprocessBlock
      congr 3
      ring
  rw [dct2D_coef]
  simp only [embedded_eq]
  have hS := corr_bounds false F hF
  have hS' := corr_bounds true F hF
  have eS : ∑ i : Fin 8, ∑ j : Fin 8, (F i j : ℝ) * pattern true i j
      = -∑ i : Fin 8, ∑ j : Fin 8, (F i j : ℝ) * pattern false i j := by
    simp only [pattern_true, pattern_false, mul_neg, Finset.sum_neg_distrib]
  generalize hSdef : ∑ i : Fin 8, ∑ j : Fin 8, (F i j : ℝ) * pattern false i j = S at hS eS ⊢
  have habs : |S / 4| = |S| / 4 := by
    rw [abs_div]; norm_num
  have hle := le_abs_self S
  have hge := neg_abs_le S
  by_cases hb : bit = 1
  · simp only [hb, if_true, iff_true]
    have key := block_sign false F hF ((|S / 4| + 25 - S / 4) / 4)
      (by rw [habs]; linarith) (by rw [habs]; linarith) (by rw [habs, hSdef]; linarith)
    simp only [← pattern_false]
    linarith
  · simp only [hb, if_false, iff_false, not_lt]
    have key := block_sign true F hF ((|S / 4| + 25 + S / 4) / 4)
      (by rw [habs]; linarith) (by rw [habs]; linarith) (by rw [habs, eS]; linarith)
    have e : ∀ i j : Fin 8, (moved true F ((|S / 4| + 25 + S / 4) / 4) i j : ℝ)
          * (basis i 4 * basis j 3)
        = -((moved true F ((|S / 4| + 25 + S / 4) / 4) i j : ℝ) * pattern true i j) := by
      intro i j
      rw [pattern_true]
      ring
    simp only [e, Finset.sum_neg_distrib]
    linarith

end DCTSteganography

/-! ### The DCT embedding loop -/

namespace DCTSteganography

theorem paint_spec (img : Image) (col : Nat → Nat → Color) (x y : Nat) :
    (paint img col x y).w = img.w ∧ (paint img col x y).h = img.h ∧
    ∀ x' y', (paint img col x y).At x' y'
      = if x ≤ x' ∧ x' < x + 8 ∧ y ≤ y' ∧ y' < y + 8 ∧ x' < img.w ∧ y' < img.h
        then col (y' - y) (x' - x) else img.At x' y' := by
  have paint_sweep : ∀ (img : Image) (col : Nat → Nat → Color) (x y : Nat) (n : Nat), (sweep (fun
      i j (im : Image) => im.Set (x + j) (y + i) (col i j)) 8 img n).w = img.w ∧ (sweep (fun i j
      (im : Image) => im.Set (x + j) (y + i) (col i j)) 8 img n).h = img.h ∧ ∀ x' y', (sweep (fun
      i j (im : Image) => im.Set (x + j) (y + i) (col i j)) 8 img n).At x' y' = if x ≤ x' ∧ x' <
      x + 8 ∧ y ≤ y' ∧ (y' - y) * 8 + (x' - x) < n ∧ x' < img.w ∧ y' < img.h then col (y' - y)
      (x' - x) else img.At x' y' := by
    intro img col x y n
    induction n with
    | zero =>
      refine ⟨rfl, rfl, ?_⟩
      intro x' y'
      rw [if_neg (by omega)]
      rfl
    | succ n ih =>
      obtain ⟨hw, hh, hat⟩ := ih
      rw [sweep_succ]
      refine ⟨by rw [Image.Set_w, hw], by rw [Image.Set_h, hh], ?_⟩
      intro x' y'
      rw [Image.At_Set, hat, hw, hh]
      by_cases h1 : x' = x + n % 8 ∧ y' = y + n / 8 ∧ x + n % 8 < img.w ∧ y + n / 8 < img.h
      · rw [if_pos h1, if_pos (by omega)]
        obtain ⟨rfl, rfl, _, _⟩ := h1
        congr 1 <;> omega
      · rw [if_neg h1]
        by_cases h2 : x ≤ x' ∧ x' < x + 8 ∧ y ≤ y' ∧ (y' - y) * 8 + (x' - x) < n ∧ x' < img.w
            ∧ y' < img.h
        · rw [if_pos h2, if_pos (by omega)]
        · rw [if_neg h2, if_neg (by omega)]
  unfold paint blockSize
  rw [forRange_grid]
  obtain ⟨hw, hh, hat⟩ := paint_sweep img col x y (8 * 8)
  refine ⟨hw, hh, ?_⟩
  intro x' y'
  rw [hat]
  by_cases h : x ≤ x' ∧ x' < x + 8 ∧ y ≤ y' ∧ y' < y + 8 ∧ x' < img.w ∧ y' < img.h
  · rw [if_pos h, if_pos (by omega)]
  · rw [if_neg h, if_neg (by omega)]

theorem embedBlock_eq (img : Image) (bits : List Nat) (y x : Nat) (s : EmbedState) :
    embedBlock img bits y x s
      = if s.bitIndex ≥ bits.length then
          ⟨paint s.output (fun i j => img.At (x + j) (y + i)) x y, s.bitIndex⟩
        else
          ⟨paint s.output (fun i j => grey (clampToUInt8
              (encodeBlock (getBlock img x y) (bits.getD s.bitIndex 0) (Fin.ofNat i) (Fin.ofNat j))))
            x y, s.bitIndex + 1⟩ := rfl

theorem fin_ofNat_val (i : Fin 8) : (Fin.ofNat i.val : Fin 8) = i := by
  apply Fin.ext
  show i.val % 8 = i.val
  exact Nat.mod_eq_of_lt i.isLt

/-- The state of the embedding loop after `n` blocks: the first `min n L` blocks carry the
encoded samples. -/
theorem embedBlock_sweep (img : Image) (bits : List Nat) (Wb Hb : Nat) (hWb : 0 < Wb)
    (hw : img.w = Wb * 8) (hh : img.h = Hb * 8) (n : Nat) (hn : n ≤ Hb * Wb) :
    (sweep (fun by' bx s => embedBlock img bits (by' * blockSize) (bx * blockSize) s) Wb
        ⟨NewRGBA img.w img.h, 0⟩ n).bitIndex = min n bits.length ∧
    (sweep (fun by' bx s => embedBlock img bits (by' * blockSize) (bx * blockSize) s) Wb
        ⟨NewRGBA img.w img.h, 0⟩ n).output.w = img.w ∧
    (sweep (fun by' bx s => embedBlock img bits (by' * blockSize) (bx * blockSize) s) Wb
        ⟨NewRGBA img.w img.h, 0⟩ n).output.h = img.h ∧
    ∀ k, k < n → k < bits.length → ∀ i j : Fin 8,
      (sweep (fun by' bx s => embedBlock img bits (by' * blockSize) (bx * blockSize) s) Wb
        ⟨NewRGBA img.w img.h, 0⟩ n).output.At ((k % Wb) * 8 + j.val) ((k / Wb) * 8 + i.val)
        = grey (clampToUInt8 (encodeBlock (getBlock img ((k % Wb) * 8) ((k / Wb) * 8))
            (bits.getD k 0) i j)) := by
  induction n with
  | zero =>
    refine ⟨by simp [sweep], rfl, rfl, ?_⟩
    intro k hk
    omega
  | succ n ih =>
    obtain ⟨hidx, how, hoh, hat⟩ := ih (by omega)
    have hnlt : n < Hb * Wb := by omega
    obtain ⟨hx, hy⟩ := (raster_lt hWb n).mpr hnlt
    rw [sweep_succ, embedBlock_eq]
    generalize sweep (fun by' bx s => embedBlock img bits (by' * blockSize) (bx * blockSize) s) Wb
        ⟨NewRGBA img.w img.h, 0⟩ n = E at hidx how hoh hat
    have other : ∀ k, k < n → ∀ i j : Fin 8,
        ¬ (n % Wb * blockSize ≤ k % Wb * 8 + j.val ∧ k % Wb * 8 + j.val < n % Wb * blockSize + 8
          ∧ n / Wb * blockSize ≤ k / Wb * 8 + i.val ∧ k / Wb * 8 + i.val < n / Wb * blockSize + 8
          ∧ k % Wb * 8 + j.val < E.output.w ∧ k / Wb * 8 + i.val < E.output.h) := by
      intro k hk i j hc
      have hi := i.isLt
      have hj := j.isLt
      unfold blockSize at hc
      have : k % Wb = n % Wb ∧ k / Wb = n / Wb := by omega
      have := (raster_inj k n).mp this
      omega
    by_cases hge : E.bitIndex ≥ bits.length
    · rw [if_pos hge]
      obtain ⟨pw, ph, pat⟩ := paint_spec E.output
        (fun i j => img.At (n % Wb * blockSize + j) (n / Wb * blockSize + i))
        (n % Wb * blockSize) (n / Wb * blockSize)
      refine ⟨?_, by rw [pw, how], by rw [ph, hoh], ?_⟩
      · dsimp only
        omega
      · intro k hk hkL i j
        have hkn : k < n := by omega
        dsimp only
        rw [pat, if_neg (other k hkn i j)]
        exact hat k hkn hkL i j
    · rw [if_neg hge]
      obtain ⟨pw, ph, pat⟩ := paint_spec E.output
        (fun i j => grey (clampToUInt8 (encodeBlock
          (getBlock img (n % Wb * blockSize) (n / Wb * blockSize))
          (bits.getD E.bitIndex 0) (Fin.ofNat i) (Fin.ofNat j))))
        (n % Wb * blockSize) (n / Wb * blockSize)
      refine ⟨?_, by rw [pw, how], by rw [ph, hoh], ?_⟩
      · dsimp only
        omega
      · intro k hk hkL i j
        dsimp only
        rw [pat]
        by_cases hkn : k = n
        · subst hkn
          have hi := i.isLt
          have hj := j.isLt
          have hb : E.bitIndex = k := by omega
          rw [if_pos (by unfold blockSize; omega)]
          simp only [blockSize, Nat.add_sub_cancel_left, fin_ofNat_val, hb]
        · rw [if_neg (other k (by omega) i j)]
          exact hat k (by omega) hkL i j

end DCTSteganography

/-! ### DCT extraction and round trip -/

/-- The extraction loop of the transform engines, reading the bits of a text without a zero
byte from the first positions, returns the text. -/
theorem runFlow_marker (N : Nat) (bitAt : Nat → Nat) (text : Text) (h0 : ∀ b ∈ text, b ≠ 0)
    (hL : (textToBits text).length ≤ N)
    (hbits : ∀ k, k < (textToBits text).length → bitAt k = (textToBits text).getD k 0) :
    runFlow (fun k => markerStep (bitAt k)) (List.range N) [] = .ret text := by
  rw [← runFlow_map bitAt markerStep]
  have hsplit : List.range N
      = List.range (textToBits text).length
        ++ List.range' (textToBits text).length (N - (textToBits text).length) := by
    rw [List.range_eq_range', List.range_eq_range']
    have := List.range'_append_1 0 (textToBits text).length (N - (textToBits text).length)
    simp only [Nat.zero_add] at this
    rw [this]
    congr 1; omega
  have hfirst : (List.range (textToBits text).length).map bitAt = textToBits text := by
    conv_rhs => rw [← LSB.range_map_getD (textToBits text) 0]
    apply List.map_congr_left
    intro k hk
    exact hbits k (List.mem_range.mp hk)
  rw [hsplit, List.map_append, hfirst, textToBits_eq]
  have := markerStep_text text h0 [] (List.map bitAt
    (List.range' ((text ++ [0]).flatMap byteBits).length
      (N - ((text ++ [0]).flatMap byteBits).length)))
  simp only [List.flatMap_nil, List.nil_append] at this
  rw [this]

namespace DCTSteganography

theorem extractBlock_eq (img : Image) (y x : Nat) (bits : List Nat) :
    extractBlock img y x bits
      = markerStep (if dct2D (getBlock img x y) 4 3 > 0 then 1 else 0) bits := by
  unfold extractBlock markerStep
  by_cases h : dct2D (getBlock img x y) 4 3 > 0
  · simp only [h, if_true]
  · simp only [h, if_false]

theorem blockCount_eq (n : Nat) (h : n % 8 = 0) : blockCount n = n / 8 := by
  unfold blockCount blockSize
  omega

/-- The bit `ExtractText` reads from a block that `EmbedText` wrote. -/
theorem encoded_bit (img out : Image) (x y : Nat) (bit : Nat) (hbit : bit = 0 ∨ bit = 1)
    (hout : ∀ i j : Fin 8, out.At (x + j.val) (y + i.val)
      = grey (clampToUInt8 (encodeBlock (getBlock img x y) bit i j))) :
    (if dct2D (getBlock out x y) 4 3 > 0 then 1 else 0) = bit := by
  have samples_le : ∀ (img : Image) (x y : Nat) (i j : Fin 8), samples img x y i j ≤ 255 :=
    fun img x y i j => Color.red_le _
  have getBlock_eq : ∀ (img : Image) (x y : Nat), getBlock img x y = fun i j => ((samples img x y
      i j : Nat) : ℝ) :=
    fun img x y => rfl
  have e : getBlock out x y
      = fun i j => (((clampToUInt8 (encodeBlock (getBlock img x y) bit i j)).val : Nat) : ℝ) := by
    funext i j
    show (((out.At (x + j.val) (y + i.val)).red : Nat) : ℝ) = _
    rw [hout, red_grey]
  rw [e, getBlock_eq]
  have h := block_roundtrip (samples img x y) (samples_le img x y) bit
  unfold encodeBlock
  by_cases hb : bit = 1
  · rw [if_pos (h.mpr hb), hb]
  · rw [if_neg (fun hp => hb (h.mp hp))]
    omega

end DCTSteganography

/-- C2. DCT round trip (over exact real arithmetic): for every image whose width and height
are multiples of 8 and every text without a zero byte with `8 * (len + 1) ≤ (w * h) / 64`,
`EmbedText` succeeds and `ExtractText` of the returned image, whose pixels are the clamped
and truncated values, is the text. -/
theorem dct_roundtrip (img : Image) (text : Text) (hw : img.w % 8 = 0) (hh : img.h % 8 = 0)
    (h0 : ∀ b ∈ text, b ≠ 0) (hcap : 8 * (text.length + 1) ≤ (img.w * img.h) / 64) :
    ∃ out, DCTSteganography.EmbedText img text = .ok out
      ∧ DCTSteganography.ExtractText out = .ok text := by
  obtain ⟨Wb, hWb⟩ : ∃ a, img.w = a * 8 := ⟨img.w / 8, by omega⟩
  obtain ⟨Hb, hHb⟩ : ∃ b, img.h = b * 8 := ⟨img.h / 8, by omega⟩
  have e64 : img.w * img.h = 64 * (Hb * Wb) := by rw [hWb, hHb]; ring
  have hL : (textToBits text).length ≤ Hb * Wb := by
    rw [textToBits_length]
    rw [e64] at hcap
    generalize Hb * Wb = p at hcap ⊢
    omega
  have hWpos : 0 < Wb := by
    rcases Nat.eq_zero_or_pos Wb with h | h
    · rw [h, Nat.mul_zero, textToBits_length] at hL
      omega
    · exact h
  have cW : DCTSteganography.blockCount img.w = Wb := by
    rw [DCTSteganography.blockCount_eq _ hw]; omega
  have cH : DCTSteganography.blockCount img.h = Hb := by
    rw [DCTSteganography.blockCount_eq _ hh]; omega
  obtain ⟨_, ow, oh, hat⟩ := DCTSteganography.embedBlock_sweep img (textToBits text) Wb Hb hWpos
    hWb hHb (Hb * Wb) (le_refl _)
  refine ⟨(sweep (fun by' bx s => DCTSteganography.embedBlock img (textToBits text)
      (by' * DCTSteganography.blockSize) (bx * DCTSteganography.blockSize) s) Wb
      ⟨NewRGBA img.w img.h, 0⟩ (Hb * Wb)).output, ?_, ?_⟩
  · unfold DCTSteganography.EmbedText
    simp only []
    rw [if_neg (by unfold DCTSteganography.blockSize; omega), if_neg (by
      unfold DCTSteganography.blockSize
      rw [textToBits_length, e64]
      rw [textToBits_length] at hL
      generalize Hb * Wb = p at hL ⊢
      omega), forRange_grid, cW, cH]
  · unfold DCTSteganography.ExtractText
    rw [ow, oh, cW, cH, forFlow_grid _ Wb Hb hWpos]
    simp only [DCTSteganography.extractBlock_eq]
    rw [runFlow_marker (Hb * Wb) _ text h0 hL]
    intro k hk
    apply DCTSteganography.encoded_bit img
    · have := textToBits_mem text ((textToBits text).getD k 0) (by
        rw [List.getD_eq_getElem _ _ hk]
        exact List.getElem_mem _)
      exact this
    · intro i j
      exact hat k (by omega) hk i j

/-- Witness of C2 on a 32×32 image and the one-byte text `"H"`. -/
theorem dct_roundtrip_witness :
    sampleImage32.w % 8 = 0 ∧ sampleImage32.h % 8 = 0 ∧ (∀ b ∈ ([72] : Text), b ≠ 0) ∧
      8 * (([72] : Text).length + 1) ≤ (sampleImage32.w * sampleImage32.h) / 64 ∧
      ∃ out, DCTSteganography.EmbedText sampleImage32 [72] = .ok out
        ∧ DCTSteganography.ExtractText out = .ok [72] :=
  ⟨by decide, by decide, by simp, by decide,
    dct_roundtrip sampleImage32 [72] (by decide) (by decide) (by simp) (by decide)⟩

/-! ### Capacity query, codec and DCT invertibility -/

/-- C11, at its failing inputs. For a 4×4 image the capacity query of the LSB engine answers
6 bytes, yet `EmbedText` rejects the two-byte text `"Hi"`: its limit is one bit per pixel,
16 bits. For a 32×32 image the query of the DWT engine answers 64 bytes, yet `EmbedText`
rejects `"Hi"`: its limit is `(w * h) / 64 = 16` bits. -/
theorem capacity_query_exceeds_limit :
    calculateMaxCapacity 4 4 "LSB" = 6 ∧ 8 * calculateMaxCapacity 4 4 "LSB" ≠ 4 * 4 ∧
      LSB.EmbedText sampleImage4 [72, 105] = .capacityError ∧
    calculateMaxCapacity 32 32 "DWT" = 64 ∧ 8 * calculateMaxCapacity 32 32 "DWT" ≠ (32 * 32) / 64 ∧
      DWTSteganography.EmbedText sampleImage32 [72, 105] = .capacityError := by
  refine ⟨by decide, by decide, ?_, by decide, by decide, ?_⟩
  · unfold LSB.EmbedText
    simp only [LSB.binString_length]
    rw [if_pos (by decide)]
  · have h1 : isPowerOfTwo sampleImage32.w = true := by decide
    have h2 : isPowerOfTwo sampleImage32.h = true := by decide
    rw [DWTSteganography.EmbedText_eq, if_neg (by simp [h1, h2]), textToBits_length,
      if_pos (by decide)]

/-- C12, counterexample: the bits of `"A"`, of a zero byte and of `"B"` decode to three
bytes, the zero byte among them; `bitsToText` does not stop at it. -/
theorem bitsToText_keeps_zero_byte :
    bitsToText ([0, 1, 0, 0, 0, 0, 0, 1] ++ [0, 0, 0, 0, 0, 0, 0, 0] ++ [0, 1, 0, 0, 0, 0, 1, 0])
        = [65, 0, 66] ∧
      (0 : Byte) ∈ bitsToText ([0, 1, 0, 0, 0, 0, 0, 1] ++ [0, 0, 0, 0, 0, 0, 0, 0]
        ++ [0, 1, 0, 0, 0, 0, 1, 0]) := by
  constructor
  · decide
  · decide

theorem bitsToText_length (bits : List Nat) : (bitsToText bits).length = bits.length / 8 := by
  induction bits using bitsToText.induct with
  | case1 b0 b1 b2 b3 b4 b5 b6 b7 rest ih =>
    rw [bitsToText]
    simp only [List.length_cons, ih]
    omega
  | case2 bits h =>
    have hlen : bits.length < 8 := by
      match bits, h with
      | [], _ => simp
      | [_], _ => simp
      | [_, _], _ => simp
      | [_, _, _], _ => simp
      | [_, _, _, _], _ => simp
      | [_, _, _, _, _], _ => simp
      | [_, _, _, _, _, _], _ => simp
      | [_, _, _, _, _, _, _], _ => simp
      | b0 :: b1 :: b2 :: b3 :: b4 :: b5 :: b6 :: b7 :: rest, h => exact absurd rfl (h _ _ _ _ _ _ _ _ _)
    rw [bitsToText]
    · simp; omega
    · exact h

theorem bitsToText_groups (bits : List Nat) : bitsToText bits = (groups8 bits).map packByte := by
  induction bits using bitsToText.induct with
  | case1 b0 b1 b2 b3 b4 b5 b6 b7 rest ih =>
    rw [bitsToText, groups8, List.map_cons, ih]
  | case2 bits h =>
    rw [bitsToText, groups8]
    · rfl
    · exact h
    · exact h

theorem bit_of_bool (x : Nat) (h : x ≤ 1) : x = (decide (x = 1)).toNat := by
  interval_cases x <;> rfl

set_option maxRecDepth 100000 in
/-- C12, amended. `bitsToText` packs every complete group of eight bits into one byte and
returns all `⌊len / 8⌋` bytes, zero bytes included; the byte of a group of bits `0`/`1` is
its value read most significant bit first. -/
theorem bitsToText_all_bytes (bits : List Nat) (bs : List Bool) :
    bitsToText bits = (groups8 bits).map packByte ∧
      (bitsToText bits).length = bits.length / 8 ∧
      bitsToText (bs.map Bool.toNat)
        = (groups8 (bs.map Bool.toNat)).map (fun g => toUInt8 (msbValue g)) := by
  have groups8_map_msb : ∀ (bits : List Nat) (hb : ∀ x ∈ bits, x ≤ 1), (groups8 bits).map
      packByte = (groups8 bits).map (fun g => toUInt8 (msbValue g)) := by
    intro bits hb
    have packByte_msb : ∀ (b0 b1 b2 b3 b4 b5 b6 b7 : Nat) (h0 : b0 ≤ 1) (h1 : b1 ≤ 1) (h2 : b2 ≤ 1)
        (h3 : b3 ≤ 1) (h4 : b4 ≤ 1) (h5 : b5 ≤ 1) (h6 : b6 ≤ 1) (h7 : b7 ≤ 1), packByte [b0, b1,
        b2, b3, b4, b5, b6, b7] = toUInt8 (msbValue [b0, b1, b2, b3, b4, b5, b6, b7]) := by
      intro b0 b1 b2 b3 b4 b5 b6 b7 h0 h1 h2 h3 h4 h5 h6 h7
      have packByte_bools : ∀ (c0 c1 c2 c3 c4 c5 c6 c7 : Bool), packByte [c0.toNat, c1.toNat,
          c2.toNat, c3.toNat, c4.toNat, c5.toNat, c6.toNat, c7.toNat] = toUInt8 (msbValue [c0.toNat,
          c1.toNat, c2.toNat, c3.toNat, c4.toNat, c5.toNat, c6.toNat, c7.toNat]) := by
        intro c0 c1 c2 c3 c4 c5 c6 c7
        revert c0 c1 c2 c3 c4 c5 c6 c7
        decide
      rw [bit_of_bool b0 h0, bit_of_bool b1 h1, bit_of_bool b2 h2, bit_of_bool b3 h3,
        bit_of_bool b4 h4, bit_of_bool b5 h5, bit_of_bool b6 h6, bit_of_bool b7 h7]
      exact packByte_bools _ _ _ _ _ _ _ _
    induction bits using groups8.induct with
    | case1 b0 b1 b2 b3 b4 b5 b6 b7 rest ih =>
      rw [groups8, List.map_cons, List.map_cons,
        ih (fun x hx => hb x (by simp only [List.mem_cons]; tauto))]
      congr 1
      apply packByte_msb <;> apply hb <;> simp
    | case2 bits h =>
      rw [groups8]
      · rfl
      · exact h
  refine ⟨bitsToText_groups bits, bitsToText_length bits, ?_⟩
  rw [bitsToText_groups, groups8_map_msb]
  intro x hx
  rw [List.mem_map] at hx
  obtain ⟨c, _, rfl⟩ := hx
  cases c <;> decide

/-- C13. Shape of `textToBits`: the length is `8 * (n + 1)`; the bit at position `8 * i + j`
is bit `7 - j` of the byte `i`; every element is 0 or 1; the last eight bits are 0. -/
theorem textToBits_shape (text : Text) :
    (textToBits text).length = 8 * (text.length + 1) ∧
      (∀ (i : Fin text.length) (j : Fin 8),
        (textToBits text).getD (8 * i.val + j.val) 2 = ((text.get i).val >>> (7 - j.val)) &&& 1) ∧
      (∀ k : Fin (textToBits text).length,
        (textToBits text).get k = 0 ∨ (textToBits text).get k = 1) ∧
      (∀ j : Fin 8, (textToBits text).getD (8 * text.length + j.val) 2 = 0) := by
  have flatMap_byteBits_getD : ∀ (text : Text) (rest : List Nat) (d : Nat), ∀ (i : Nat) (hi : i <
      text.length) (j : Nat), j < 8 → (text.flatMap byteBits ++ rest).getD (8 * i + j) d =
      (byteBits (text.get ⟨i, hi⟩)).getD j d := by
    intro text rest d
    induction text with
    | nil => intro i hi; simp at hi
    | cons b t ih =>
      intro i hi j hj
      rw [List.flatMap_cons, List.append_assoc]
      cases i with
      | zero =>
        rw [Nat.mul_zero, Nat.zero_add, List.getD_append _ _ _ _ (by rw [byteBits_length]; exact hj)]
        rfl
      | succ i =>
        rw [List.getD_append_right _ _ _ _ (by rw [byteBits_length]; omega), byteBits_length,
          show 8 * (i + 1) + j - 8 = 8 * i + j by omega]
        exact ih i (by simpa using hi) j hj
  have byteBits_getD : ∀ (b : Byte) (j : Fin 8), (byteBits b).getD j.val 2 = (b.val >>> (7 -
      j.val)) &&& 1 := by
    intro b j
    fin_cases j <;> rfl
  refine ⟨textToBits_length text, ?_, ?_, ?_⟩
  · intro i j
    unfold textToBits
    rw [flatMap_byteBits_getD text _ 2 i.val i.isLt j.val j.isLt]
    exact byteBits_getD _ j
  · intro k
    exact textToBits_mem text _ (List.get_mem _ _ _)
  · intro j
    unfold textToBits
    have hl : (text.flatMap byteBits).length = 8 * text.length := by
      have := flatMap_byteBits_length text
      simpa using this
    rw [List.getD_append_right _ _ _ _ (by rw [hl]; omega), hl,
      show 8 * text.length + j.val - 8 * text.length = j.val by omega]
    fin_cases j <;> rfl

/-- C20. DCT invertibility over exact real arithmetic: `idct2D (dct2D block)` is `block` at
every position, so the difference is within the tolerance 0.1 of the test. -/
theorem dct_invertibility (block : DCTSteganography.Block) (x y : Fin 8) :
    DCTSteganography.idct2D (DCTSteganography.dct2D block) x y = block x y ∧
      |DCTSteganography.idct2D (DCTSteganography.dct2D block) x y - block x y| ≤ 0.1 := by
  have h := DCTSteganography.idct2D_dct2D block x y
  refine ⟨h, ?_⟩
  rw [h, sub_self, abs_zero]
  norm_num

/-! ### LSB extraction semantics -/

namespace LSB

set_option maxRecDepth 100000 in
theorem lsbOf_eq (c : Color) : lsbOf c = c.R.val % 2 := by
  have h : ∀ r : Byte, (toUInt8 ((r.val ||| (r.val <<< 8)) >>> 8)).val &&& 1 = r.val % 2 := by
    decide
  exact h c.R

theorem rasterBits_eq (img : Image) :
    (List.range (img.h * img.w)).map (fun k => lsbOf (img.At (k % img.w) (k / img.w)))
      = rasterBits img := by
  unfold rasterBits
  apply List.map_congr_left
  intro k _
  exact lsbOf_eq _

theorem rasterBits_le (img : Image) : ∀ x ∈ rasterBits img, x ≤ 1 := by
  intro x hx
  unfold rasterBits at hx
  rw [List.mem_map] at hx
  obtain ⟨k, _, rfl⟩ := hx
  omega

/-- Fewer than eight bits do not complete a byte: the result is unchanged. -/
theorem lsbStep_short (l : List Nat) :
    ∀ s : ExtractState, s.bitCount + l.length < 8 →
      ∃ s', runFlow lsbStep l s = .next s' ∧ s'.result = s.result := by
  induction l with
  | nil => intro s _; exact ⟨s, rfl, rfl⟩
  | cons b l ih =>
    intro s hs
    simp only [List.length_cons] at hs
    have hne : ¬ s.bitCount + 1 = 8 := by omega
    have e : lsbStep b s
        = .next ⟨s.result, s.bitCount + 1, toUInt8 ((s.currentByte.val <<< 1) % 256 ||| b)⟩ := by
      unfold lsbStep
      simp only [hne, if_false]
    simp only [runFlow, e]
    obtain ⟨s', h1, h2⟩ := ih ⟨s.result, s.bitCount + 1,
      toUInt8 ((s.currentByte.val <<< 1) % 256 ||| b)⟩ (by simp only []; omega)
    exact ⟨s', h1, h2⟩

set_option maxRecDepth 100000 in
theorem fold_bools (c0 c1 c2 c3 c4 c5 c6 c7 : Bool) :
    [c0.toNat, c1.toNat, c2.toNat, c3.toNat, c4.toNat, c5.toNat, c6.toNat, c7.toNat].foldl
        (fun (cur : Byte) bit => toUInt8 ((cur.val <<< 1) % 256 ||| bit)) 0
      = toUInt8 (msbValue [c0.toNat, c1.toNat, c2.toNat, c3.toNat, c4.toNat, c5.toNat, c6.toNat,
          c7.toNat]) := by
  revert c0 c1 c2 c3 c4 c5 c6 c7
  decide

theorem fold_msb (b0 b1 b2 b3 b4 b5 b6 b7 : Nat) (h0 : b0 ≤ 1) (h1 : b1 ≤ 1) (h2 : b2 ≤ 1)
    (h3 : b3 ≤ 1) (h4 : b4 ≤ 1) (h5 : b5 ≤ 1) (h6 : b6 ≤ 1) (h7 : b7 ≤ 1) :
    [b0, b1, b2, b3, b4, b5, b6, b7].foldl
        (fun (cur : Byte) bit => toUInt8 ((cur.val <<< 1) % 256 ||| bit)) 0
      = toUInt8 (msbValue [b0, b1, b2, b3, b4, b5, b6, b7]) := by
  rw [bit_of_bool b0 h0, bit_of_bool b1 h1, bit_of_bool b2 h2, bit_of_bool b3 h3,
    bit_of_bool b4 h4, bit_of_bool b5 h5, bit_of_bool b6 h6, bit_of_bool b7 h7]
  exact fold_bools _ _ _ _ _ _ _ _

/-- What the extraction loop returns on a sequence of bits, from a byte boundary. -/
theorem lsbStep_groups (bits : List Nat) (hb : ∀ x ∈ bits, x ≤ 1) :
    ∀ res : List Byte,
      (match runFlow lsbStep bits ⟨res, 0, 0⟩ with
        | .ret r => r
        | .next s => s.result)
      = res ++ ((groups8 bits).map (fun g => toUInt8 (msbValue g))).takeWhile
          (fun b => decide (b ≠ 0)) := by
  induction bits using groups8.induct with
  | case1 b0 b1 b2 b3 b4 b5 b6 b7 rest ih =>
    intro res
    have hrest : ∀ x ∈ rest, x ≤ 1 := fun x hx => hb x (by simp only [List.mem_cons]; tauto)
    have hl := lsbStep_eight b0 b1 b2 b3 b4 b5 b6 b7 res rest
    simp only [List.cons_append, List.nil_append] at hl
    rw [hl, fold_msb b0 b1 b2 b3 b4 b5 b6 b7 (hb _ (by simp)) (hb _ (by simp)) (hb _ (by simp))
      (hb _ (by simp)) (hb _ (by simp)) (hb _ (by simp)) (hb _ (by simp)) (hb _ (by simp)),
      groups8, List.map_cons, List.takeWhile_cons]
    by_cases hz : toUInt8 (msbValue [b0, b1, b2, b3, b4, b5, b6, b7]) = 0
    · simp only [hz, if_true, ne_eq, not_true_eq_false, decide_False, Bool.false_eq_true,
        if_false, List.append_nil]
    · simp only [hz, if_false, ne_eq, not_false_eq_true, decide_True, if_true]
      rw [ih hrest, List.append_assoc]
      rfl
  | case2 bits h =>
    intro res
    have hlen : bits.length < 8 := by
      match bits, h with
      | [], _ => simp
      | [_], _ => simp
      | [_, _], _ => simp
      | [_, _, _], _ => simp
      | [_, _, _, _], _ => simp
      | [_, _, _, _, _], _ => simp
      | [_, _, _, _, _, _], _ => simp
      | [_, _, _, _, _, _, _], _ => simp
      | b0 :: b1 :: b2 :: b3 :: b4 :: b5 :: b6 :: b7 :: rest, h =>
        exact absurd rfl (h _ _ _ _ _ _ _ _ _)
    obtain ⟨s', h1, h2⟩ := lsbStep_short bits ⟨res, 0, 0⟩ (by simp only []; omega)
    rw [h1, groups8]
    · simp only [List.map_nil, List.takeWhile_nil, List.append_nil]
      exact h2
    · exact h

theorem forFlow_empty_rows {ρ σ : Type} (body : Nat → Nat → σ → Flow ρ σ) (s : σ) :
    ∀ n lo, forFlow (fun y s => forFlow (body y) 0 0 s) lo n s = .next s := by
  intro n
  induction n with
  | zero => intro lo; rfl
  | succ n ih => intro lo; simp only [forFlow]; exact ih (lo + 1)

theorem groups8_length (bits : List Nat) : (groups8 bits).length = bits.length / 8 := by
  have h := bitsToText_length bits
  rw [bitsToText_groups, List.length_map] at h
  exact h

end LSB

/-- C14. LSB extraction semantics: on every image `ExtractText` returns without an error the
bytes assembled most significant bit first from the least-significant red bits of the pixels
in raster order, up to but excluding the first zero byte; the assembled bytes are the
`⌊w * h / 8⌋` complete ones. -/
theorem lsb_extract_semantics (img : Image) :
    LSB.ExtractText img = .ok (LSB.rasterText img) ∧
      (groups8 (LSB.rasterBits img)).length = (img.w * img.h) / 8 := by
  constructor
  · rcases Nat.eq_zero_or_pos img.w with hW | hW
    · unfold LSB.ExtractText LSB.rasterText LSB.rasterBits
      rw [hW, LSB.forFlow_empty_rows]
      rfl
    · rw [LSB.ExtractText_eq img hW, LSB.rasterBits_eq]
      have h := LSB.lsbStep_groups (LSB.rasterBits img) (LSB.rasterBits_le img) []
      rw [List.nil_append] at h
      unfold LSB.rasterText
      rw [← h]
      cases runFlow LSB.lsbStep (LSB.rasterBits img) ⟨[], 0, 0⟩ <;> rfl
  · rw [LSB.groups8_length]
    unfold LSB.rasterBits
    rw [List.length_map, List.length_range, Nat.mul_comm]

/-! ### LSB frame and bit placement -/

namespace LSB

/-- A successful `EmbedText`: the text fits, and the image is the one the embedding loop leaves
after `8 * (len + 1)` pixels. -/
theorem lsb_embed_success (img : Image) (text : Text) (out : Image)
    (h : EmbedText img text = .ok out) :
    8 * (text.length + 1) ≤ img.w * img.h ∧
      out = (sweep (embedPixel (binString text)) img.w ⟨copyImage img, 0⟩
        (8 * (text.length + 1))).rgba := by
  by_cases hcap : 8 * (text.length + 1) ≤ img.w * img.h
  · refine ⟨hcap, ?_⟩
    rw [EmbedText_ok img text hcap] at h
    cases h
    rfl
  · exfalso
    unfold EmbedText at h
    simp only [binString_length] at h
    rw [if_pos (by omega)] at h
    cases h

/-- The pixels of the image a successful `EmbedText` returns. -/
theorem EmbedText_pixels (img : Image) (text : Text) (out : Image)
    (h : EmbedText img text = .ok out) :
    0 < img.w ∧ out.w = img.w ∧ out.h = img.h ∧
      ∀ k, k < img.h * img.w →
        out.At (k % img.w) (k / img.w)
          = if k < 8 * (text.length + 1) then
              withLSB (img.At (k % img.w) (k / img.w)) ((binString text).getD k '0')
            else img.At (k % img.w) (k / img.w) := by
  obtain ⟨hcap, rfl⟩ := lsb_embed_success img text out h
  have hW : 0 < img.w := by
    rcases Nat.eq_zero_or_pos img.w with h0 | h0
    · rw [h0] at hcap; omega
    · exact h0
  obtain ⟨_, hw, hh, hat⟩ := embedPixel_sweep img (binString text) hW (8 * (text.length + 1))
    (by rw [Nat.mul_comm img.h]; exact hcap)
  exact ⟨hW, hw, hh, hat⟩

end LSB

set_option maxRecDepth 100000 in
open LSB in
/-- C15. LSB frame: on success the output has the width and height of the input; at every
position the green, blue and alpha channels and the upper seven bits of the red channel are
the input's; a pixel at a raster index of at least `8 * (len + 1)` is the input pixel. -/
theorem lsb_frame (img : Image) (text : Text) (out : Image)
    (h : LSB.EmbedText img text = .ok out) (x y k : Nat) (hk : 8 * (text.length + 1) ≤ k) :
    out.w = img.w ∧ out.h = img.h ∧
      (out.At x y).G = (img.At x y).G ∧ (out.At x y).B = (img.At x y).B ∧
      (out.At x y).A = (img.At x y).A ∧ (out.At x y).R.val / 2 = (img.At x y).R.val / 2 ∧
      out.At (k % img.w) (k / img.w) = img.At (k % img.w) (k / img.w) := by
  have withLSB_upper : ∀ (c : Color) (ch : Char), (withLSB c ch).R.val / 2 = c.R.val / 2 := by
    intro c ch
    have h : ∀ r : Byte, (toUInt8 (r.val ||| 1)).val / 2 = r.val / 2
        ∧ (toUInt8 (r.val &&& 0xFE)).val / 2 = r.val / 2 := by decide
    unfold withLSB
    simp only []
    split
    · exact (h c.R).1
    · exact (h c.R).2
  obtain ⟨hW, hw, hh, hat⟩ := LSB.EmbedText_pixels img text out h
  have hxy : out.At x y = img.At x y
      ∨ ∃ ch, out.At x y = LSB.withLSB (img.At x y) ch := by
    by_cases hb : x < img.w ∧ y < img.h
    · have hk' := raster_index_lt x y hb.1 hb.2
      have := hat (y * img.w + x) hk'
      rw [(raster_coord x y hb.1).1, (raster_coord x y hb.1).2] at this
      rw [this]
      split
      · exact Or.inr ⟨_, rfl⟩
      · exact Or.inl rfl
    · left
      rw [Image.At_out img hb, Image.At_out out (by rw [hw, hh]; exact hb)]
  have hfar : out.At (k % img.w) (k / img.w) = img.At (k % img.w) (k / img.w) := by
    by_cases hin : k < img.h * img.w
    · rw [hat k hin, if_neg (by omega)]
    · have hb : ¬ (k % img.w < img.w ∧ k / img.w < img.h) := by
        intro hb
        exact hin ((raster_lt hW k).mp hb)
      rw [Image.At_out img hb, Image.At_out out (by rw [hw, hh]; exact hb)]
  refine ⟨hw, hh, ?_, ?_, ?_, ?_, hfar⟩
  · rcases hxy with e | ⟨ch, e⟩
    · rw [e]
    · rw [e]; rfl
  · rcases hxy with e | ⟨ch, e⟩
    · rw [e]
    · rw [e]; rfl
  · rcases hxy with e | ⟨ch, e⟩
    · rw [e]
    · rw [e]; rfl
  · rcases hxy with e | ⟨ch, e⟩
    · rw [e]
    · rw [e, withLSB_upper]

/-- Witness of C15 on an 8×8 image and the one-byte text `"A"`, at the pixel `(1, 1)` and the
raster index 20. -/
theorem lsb_frame_witness :
    ∃ out, LSB.EmbedText sampleImage8 [65] = .ok out ∧ 8 * (([65] : Text).length + 1) ≤ 20 ∧
      out.w = sampleImage8.w ∧ out.h = sampleImage8.h ∧
      (out.At 1 1).G = (sampleImage8.At 1 1).G ∧ (out.At 1 1).B = (sampleImage8.At 1 1).B ∧
      (out.At 1 1).A = (sampleImage8.At 1 1).A ∧
      (out.At 1 1).R.val / 2 = (sampleImage8.At 1 1).R.val / 2 ∧
      out.At (20 % sampleImage8.w) (20 / sampleImage8.w)
        = sampleImage8.At (20 % sampleImage8.w) (20 / sampleImage8.w) :=
  ⟨_, LSB.EmbedText_ok sampleImage8 [65] (by decide), by decide,
    lsb_frame sampleImage8 [65] _ (LSB.EmbedText_ok sampleImage8 [65] (by decide)) 1 1 20
      (by decide)⟩

open LSB in
/-- C16. LSB bit placement: on success, for every `k < 8 * (len + 1)` the least-significant
bit of the red channel of the output pixel at raster index `k` is bit `k` of
`textToBits text`. -/
theorem lsb_bit_placement (img : Image) (text : Text) (out : Image)
    (h : LSB.EmbedText img text = .ok out) (k : Nat) (hk : k < 8 * (text.length + 1)) :
    (out.At (k % img.w) (k / img.w)).R.val % 2 = (textToBits text).getD k 2 := by
  have textToBits_getD : ∀ (text : Text) (k : Nat) (hk : k < 8 * (text.length + 1)), (textToBits
      text).getD k 2 = charBit ((binString text).getD k '0') := by
    intro text k hk
    have hl : k < (binString text).length := by rw [binString_length]; exact hk
    have hl2 : k < ((binString text).map charBit).length := by rw [List.length_map]; exact hl
    rw [textToBits_eq, ← binString_bits, List.getD_eq_getElem _ _ hl2, List.getElem_map,
      List.getD_eq_getElem _ _ hl]
  obtain ⟨hcap, _⟩ := LSB.lsb_embed_success img text out h
  obtain ⟨hW, hw, hh, hat⟩ := LSB.EmbedText_pixels img text out h
  rw [hat k (by rw [Nat.mul_comm]; omega), if_pos hk, ← LSB.lsbOf_eq, LSB.lsbOf_withLSB,
    textToBits_getD text k hk]

/-- Witness of C16 on an 8×8 image and the text `"A"`: the pixel of raster index 1 carries the
bit 1 of `01000001`. -/
theorem lsb_bit_placement_witness :
    ∃ out, LSB.EmbedText sampleImage8 [65] = .ok out ∧ 1 < 8 * (([65] : Text).length + 1) ∧
      (out.At (1 % sampleImage8.w) (1 / sampleImage8.w)).R.val % 2
        = (textToBits [65]).getD 1 2 ∧ (textToBits [65]).getD 1 2 = 1 :=
  ⟨_, LSB.EmbedText_ok sampleImage8 [65] (by decide), by decide,
    lsb_bit_placement sampleImage8 [65] _ (LSB.EmbedText_ok sampleImage8 [65] (by decide)) 1
      (by decide), by decide⟩

/-! ### Output images of the transform engines -/

namespace DCTSteganography

/-- A successful `EmbedText`: both tests pass, and the image is the one the block loop
leaves. -/
theorem dct_embed_success (img : Image) (text : Text) (out : Image)
    (h : EmbedText img text = .ok out) :
    img.w % 8 = 0 ∧ img.h % 8 = 0 ∧ 8 * (text.length + 1) ≤ (img.h / 8) * (img.w / 8) ∧
      0 < img.w / 8 ∧
      out = (sweep (fun by' bx s => embedBlock img (textToBits text) (by' * blockSize)
          (bx * blockSize) s) (img.w / 8) ⟨NewRGBA img.w img.h, 0⟩
          ((img.h / 8) * (img.w / 8))).output := by
  unfold EmbedText at h
  simp only [] at h
  by_cases hg : img.w % blockSize ≠ 0 ∨ img.h % blockSize ≠ 0
  · rw [if_pos hg] at h
    cases h
  · rw [if_neg hg] at h
    by_cases hc : (textToBits text).length > img.w * img.h / (blockSize * blockSize)
    · rw [if_pos hc] at h
      cases h
    · rw [if_neg hc] at h
      unfold blockSize at hg hc
      have hw : img.w % 8 = 0 := by omega
      have hh : img.h % 8 = 0 := by omega
      obtain ⟨Wb, hWb⟩ : ∃ a, img.w = a * 8 := ⟨img.w / 8, by omega⟩
      obtain ⟨Hb, hHb⟩ : ∃ b, img.h = b * 8 := ⟨img.h / 8, by omega⟩
      have e64 : img.w * img.h = 64 * (Hb * Wb) := by rw [hWb, hHb]; ring
      have eW : img.w / 8 = Wb := by omega
      have eH : img.h / 8 = Hb := by omega
      rw [textToBits_length, e64] at hc
      have hL : 8 * (text.length + 1) ≤ Hb * Wb := by
        generalize Hb * Wb = p at hc ⊢
        omega
      have hWpos : 0 < Wb := by
        rcases Nat.eq_zero_or_pos Wb with h0 | h0
        · rw [h0, Nat.mul_zero] at hL
          omega
        · exact h0
      rw [forRange_grid, blockCount_eq _ hw, blockCount_eq _ hh] at h
      cases h
      rw [eW, eH]
      exact ⟨hw, hh, hL, hWpos, rfl⟩

/-- The pixels of the image a successful `EmbedText` returns, block by block. -/
theorem EmbedText_blocks (img : Image) (text : Text) (out : Image)
    (h : EmbedText img text = .ok out) :
    out.w = img.w ∧ out.h = img.h ∧
      ∀ k, k < (img.h / 8) * (img.w / 8) → ∀ i j : Fin 8,
        out.At ((k % (img.w / 8)) * 8 + j.val) ((k / (img.w / 8)) * 8 + i.val)
          = if k < 8 * (text.length + 1) then
              grey (clampToUInt8 (encodeBlock
                (getBlock img ((k % (img.w / 8)) * 8) ((k / (img.w / 8)) * 8))
                ((textToBits text).getD k 0) i j))
            else img.At ((k % (img.w / 8)) * 8 + j.val) ((k / (img.w / 8)) * 8 + i.val) := by
  have copied_sweep : ∀ (img : Image) (bits : List Nat) (Wb Hb : Nat) (hWb : 0 < Wb) (hw : img.w
      = Wb * 8) (hh : img.h = Hb * 8) (n : Nat) (hn : n ≤ Hb * Wb), ∀ k, bits.length ≤ k → k < n
      → ∀ i j : Fin 8, (sweep (fun by' bx s => embedBlock img bits (by' * blockSize) (bx *
      blockSize) s) Wb ⟨NewRGBA img.w img.h, 0⟩ n).output.At ((k % Wb) * 8 + j.val) ((k / Wb) * 8
      + i.val) = img.At ((k % Wb) * 8 + j.val) ((k / Wb) * 8 + i.val) := by
    intro img bits Wb Hb hWb hw hh n hn
    induction n with
    | zero =>
      intro k _ hk
      omega
    | succ n ih =>
      have hat := ih (by omega)
      obtain ⟨hidx, how, hoh, _⟩ := embedBlock_sweep img bits Wb Hb hWb hw hh n (by omega)
      have hnlt : n < Hb * Wb := by omega
      obtain ⟨hx, hy⟩ := (raster_lt hWb n).mpr hnlt
      intro k hkL hk i j
      rw [sweep_succ, embedBlock_eq]
      generalize sweep (fun by' bx s => embedBlock img bits (by' * blockSize) (bx * blockSize) s) Wb
          ⟨NewRGBA img.w img.h, 0⟩ n = E at hidx how hoh hat
      have hi := i.isLt
      have hj := j.isLt
      rw [if_pos (by omega)]
      obtain ⟨_, _, pat⟩ := paint_spec E.output
        (fun i j => img.At (n % Wb * blockSize + j) (n / Wb * blockSize + i))
        (n % Wb * blockSize) (n / Wb * blockSize)
      dsimp only
      rw [pat]
      by_cases hkn : k = n
      · subst hkn
        rw [if_pos (by unfold blockSize; omega)]
        simp only [blockSize]
        have e1 : k % Wb * 8 + (k % Wb * 8 + j.val - k % Wb * 8) = k % Wb * 8 + j.val := by omega
        have e2 : k / Wb * 8 + (k / Wb * 8 + i.val - k / Wb * 8) = k / Wb * 8 + i.val := by omega
        rw [e1, e2]
      · have hne : ¬ (n % Wb * blockSize ≤ k % Wb * 8 + j.val
            ∧ k % Wb * 8 + j.val < n % Wb * blockSize + 8
            ∧ n / Wb * blockSize ≤ k / Wb * 8 + i.val ∧ k / Wb * 8 + i.val < n / Wb * blockSize + 8
            ∧ k % Wb * 8 + j.val < E.output.w ∧ k / Wb * 8 + i.val < E.output.h) := by
          intro hc
          unfold blockSize at hc
          have : k % Wb = n % Wb ∧ k / Wb = n / Wb := by omega
          exact hkn ((raster_inj k n).mp this)
        rw [if_neg hne]
        exact hat k hkL (by omega) i j
  obtain ⟨hw, hh, hL, hWpos, rfl⟩ := dct_embed_success img text out h
  have hw' : img.w = img.w / 8 * 8 := by omega
  have hh' : img.h = img.h / 8 * 8 := by omega
  obtain ⟨_, ow, oh, hat⟩ := embedBlock_sweep img (textToBits text) (img.w / 8) (img.h / 8)
    hWpos hw' hh' ((img.h / 8) * (img.w / 8)) (le_refl _)
  refine ⟨ow, oh, ?_⟩
  intro k hk i j
  by_cases hp : k < 8 * (text.length + 1)
  · rw [if_pos hp]
    exact hat k hk (by rw [textToBits_length]; exact hp) i j
  · rw [if_neg hp]
    exact copied_sweep img (textToBits text) (img.w / 8) (img.h / 8) hWpos hw' hh'
      ((img.h / 8) * (img.w / 8)) (le_refl _) k (by rw [textToBits_length]; omega) hk i j

/-- On a valid geometry with enough capacity `EmbedText` returns an image. -/
theorem dct_embed_ok (img : Image) (text : Text) (hw : img.w % 8 = 0) (hh : img.h % 8 = 0)
    (hcap : 8 * (text.length + 1) ≤ (img.w * img.h) / 64) :
    ∃ out, EmbedText img text = .ok out := by
  unfold EmbedText
  simp only []
  rw [if_neg (by unfold blockSize; omega), if_neg (by
    unfold blockSize
    rw [textToBits_length]
    omega)]
  exact ⟨_, rfl⟩

end DCTSteganography

/-- C17, counterexample: for the 32×32 colour image and the empty text the blocks 8 to 15 are
copied, so the output pixel `(0, 16)` keeps its colour: red 0, green 16. -/
theorem dct_output_keeps_colour :
    ∃ out, DCTSteganography.EmbedText sampleImage32 [] = .ok out ∧
      (out.At 0 16).R ≠ (out.At 0 16).G := by
  obtain ⟨out, h⟩ := DCTSteganography.dct_embed_ok sampleImage32 [] (by decide) (by decide)
    (by decide)
  refine ⟨out, h, ?_⟩
  have hb := (DCTSteganography.EmbedText_blocks sampleImage32 [] out h).2.2 8 (by decide) 0 0
  rw [if_neg (by decide)] at hb
  have e : out.At 0 16 = sampleImage32.At 0 16 := hb
  rw [e]
  decide

/-- C17, amended. On success the output has the input's width and height, and every pixel
of a block that carries a payload bit (raster block index below `8 * (len + 1)`) is grey
and opaque: `R = G = B` and alpha 255. -/
theorem dct_payload_blocks_grey (img : Image) (text : Text) (out : Image)
    (h : DCTSteganography.EmbedText img text = .ok out) (k : Nat)
    (hk : k < 8 * (text.length + 1)) (i j : Fin 8) :
    out.w = img.w ∧ out.h = img.h ∧
      (out.At ((k % (img.w / 8)) * 8 + j.val) ((k / (img.w / 8)) * 8 + i.val)).R
        = (out.At ((k % (img.w / 8)) * 8 + j.val) ((k / (img.w / 8)) * 8 + i.val)).G ∧
      (out.At ((k % (img.w / 8)) * 8 + j.val) ((k / (img.w / 8)) * 8 + i.val)).G
        = (out.At ((k % (img.w / 8)) * 8 + j.val) ((k / (img.w / 8)) * 8 + i.val)).B ∧
      (out.At ((k % (img.w / 8)) * 8 + j.val) ((k / (img.w / 8)) * 8 + i.val)).A = 255 := by
  obtain ⟨_, _, hL, _, _⟩ := DCTSteganography.dct_embed_success img text out h
  obtain ⟨ow, oh, hat⟩ := DCTSteganography.EmbedText_blocks img text out h
  rw [hat k (by omega) i j, if_pos hk]
  exact ⟨ow, oh, rfl, rfl, rfl⟩

/-- Witness of C17 (amended) on the 32×32 image and the empty text, at block 3. -/
theorem dct_payload_blocks_grey_witness :
    ∃ out, DCTSteganography.EmbedText sampleImage32 [] = .ok out ∧
      3 < 8 * (([] : Text).length + 1) ∧ out.w = sampleImage32.w ∧ out.h = sampleImage32.h ∧
      (out.At ((3 % (sampleImage32.w / 8)) * 8 + (2 : Fin 8).val)
          ((3 / (sampleImage32.w / 8)) * 8 + (1 : Fin 8).val)).R
        = (out.At ((3 % (sampleImage32.w / 8)) * 8 + (2 : Fin 8).val)
          ((3 / (sampleImage32.w / 8)) * 8 + (1 : Fin 8).val)).G ∧
      (out.At ((3 % (sampleImage32.w / 8)) * 8 + (2 : Fin 8).val)
          ((3 / (sampleImage32.w / 8)) * 8 + (1 : Fin 8).val)).G
        = (out.At ((3 % (sampleImage32.w / 8)) * 8 + (2 : Fin 8).val)
          ((3 / (sampleImage32.w / 8)) * 8 + (1 : Fin 8).val)).B ∧
      (out.At ((3 % (sampleImage32.w / 8)) * 8 + (2 : Fin 8).val)
          ((3 / (sampleImage32.w / 8)) * 8 + (1 : Fin 8).val)).A = 255 := by
  obtain ⟨out, h⟩ := DCTSteganography.dct_embed_ok sampleImage32 [] (by decide) (by decide)
    (by decide)
  exact ⟨out, h, by decide, dct_payload_blocks_grey sampleImage32 [] out h 3 (by decide) 1 2⟩

/-- C19. DCT frame: on success every pixel of a block whose raster block index is at least
`8 * (len + 1)` is the input pixel, in all four channels. -/
theorem dct_frame (img : Image) (text : Text) (out : Image)
    (h : DCTSteganography.EmbedText img text = .ok out) (k : Nat)
    (hk1 : 8 * (text.length + 1) ≤ k) (hk2 : k < (img.h / 8) * (img.w / 8)) (i j : Fin 8) :
    out.At ((k % (img.w / 8)) * 8 + j.val) ((k / (img.w / 8)) * 8 + i.val)
      = img.At ((k % (img.w / 8)) * 8 + j.val) ((k / (img.w / 8)) * 8 + i.val) := by
  rw [(DCTSteganography.EmbedText_blocks img text out h).2.2 k hk2 i j, if_neg (by omega)]

/-- Witness of C19 on the 32×32 image and the empty text, at block 8. -/
theorem dct_frame_witness :
    ∃ out, DCTSteganography.EmbedText sampleImage32 [] = .ok out ∧
      8 * (([] : Text).length + 1) ≤ 8 ∧ 8 < (sampleImage32.h / 8) * (sampleImage32.w / 8) ∧
      out.At ((8 % (sampleImage32.w / 8)) * 8 + (2 : Fin 8).val)
          ((8 / (sampleImage32.w / 8)) * 8 + (1 : Fin 8).val)
        = sampleImage32.At ((8 % (sampleImage32.w / 8)) * 8 + (2 : Fin 8).val)
          ((8 / (sampleImage32.w / 8)) * 8 + (1 : Fin 8).val) := by
  obtain ⟨out, h⟩ := DCTSteganography.dct_embed_ok sampleImage32 [] (by decide) (by decide)
    (by decide)
  exact ⟨out, h, by decide, by decide,
    dct_frame sampleImage32 [] out h 8 (by decide) (by decide) 1 2⟩

namespace DWTSteganography

end DWTSteganography

open DWTSteganography in
/-- C18. DWT output: on success the output has the input's width and height, and every pixel
of it is grey and opaque: `R = G = B` and alpha 255. -/
theorem dwt_output_grey (img : Image) (text : Text) (out : Image)
    (h : DWTSteganography.EmbedText img text = .ok out) (x y : Nat) (hx : x < img.w)
    (hy : y < img.h) :
    out.w = img.w ∧ out.h = img.h ∧ (out.At x y).R = (out.At x y).G ∧
      (out.At x y).G = (out.At x y).B ∧ (out.At x y).A = 255 := by
  have dwt_embed_success : ∀ (img : Image) (text : Text) (out : Image) (h : EmbedText img text =
      .ok out), ∃ result, out = outputImage img.w img.h result := by
    intro img text out h
    rw [EmbedText_eq] at h
    split_ifs at h
    unfold embedBody at h
    split at h
    · cases h
    · simp only [] at h
      split at h
      · cases h
      · split_ifs at h
        cases h
        exact ⟨_, rfl⟩
  obtain ⟨result, rfl⟩ := dwt_embed_success img text out h
  obtain ⟨ow, oh, hat⟩ := DWTSteganography.outputImage_spec img.w img.h result
  rw [hat x y hx hy]
  exact ⟨ow, oh, rfl, rfl, rfl⟩

/-- Witness of C18 on the 32×32 image and the text `"H"`, at the pixel `(5, 7)`. -/
theorem dwt_output_grey_witness :
    ∃ out, DWTSteganography.EmbedText sampleImage32 [72] = .ok out ∧
      5 < sampleImage32.w ∧ 7 < sampleImage32.h ∧
      out.w = sampleImage32.w ∧ out.h = sampleImage32.h ∧ (out.At 5 7).R = (out.At 5 7).G ∧
      (out.At 5 7).G = (out.At 5 7).B ∧ (out.At 5 7).A = 255 := by
  obtain ⟨out, hout, _⟩ := DWTSteganography.embedBody_spec sampleImage32 (textToBits [72])
    (by decide) (by decide) (by decide) (by decide) (textToBits_mem [72]) (by decide)
  have h1 : isPowerOfTwo sampleImage32.w = true := by decide
  have h2 : isPowerOfTwo sampleImage32.h = true := by decide
  have h : DWTSteganography.EmbedText sampleImage32 [72] = .ok out := by
    rw [DWTSteganography.EmbedText_eq, if_neg (by simp [h1, h2]), textToBits_length,
      if_neg (by decide)]
    exact hout
  exact ⟨out, h, by decide, by decide, dwt_output_grey sampleImage32 [72] out h 5 7 (by decide)
    (by decide)⟩

/-! ### Codec round trip and the Haar transform -/

namespace DWTSteganography

theorem list_eq_tabulate {α : Type} (l : List α) (d : α) :
    l = tabulate l.length (fun i => l.getD i d) := by
  apply List.ext_getElem
  · rw [tabulate_length]
  · intro i h1 h2
    have h := getD_tabulate (fun i => l.getD i d) d h1
    rw [List.getD_eq_getElem _ _ h2] at h
    rw [h]
    show l[i] = l.getD i d
    rw [List.getD_eq_getElem _ _ h1]

/-- A matrix of a given shape is the table of its entries. -/
theorem Mat.eq_tabulate (m : Mat) (rows cols : Nat) (hs : m.shape rows cols) :
    m = tabulate rows (fun i => tabulate cols (fun j => m.get i j)) := by
  obtain ⟨hl, hr⟩ := hs
  have h := list_eq_tabulate m []
  rw [hl] at h
  conv_lhs => rw [h]
  apply tabulate_congr
  intro i hi
  have hmem : m.getD i [] ∈ m := by
    rw [List.getD_eq_getElem _ _ (by omega)]
    exact List.getElem_mem _
  have h2 := list_eq_tabulate (m.getD i []) 0
  rw [hr _ hmem] at h2
  exact h2

end DWTSteganography

/-- C26. Codec round trip through the terminator: for every text (any bytes) without a zero
byte, the bytes of `bitsToText (textToBits text)` before its first zero byte are the bytes
of the text. -/
theorem codec_roundtrip (text : Text) (h0 : ∀ b ∈ text, b ≠ 0) :
    (bitsToText (textToBits text)).takeWhile (fun b => decide (b ≠ 0)) = text := by
  have h := bitsToText_flatMap (text ++ [0]) []
  rw [List.append_nil] at h
  rw [textToBits_eq, h, show bitsToText [] = [] from rfl, List.append_nil]
  rw [List.takeWhile_append_of_pos (by
    intro b hb
    exact decide_eq_true (h0 b hb))]
  simp

/-- Witness of C26 on the two bytes of `"é"` in UTF-8. -/
theorem codec_roundtrip_witness :
    (∀ b ∈ ([195, 169] : Text), b ≠ 0) ∧
      (bitsToText (textToBits [195, 169])).takeWhile (fun b => decide (b ≠ 0)) = [195, 169] :=
  ⟨by simp, codec_roundtrip [195, 169] (by simp)⟩

/-- C21. Haar 1D invertibility: for a sequence `x` of even length `n`, `dwt1D` returns `n/2`
approximation values `(x[2i] + x[2i+1]) / √2` and `n/2` detail values
`(x[2i] - x[2i+1]) / √2`, and `idwt1D` of them is `x`. -/
theorem haar1D_invertibility (x : DWTSteganography.Vec) (hn : x.length % 2 = 0) :
    (DWTSteganography.dwt1D x).1.length = x.length / 2 ∧
      (DWTSteganography.dwt1D x).2.length = x.length / 2 ∧
      (∀ i, i < x.length / 2 →
        (DWTSteganography.dwt1D x).1.getD i 0
            = (x.getD (2 * i) 0 + x.getD (2 * i + 1) 0) / Real.sqrt 2 ∧
          (DWTSteganography.dwt1D x).2.getD i 0
            = (x.getD (2 * i) 0 - x.getD (2 * i + 1) 0) / Real.sqrt 2) ∧
      DWTSteganography.idwt1D (DWTSteganography.dwt1D x).1 (DWTSteganography.dwt1D x).2 = x := by
  have l1 : (DWTSteganography.dwt1D x).1.length = x.length / 2 :=
    DWTSteganography.tabulate_length _ _
  have l2 : (DWTSteganography.dwt1D x).2.length = x.length / 2 :=
    DWTSteganography.tabulate_length _ _
  refine ⟨l1, l2, fun i hi => ⟨DWTSteganography.dwt1D_fst_getD x hi,
    DWTSteganography.dwt1D_snd_getD x hi⟩, ?_⟩
  have hx := DWTSteganography.list_eq_tabulate x 0
  conv_rhs => rw [hx]
  unfold DWTSteganography.idwt1D
  rw [l1, show x.length / 2 * 2 = x.length by omega]
  apply DWTSteganography.tabulate_congr
  intro k hk
  have hk2 : k / 2 < x.length / 2 := by omega
  rw [DWTSteganography.dwt1D_fst_getD x hk2, DWTSteganography.dwt1D_snd_getD x hk2]
  rcases Nat.mod_two_eq_zero_or_one k with h | h
  · rw [if_pos h, show 2 * (k / 2) = k by omega, ← add_div, DWTSteganography.div_sqrt2_twice]
    ring
  · rw [if_neg (by omega), show 2 * (k / 2) + 1 = k by omega, ← sub_div,
      DWTSteganography.div_sqrt2_twice]
    ring

/-- Witness of C21 on the sequence `1, 2, 3, 4`. -/
theorem haar1D_invertibility_witness :
    ([1, 2, 3, 4] : DWTSteganography.Vec).length % 2 = 0 ∧
      DWTSteganography.idwt1D (DWTSteganography.dwt1D [1, 2, 3, 4]).1
        (DWTSteganography.dwt1D [1, 2, 3, 4]).2 = [1, 2, 3, 4] :=
  ⟨rfl, (haar1D_invertibility [1, 2, 3, 4] rfl).2.2.2⟩

open DWTSteganography in
/-- C27. Haar 2D invertibility: for a matrix with even positive numbers of rows and columns,
`dwt2D` returns four matrices of `rows/2` rows and `cols/2` columns, and `idwt2D` of them, in
the order `ll, lh, hl, hh`, returns the matrix. -/
theorem haar2D_invertibility (m : DWTSteganography.Mat) (rows cols : Nat)
    (hs : m.shape rows cols) (hr : 0 < rows) (hc : 0 < cols) (hre : rows % 2 = 0)
    (hce : cols % 2 = 0) :
    ∃ ll lh hl hh, DWTSteganography.dwt2D m = some (ll, lh, hl, hh) ∧
      ll.shape (rows / 2) (cols / 2) ∧ lh.shape (rows / 2) (cols / 2) ∧
      hl.shape (rows / 2) (cols / 2) ∧ hh.shape (rows / 2) (cols / 2) ∧
      DWTSteganography.idwt2D ll lh hl hh = some m := by
  have shape_tabulate : ∀ (r c : Nat) (f : Nat → Nat → ℝ), Mat.shape (tabulate r (fun i =>
      tabulate c (f i))) r c := by
    intro r c f
    refine ⟨tabulate_length _ _, ?_⟩
    intro row hrow
    unfold tabulate at hrow
    rw [List.mem_map] at hrow
    obtain ⟨i, _, rfl⟩ := hrow
    exact tabulate_length _ _
  have synth_tabulate : ∀ (R C : Nat) (X : Nat → Nat → ℝ) (r c : Nat) (hr : r < R * 2) (hc : c <
      C * 2), synth (tabulate R (fun i => tabulate C (fun j => (X (2 * i) (2 * j) + X (2 * i) (2
      * j + 1) + X (2 * i + 1) (2 * j) + X (2 * i + 1) (2 * j + 1)) / 2))) (tabulate R (fun i =>
      tabulate C (fun j => (X (2 * i) (2 * j) - X (2 * i) (2 * j + 1) + X (2 * i + 1) (2 * j) - X
      (2 * i + 1) (2 * j + 1)) / 2))) (tabulate R (fun i => tabulate C (fun j => (X (2 * i) (2 *
      j) + X (2 * i) (2 * j + 1) - X (2 * i + 1) (2 * j) - X (2 * i + 1) (2 * j + 1)) / 2)))
      (tabulate R (fun i => tabulate C (fun j => (X (2 * i) (2 * j) - X (2 * i) (2 * j + 1) - X
      (2 * i + 1) (2 * j) + X (2 * i + 1) (2 * j + 1)) / 2))) r c = X r c := by
    intro R C X r c hr hc
    have hi : r / 2 < R := by omega
    have hj : c / 2 < C := by omega
    unfold synth
    simp only [Mat.get_tabulate _ hi hj]
    rcases Nat.mod_two_eq_zero_or_one r with h1 | h1 <;>
      rcases Nat.mod_two_eq_zero_or_one c with h2 | h2
    · have e1 : 2 * (r / 2) = r := by omega
      have e2 : 2 * (c / 2) = c := by omega
      simp only [h1, h2, if_true, e1, e2]
      ring
    · have e1 : 2 * (r / 2) = r := by omega
      have e2 : 2 * (c / 2) + 1 = c := by omega
      simp only [h1, h2, if_true, if_false, one_ne_zero, e1, e2]
      ring
    · have e1 : 2 * (r / 2) + 1 = r := by omega
      have e2 : 2 * (c / 2) = c := by omega
      simp only [h1, h2, if_true, if_false, one_ne_zero, e1, e2]
      ring
    · have e1 : 2 * (r / 2) + 1 = r := by omega
      have e2 : 2 * (c / 2) + 1 = c := by omega
      simp only [h1, h2, if_false, one_ne_zero, e1, e2]
      ring
  have hm := DWTSteganography.Mat.eq_tabulate m rows cols hs
  have hd := DWTSteganography.dwt2D_tabulate rows cols (fun i j => m.get i j) hr hce
  rw [← hm] at hd
  have hR : 0 < rows / 2 := by omega
  have hC : 0 < cols / 2 := by omega
  refine ⟨_, _, _, _, hd, shape_tabulate _ _ _,
    shape_tabulate _ _ _, shape_tabulate _ _ _,
    shape_tabulate _ _ _, ?_⟩
  rw [DWTSteganography.idwt2D_spec _ _ _ _ (rows / 2) (cols / 2) hR
    (DWTSteganography.tabulate_length _ _)
    (by rw [DWTSteganography.getD_tabulate _ _ hR, DWTSteganography.tabulate_length])
    (fun i hi j hj => ⟨DWTSteganography.Mat.inRange_tabulate _ hi hj,
      DWTSteganography.Mat.inRange_tabulate _ hi hj,
      DWTSteganography.Mat.inRange_tabulate _ hi hj,
      DWTSteganography.Mat.inRange_tabulate _ hi hj⟩)]
  conv_rhs => rw [hm]
  rw [show rows / 2 * 2 = rows by omega, show cols / 2 * 2 = cols by omega]
  congr 1
  apply DWTSteganography.tabulate_congr
  intro r hr'
  apply DWTSteganography.tabulate_congr
  intro c hc'
  exact synth_tabulate (rows / 2) (cols / 2) (fun i j => m.get i j) r c
    (by omega) (by omega)

/-- Witness of C27 on the 2×2 matrix with rows `0, 1` and `0, 0`. -/
theorem haar2D_invertibility_witness :
    DWTSteganography.cellMatrix.shape 2 2 ∧ 0 < 2 ∧ 2 % 2 = 0 ∧
      ∃ ll lh hl hh, DWTSteganography.dwt2D DWTSteganography.cellMatrix = some (ll, lh, hl, hh) ∧
        ll.shape (2 / 2) (2 / 2) ∧ lh.shape (2 / 2) (2 / 2) ∧
        hl.shape (2 / 2) (2 / 2) ∧ hh.shape (2 / 2) (2 / 2) ∧
        DWTSteganography.idwt2D ll lh hl hh = some DWTSteganography.cellMatrix :=
  ⟨⟨rfl, by simp [DWTSteganography.cellMatrix]⟩, by decide, by decide,
    haar2D_invertibility DWTSteganography.cellMatrix 2 2
      ⟨rfl, by simp [DWTSteganography.cellMatrix]⟩ (by decide) (by decide) (by decide)
      (by decide)⟩

/-- C22, amended. Subband convention of the code: for a matrix with at least one row and an
even number of columns, so for every matrix with even positive dimensions, and every 2×2 cell `a = m[2i][2j]`, `b = m[2i][2j+1]`, `c = m[2i+1][2j]`, `d = m[2i+1][2j+1]`,
`dwt2D` returns `LL = (a+b+c+d)/2`, `LH = (a-b+c-d)/2` as its second matrix,
`HL = (a+b-c-d)/2` as its third matrix, and `HH = (a-b-c+d)/2`. -/
theorem dwt2D_subbands (m : DWTSteganography.Mat) (rows cols : Nat)
    (hs : m.shape rows cols) (hr : 0 < rows) (hce : cols % 2 = 0) :
    ∃ ll lh hl hh, DWTSteganography.dwt2D m = some (ll, lh, hl, hh) ∧
      ∀ i, i < rows / 2 → ∀ j, j < cols / 2 →
        ll.get i j = (m.get (2 * i) (2 * j) + m.get (2 * i) (2 * j + 1)
          + m.get (2 * i + 1) (2 * j) + m.get (2 * i + 1) (2 * j + 1)) / 2 ∧
        lh.get i j = (m.get (2 * i) (2 * j) - m.get (2 * i) (2 * j + 1)
          + m.get (2 * i + 1) (2 * j) - m.get (2 * i + 1) (2 * j + 1)) / 2 ∧
        hl.get i j = (m.get (2 * i) (2 * j) + m.get (2 * i) (2 * j + 1)
          - m.get (2 * i + 1) (2 * j) - m.get (2 * i + 1) (2 * j + 1)) / 2 ∧
        hh.get i j = (m.get (2 * i) (2 * j) - m.get (2 * i) (2 * j + 1)
          - m.get (2 * i + 1) (2 * j) + m.get (2 * i + 1) (2 * j + 1)) / 2 := by
  have hm := DWTSteganography.Mat.eq_tabulate m rows cols hs
  have hd := DWTSteganography.dwt2D_tabulate rows cols (fun i j => m.get i j) hr hce
  rw [← hm] at hd
  refine ⟨_, _, _, _, hd, ?_⟩
  intro i hi j hj
  exact ⟨DWTSteganography.Mat.get_tabulate _ hi hj, DWTSteganography.Mat.get_tabulate _ hi hj,
    DWTSteganography.Mat.get_tabulate _ hi hj, DWTSteganography.Mat.get_tabulate _ hi hj⟩

/-- Witness of C22 (amended) on the 2×2 matrix with rows `0, 1` and `0, 0`. -/
theorem dwt2D_subbands_witness :
    DWTSteganography.cellMatrix.shape 2 2 ∧ 0 < 2 ∧ 2 % 2 = 0 ∧
      ∃ ll lh hl hh, DWTSteganography.dwt2D DWTSteganography.cellMatrix = some (ll, lh, hl, hh) ∧
        ∀ i, i < 2 / 2 → ∀ j, j < 2 / 2 →
          ll.get i j = (DWTSteganography.cellMatrix.get (2 * i) (2 * j)
            + DWTSteganography.cellMatrix.get (2 * i) (2 * j + 1)
            + DWTSteganography.cellMatrix.get (2 * i + 1) (2 * j)
            + DWTSteganography.cellMatrix.get (2 * i + 1) (2 * j + 1)) / 2 ∧
          lh.get i j = (DWTSteganography.cellMatrix.get (2 * i) (2 * j)
            - DWTSteganography.cellMatrix.get (2 * i) (2 * j + 1)
            + DWTSteganography.cellMatrix.get (2 * i + 1) (2 * j)
            - DWTSteganography.cellMatrix.get (2 * i + 1) (2 * j + 1)) / 2 ∧
          hl.get i j = (DWTSteganography.cellMatrix.get (2 * i) (2 * j)
            + DWTSteganography.cellMatrix.get (2 * i) (2 * j + 1)
            - DWTSteganography.cellMatrix.get (2 * i + 1) (2 * j)
            - DWTSteganography.cellMatrix.get (2 * i + 1) (2 * j + 1)) / 2 ∧
          hh.get i j = (DWTSteganography.cellMatrix.get (2 * i) (2 * j)
            - DWTSteganography.cellMatrix.get (2 * i) (2 * j + 1)
            - DWTSteganography.cellMatrix.get (2 * i + 1) (2 * j)
            + DWTSteganography.cellMatrix.get (2 * i + 1) (2 * j + 1)) / 2 :=
  ⟨⟨rfl, by simp [DWTSteganography.cellMatrix]⟩, by decide, by decide,
    dwt2D_subbands DWTSteganography.cellMatrix 2 2
      ⟨rfl, by simp [DWTSteganography.cellMatrix]⟩ (by decide) (by decide)⟩

open DWTSteganography in
/-- C22, counterexample. On the 2×2 matrix with `a = 0`, `b = 1`, `c = 0`, `d = 0` the third
matrix `dwt2D` returns, the one `EmbedText` and `ExtractText` signal in, holds
`(a+b-c-d)/2 = 1/2`, not the `(a-b+c-d)/2 = -1/2` of the claim; the second matrix holds
`-1/2`. -/
theorem dwt2D_third_subband :
    ∃ ll lh hl hh, DWTSteganography.dwt2D DWTSteganography.cellMatrix = some (ll, lh, hl, hh) ∧
      hl.get 0 0 = 1 / 2 ∧ lh.get 0 0 = -1 / 2 ∧
      (DWTSteganography.cellMatrix.get 0 0 - DWTSteganography.cellMatrix.get 0 1
        + DWTSteganography.cellMatrix.get 1 0 - DWTSteganography.cellMatrix.get 1 1) / 2 = -1 / 2 ∧
      hl.get 0 0 ≠ (DWTSteganography.cellMatrix.get 0 0 - DWTSteganography.cellMatrix.get 0 1
        + DWTSteganography.cellMatrix.get 1 0 - DWTSteganography.cellMatrix.get 1 1) / 2 := by
  have cellMatrix_eq : cellMatrix = tabulate 2 (fun i => tabulate 2 (fun j => if i = 0 ∧ j = 1
      then (1 : ℝ) else 0)) := by
    simp [cellMatrix, tabulate, List.range_succ]
  have hd := DWTSteganography.dwt2D_tabulate 2 2
    (fun i j => if i = 0 ∧ j = 1 then (1 : ℝ) else 0) (by decide) (by decide)
  rw [← cellMatrix_eq] at hd
  have e : (DWTSteganography.cellMatrix.get 0 0 - DWTSteganography.cellMatrix.get 0 1
        + DWTSteganography.cellMatrix.get 1 0 - DWTSteganography.cellMatrix.get 1 1) / 2
      = -1 / 2 := by
    simp [DWTSteganography.cellMatrix, DWTSteganography.Mat.get]
  refine ⟨_, _, _, _, hd, ?_, ?_, e, ?_⟩
  · rw [DWTSteganography.Mat.get_tabulate _ (by decide : 0 < 2 / 2) (by decide : 0 < 2 / 2)]
    norm_num
  · rw [DWTSteganography.Mat.get_tabulate _ (by decide : 0 < 2 / 2) (by decide : 0 < 2 / 2)]
    norm_num
  · rw [e, DWTSteganography.Mat.get_tabulate _ (by decide : 0 < 2 / 2) (by decide : 0 < 2 / 2)]
    norm_num

/-! ### The DCT coefficients of an embedded block -/

namespace DCTSteganography

/-- The basis vectors of two frequencies are orthogonal over the samples. -/
theorem orth_col (u v : Fin 8) :
    ∑ x : Fin 8, coef u * coef v * (basis x u * basis x v) = if u = v then 4 else 0 := by
  have h1 : (Matrix.of (fun x u : Fin 8 => coef u * basis x u / 2))
      * (Matrix.of (fun x u : Fin 8 => coef u * basis x u / 2)).transpose = 1 := by
    ext x y
    rw [Matrix.mul_apply, Matrix.one_apply]
    simp only [Matrix.transpose_apply, Matrix.of_apply]
    have e : ∀ w : Fin 8, coef w * basis x w / 2 * (coef w * basis y w / 2)
        = (coef w ^ 2 * basis x w * basis y w) / 4 := by
      intro w; ring
    simp only [e]
    rw [← Finset.sum_div, orth]
    split_ifs <;> norm_num
  have h2 := Matrix.mul_eq_one_comm.mp h1
  have h3 := congrFun (congrFun h2 u) v
  rw [Matrix.mul_apply, Matrix.one_apply] at h3
  simp only [Matrix.transpose_apply, Matrix.of_apply] at h3
  have e : ∀ x : Fin 8, coef u * coef v * (basis x u * basis x v)
      = 4 * (coef u * basis x u / 2 * (coef v * basis x v / 2)) := by
    intro x; ring
  simp only [e]
  rw [← Finset.mul_sum, h3]
  split_ifs <;> norm_num

end DCTSteganography

open DCTSteganography in
/-- C25. DCT signalling coefficient: for every 8×8 real block `f` and every bit, with `C'`
the coefficients `dct2D f` whose entry `[4][3]` is replaced by `|c| + 25` for the bit 1 and by
`-(|c| + 25)` otherwise, `dct2D (idct2D C') = C'`: the coefficient `[4][3]` of the unclamped
embedded block has magnitude at least 25 and is positive exactly for the bit 1, and the other
63 coefficients are those of `f`. The block `embedBlock` writes is the clamped shift of
`idct2D C'` for `f` the shifted samples. -/
theorem dct_signalling_coefficient (f : DCTSteganography.Block) (bit : Nat) :
    DCTSteganography.dct2D (DCTSteganography.idct2D
        (DCTSteganography.signal (DCTSteganography.dct2D f) bit))
      = DCTSteganography.signal (DCTSteganography.dct2D f) bit ∧
    DCTSteganography.signal (DCTSteganography.dct2D f) bit 4 3
      = (if bit = 1 then |DCTSteganography.dct2D f 4 3| + 25
          else -(|DCTSteganography.dct2D f 4 3| + 25)) ∧
    25 ≤ |DCTSteganography.dct2D (DCTSteganography.idct2D
        (DCTSteganography.signal (DCTSteganography.dct2D f) bit)) 4 3| ∧
    (DCTSteganography.dct2D (DCTSteganography.idct2D
        (DCTSteganography.signal (DCTSteganography.dct2D f) bit)) 4 3 > 0 ↔ bit = 1) ∧
    (∀ u v : Fin 8, ¬(u = 4 ∧ v = 3) →
      DCTSteganography.dct2D (DCTSteganography.idct2D
        (DCTSteganography.signal (DCTSteganography.dct2D f) bit)) u v
        = DCTSteganography.dct2D f u v) ∧
    DCTSteganography.encodeBlock f bit
      = DCTSteganography.postprocessBlock (DCTSteganography.idct2D
          (DCTSteganography.signal
            (DCTSteganography.dct2D (DCTSteganography.preprocessBlock f)) bit)) := by
  have dct2D_idct2D : ∀ (C : Block) (u v : Fin 8), dct2D (idct2D C) u v = C u v := by
    intro C u v
    unfold idct2D dct2D blockSize
    have step : ∑ x : Fin 8, ∑ y : Fin 8,
          ((2 * ∑ a : Fin 8, ∑ b : Fin 8, coef a * coef b * C a b * basis x a * basis y b)
              / ((8 : Nat) : ℝ)) * basis x u * basis y v
        = ∑ a : Fin 8, ∑ b : Fin 8, C a b / 4
            * ∑ x : Fin 8, ∑ y : Fin 8, coef a * coef b * (basis x a * basis x u)
                * (basis y b * basis y v) := by
      have l : ∀ x y : Fin 8,
          ((2 * ∑ a : Fin 8, ∑ b : Fin 8, coef a * coef b * C a b * basis x a * basis y b)
              / ((8 : Nat) : ℝ)) * basis x u * basis y v
          = ∑ a : Fin 8, ∑ b : Fin 8, C a b / 4 * (coef a * coef b * (basis x a * basis x u)
                * (basis y b * basis y v)) := by
        intro x y
        simp only [Finset.mul_sum, Finset.sum_mul, Finset.sum_div]
        apply Finset.sum_congr rfl
        intro a _
        apply Finset.sum_congr rfl
        intro b _
        push_cast
        ring
      have r : ∀ a b : Fin 8, C a b / 4
            * ∑ x : Fin 8, ∑ y : Fin 8, coef a * coef b * (basis x a * basis x u)
                * (basis y b * basis y v)
          = ∑ x : Fin 8, ∑ y : Fin 8, C a b / 4 * (coef a * coef b * (basis x a * basis x u)
                * (basis y b * basis y v)) := by
        intro a b
        rw [Finset.mul_sum]
        apply Finset.sum_congr rfl
        intro x _
        rw [Finset.mul_sum]
      simp only [l, r]
      exact sum4_swap (fun x y a b => C a b / 4 * (coef a * coef b * (basis x a * basis x u)
                * (basis y b * basis y v)))
    rw [step]
    have key : ∀ a b : Fin 8, coef u * coef v
          * ∑ x : Fin 8, ∑ y : Fin 8, coef a * coef b * (basis x a * basis x u)
                * (basis y b * basis y v)
        = (if a = u then 4 else 0) * (if b = v then 4 else 0) := by
      intro a b
      rw [← orth_col a u, ← orth_col b v, Finset.sum_mul_sum, Finset.mul_sum]
      apply Finset.sum_congr rfl
      intro x _
      rw [Finset.mul_sum]
      apply Finset.sum_congr rfl
      intro y _
      ring
    have e : 2 * coef u * coef v * (∑ a : Fin 8, ∑ b : Fin 8, C a b / 4
            * ∑ x : Fin 8, ∑ y : Fin 8, coef a * coef b * (basis x a * basis x u)
                * (basis y b * basis y v))
        = ∑ a : Fin 8, ∑ b : Fin 8, C a b / 2
            * ((if a = u then 4 else 0) * (if b = v then 4 else 0)) := by
      simp only [Finset.mul_sum]
      apply Finset.sum_congr rfl
      intro a _
      apply Finset.sum_congr rfl
      intro b _
      rw [← key a b]
      simp only [Finset.mul_sum]
      apply Finset.sum_congr rfl
      intro x _
      apply Finset.sum_congr rfl
      intro y _
      ring
    rw [e, Finset.sum_eq_single u, Finset.sum_eq_single v]
    · rw [if_pos rfl, if_pos rfl]
      push_cast
      ring
    · intro b _ hb
      rw [if_neg hb, mul_zero, mul_zero]
    · intro hn
      exact absurd (Finset.mem_univ v) hn
    · intro a _ ha
      apply Finset.sum_eq_zero
      intro b _
      rw [if_neg ha, zero_mul, mul_zero]
    · intro hn
      exact absurd (Finset.mem_univ u) hn
  have hinv : DCTSteganography.dct2D (DCTSteganography.idct2D
        (DCTSteganography.signal (DCTSteganography.dct2D f) bit))
      = DCTSteganography.signal (DCTSteganography.dct2D f) bit := by
    funext u v
    exact dct2D_idct2D _ u v
  have hval : DCTSteganography.signal (DCTSteganography.dct2D f) bit 4 3
      = (if bit = 1 then |DCTSteganography.dct2D f 4 3| + 25
          else -(|DCTSteganography.dct2D f 4 3| + 25)) := by
    unfold DCTSteganography.signal DCTSteganography.setCoef
    by_cases hb : bit = 1
    · simp only [hb, if_true, and_self]
    · simp only [hb, if_false, and_self, if_true]
      ring
  have habs := abs_nonneg (DCTSteganography.dct2D f 4 3)
  refine ⟨hinv, hval, ?_, ?_, ?_, ?_⟩
  · rw [hinv, hval]
    by_cases hb : bit = 1
    · rw [if_pos hb, abs_of_nonneg (by linarith)]
      linarith
    · rw [if_neg hb, abs_neg, abs_of_nonneg (by linarith)]
      linarith
  · rw [hinv, hval]
    by_cases hb : bit = 1
    · rw [if_pos hb]
      exact ⟨fun _ => hb, fun _ => by linarith⟩
    · rw [if_neg hb]
      exact ⟨fun hp => by linarith, fun e => absurd e hb⟩
  · intro u v huv
    rw [hinv]
    unfold DCTSteganography.signal DCTSteganography.setCoef
    by_cases hb : bit = 1
    · simp only [hb, if_true, huv, if_false]
    · simp only [hb, if_false, huv]
  · rfl

open DCTSteganography in
/-- C29. The signalling coefficient ignores the level shift: for every real 8×8 block `b`
and constant `k`, `dct2D (b + k)[4][3] = dct2D b [4][3]`; adding `k` to all 64 samples changes
only the coefficient `[0][0]`, by `8 k`. In particular the shift by `-128` of `EmbedText`
leaves the coefficient `[4][3]` that `ExtractText` reads unchanged. -/
theorem dct_level_shift (b : DCTSteganography.Block) (k : ℝ) :
    DCTSteganography.dct2D (fun i j => b i j + k) 4 3 = DCTSteganography.dct2D b 4 3 ∧
    (∀ u v : Fin 8, ¬(u = 0 ∧ v = 0) →
      DCTSteganography.dct2D (fun i j => b i j + k) u v = DCTSteganography.dct2D b u v) ∧
    DCTSteganography.dct2D (fun i j => b i j + k) 0 0 = DCTSteganography.dct2D b 0 0 + 8 * k ∧
    DCTSteganography.dct2D (DCTSteganography.preprocessBlock b) 4 3
      = DCTSteganography.dct2D b 4 3 := by
  have dct2D_shift : ∀ (b : Block) (k : ℝ) (u v : Fin 8), dct2D (fun i j => b i j + k) u v =
      dct2D b u v + 2 * coef u * coef v * k * ((if u = 0 then 8 else 0) * (if v = 0 then 8 else
      0)) / 8 := by
    intro b k u v
    have basis_total : ∀ (u : Fin 8), ∑ x : Fin 8, basis x u = if u = 0 then 8 else 0 := by
      intro u
      by_cases hu : u = 0
      · subst hu
        simp only [basis_zero, if_true]
        simp
      · rw [if_neg hu]
        have h := orth_col u 0
        rw [if_neg hu] at h
        simp only [basis_zero, mul_one] at h
        rw [← Finset.mul_sum] at h
        have hc : coef u * coef 0 ≠ 0 := by
          rw [coef_succ u (fun e => hu (Fin.ext e))]
          have h0 := coef_zero_sq
          intro e
          rw [one_mul] at e
          rw [e] at h0
          norm_num at h0
        exact (mul_eq_zero.mp h).resolve_left hc
    unfold dct2D blockSize
    rw [← basis_total u, ← basis_total v, Finset.sum_mul_sum]
    have e : ∀ x y : Fin 8, (b x y + k) * basis x u * basis y v
        = b x y * basis x u * basis y v + k * (basis x u * basis y v) := by
      intro x y; ring
    simp only [e, Finset.sum_add_distrib, ← Finset.mul_sum]
    push_cast
    ring
  have hne : ∀ u v : Fin 8, ¬(u = 0 ∧ v = 0) → ∀ c : ℝ,
      DCTSteganography.dct2D (fun i j => b i j + c) u v = DCTSteganography.dct2D b u v := by
    intro u v huv c
    rw [dct2D_shift]
    by_cases hu : u = 0
    · have hv : v ≠ 0 := fun e => huv ⟨hu, e⟩
      rw [if_neg hv]
      ring
    · rw [if_neg hu]
      ring
  refine ⟨hne 4 3 (by decide) k, fun u v huv => hne u v huv k, ?_, ?_⟩
  · rw [dct2D_shift, if_pos rfl]
    have h0 := DCTSteganography.coef_zero_sq
    have e : 2 * DCTSteganography.coef 0 * DCTSteganography.coef 0 * k * (8 * 8) / 8
        = DCTSteganography.coef 0 ^ 2 * (16 * k) := by ring
    rw [e, h0]
    ring
  · have e : DCTSteganography.preprocessBlock b = fun i j => b i j + (-128) := by
      funext i j
      unfold DCTSteganography.preprocessBlock
      ring
    rw [e]
    exact hne 4 3 (by decide) (-128)

/-! ### DWT: inputs of dimension 1 -/

namespace DWTSteganography

end DWTSteganography

open DWTSteganography in
/-- C24, at its failing input. A 1×512 image passes the geometry test of the DWT engine
(`isPowerOfTwo 1` holds) and the capacity test for the empty text (8 bits, 512/64 = 8), yet
`EmbedText` does not return an image: `dwt2D` indexes `lh[i][0]` in a row of length
`cols/2 = 0`, a runtime panic. -/
theorem dwt_column_faults :
    isPowerOfTwo columnImage.w = true ∧ isPowerOfTwo columnImage.h = true ∧
      8 * (([] : Text).length + 1) ≤ (columnImage.w * columnImage.h) / 64 ∧
      DWTSteganography.EmbedText columnImage [] = .fault := by
  have dwt2D_narrow : ∀ (H : Nat) (X : Nat → Nat → ℝ) (hH : 2 ≤ H), dwt2D (tabulate H (fun i =>
      tabulate 1 (X i))) = none := by
    intro H X hH
    unfold dwt2D
    simp only [tabulate_length]
    rw [if_neg (by omega), getD_tabulate _ _ (by omega : 0 < H)]
    simp only [tabulate_length]
    rw [if_neg]
    simp
    omega
  refine ⟨by decide, by decide, by decide, ?_⟩
  have h1 : isPowerOfTwo columnImage.w = true := by decide
  have h2 : isPowerOfTwo columnImage.h = true := by decide
  rw [DWTSteganography.EmbedText_eq, if_neg (by simp [h1, h2]), if_neg (by decide)]
  unfold DWTSteganography.embedBody
  rw [DWTSteganography.imgData_eq]
  have e := dwt2D_narrow columnImage.h
    (fun i j => ((columnImage.At j i).red : ℝ)) (by decide)
  have ew : columnImage.w = 1 := rfl
  rw [ew, e]

/-! ### The DWT engine in rounded arithmetic -/

namespace DWTSteganography

/-- With exact arithmetic the method `EmbedText` in rounded arithmetic is `EmbedText`. -/
theorem EmbedTextF_exact (img : Image) (text : Text) :
    EmbedTextF id (Real.sqrt 2) img text = EmbedText img text := rfl

theorem dwt1DF_getD (rnd : ℝ → ℝ) (sqrt2 : ℝ) (data : Vec) {i : Nat} (h : i < data.length / 2) :
    (dwt1DF rnd sqrt2 data).1.getD i 0
        = haarSum rnd sqrt2 (data.getD (2 * i) 0) (data.getD (2 * i + 1) 0) ∧
      (dwt1DF rnd sqrt2 data).2.getD i 0
        = haarDiff rnd sqrt2 (data.getD (2 * i) 0) (data.getD (2 * i + 1) 0) := by
  unfold dwt1DF
  simp only []
  rw [getD_tabulate _ _ h, getD_tabulate _ _ h]
  exact ⟨rfl, rfl⟩

/-- The four subbands in rounded arithmetic of a rectangular matrix with an even number of
columns, cell by cell. -/
theorem dwt2DF_tabulate (rnd : ℝ → ℝ) (sqrt2 : ℝ) (H W : Nat) (X : Nat → Nat → ℝ) (hH : 0 < H)
    (hW : W % 2 = 0) :
    dwt2DF rnd sqrt2 (tabulate H (fun i => tabulate W (X i)))
      = some
        (tabulate (H / 2) (fun i => tabulate (W / 2) (fun j =>
            haarSum rnd sqrt2 (haarSum rnd sqrt2 (X (2 * i) (2 * j)) (X (2 * i) (2 * j + 1)))
              (haarSum rnd sqrt2 (X (2 * i + 1) (2 * j)) (X (2 * i + 1) (2 * j + 1))))),
         tabulate (H / 2) (fun i => tabulate (W / 2) (fun j =>
            haarSum rnd sqrt2 (haarDiff rnd sqrt2 (X (2 * i) (2 * j)) (X (2 * i) (2 * j + 1)))
              (haarDiff rnd sqrt2 (X (2 * i + 1) (2 * j)) (X (2 * i + 1) (2 * j + 1))))),
         tabulate (H / 2) (fun i => tabulate (W / 2) (fun j =>
            haarDiff rnd sqrt2 (haarSum rnd sqrt2 (X (2 * i) (2 * j)) (X (2 * i) (2 * j + 1)))
              (haarSum rnd sqrt2 (X (2 * i + 1) (2 * j)) (X (2 * i + 1) (2 * j + 1))))),
         tabulate (H / 2) (fun i => tabulate (W / 2) (fun j =>
            haarDiff rnd sqrt2 (haarDiff rnd sqrt2 (X (2 * i) (2 * j)) (X (2 * i) (2 * j + 1)))
              (haarDiff rnd sqrt2 (X (2 * i + 1) (2 * j)) (X (2 * i + 1) (2 * j + 1)))))) := by
  unfold dwt2DF
  simp only [tabulate_length]
  rw [if_neg (by omega)]
  have hrow0 : ((tabulate H (fun i => tabulate W (X i))).getD 0 []).length = W := by
    rw [getD_tabulate _ _ hH, tabulate_length]
  simp only [hrow0]
  have hall : (List.range W).all
      (fun j => decide (j < W / 2) || decide (H / 2 = 0) || decide (j - W / 2 < W / 2)) = true := by
    rw [List.all_eq_true]
    intro j hj
    have := List.mem_range.mp hj
    simp only [Bool.or_eq_true, decide_eq_true_eq]
    omega
  rw [if_pos hall]
  have htemp : ∀ r c, r < H → c < W →
      Mat.get (tabulate H (fun i => tabulate W (fun j =>
        if j < W / 2 then
          (dwt1DF rnd sqrt2 ((tabulate H (fun i => tabulate W (X i))).getD i [])).1.getD j 0
        else
          (dwt1DF rnd sqrt2 ((tabulate H (fun i => tabulate W (X i))).getD i [])).2.getD (j - W / 2) 0)))
        r c
      = if c < W / 2 then haarSum rnd sqrt2 (X r (2 * c)) (X r (2 * c + 1))
        else haarDiff rnd sqrt2 (X r (2 * (c - W / 2))) (X r (2 * (c - W / 2) + 1)) := by
    intro r c hr hc
    rw [Mat.get_tabulate _ hr hc, getD_tabulate _ _ hr]
    by_cases h : c < W / 2
    · rw [if_pos h, if_pos h, (dwt1DF_getD rnd sqrt2 _ (by simpa using h)).1,
        getD_tabulate _ _ (by omega), getD_tabulate _ _ (by omega)]
    · rw [if_neg h, if_neg h, (dwt1DF_getD rnd sqrt2 _ (by simp; omega)).2,
        getD_tabulate _ _ (by omega), getD_tabulate _ _ (by omega)]
  have hcol : ∀ c i, c < W → i < H / 2 →
      ((dwt1DF rnd sqrt2 (tabulate H (fun r => Mat.get (tabulate H (fun i => tabulate W (fun j =>
        if j < W / 2 then
          (dwt1DF rnd sqrt2 ((tabulate H (fun i => tabulate W (X i))).getD i [])).1.getD j 0
        else
          (dwt1DF rnd sqrt2 ((tabulate H (fun i => tabulate W (X i))).getD i [])).2.getD (j - W / 2) 0)))
        r c))).1.getD i 0
        = haarSum rnd sqrt2
          (if c < W / 2 then haarSum rnd sqrt2 (X (2 * i) (2 * c)) (X (2 * i) (2 * c + 1))
            else haarDiff rnd sqrt2 (X (2 * i) (2 * (c - W / 2))) (X (2 * i) (2 * (c - W / 2) + 1)))
          (if c < W / 2 then haarSum rnd sqrt2 (X (2 * i + 1) (2 * c)) (X (2 * i + 1) (2 * c + 1))
            else haarDiff rnd sqrt2 (X (2 * i + 1) (2 * (c - W / 2)))
              (X (2 * i + 1) (2 * (c - W / 2) + 1))))
      ∧
      ((dwt1DF rnd sqrt2 (tabulate H (fun r => Mat.get (tabulate H (fun i => tabulate W (fun j =>
        if j < W / 2 then
          (dwt1DF rnd sqrt2 ((tabulate H (fun i => tabulate W (X i))).getD i [])).1.getD j 0
        else
          (dwt1DF rnd sqrt2 ((tabulate H (fun i => tabulate W (X i))).getD i [])).2.getD (j - W / 2) 0)))
        r c))).2.getD i 0
        = haarDiff rnd sqrt2
          (if c < W / 2 then haarSum rnd sqrt2 (X (2 * i) (2 * c)) (X (2 * i) (2 * c + 1))
            else haarDiff rnd sqrt2 (X (2 * i) (2 * (c - W / 2))) (X (2 * i) (2 * (c - W / 2) + 1)))
          (if c < W / 2 then haarSum rnd sqrt2 (X (2 * i + 1) (2 * c)) (X (2 * i + 1) (2 * c + 1))
            else haarDiff rnd sqrt2 (X (2 * i + 1) (2 * (c - W / 2)))
              (X (2 * i + 1) (2 * (c - W / 2) + 1)))) := by
    intro c i hc hi
    rw [(dwt1DF_getD rnd sqrt2 _ (by simpa using hi)).1, (dwt1DF_getD rnd sqrt2 _ (by simpa using hi)).2,
      getD_tabulate _ _ (by omega), getD_tabulate _ _ (by omega),
      htemp _ _ (by omega) hc, htemp _ _ (by omega) hc]
    exact ⟨rfl, rfl⟩
  congr 1
  refine Prod.ext ?_ (Prod.ext ?_ (Prod.ext ?_ ?_))
  · apply tabulate_congr; intro i hi
    apply tabulate_congr; intro j hj
    rw [(hcol j i (by omega) hi).1, if_pos hj, if_pos hj]
  · apply tabulate_congr; intro i hi
    apply tabulate_congr; intro j hj
    have e : j + W / 2 - W / 2 = j := by omega
    rw [(hcol (j + W / 2) i (by omega) hi).1, if_neg (by omega), if_neg (by omega), e]
  · apply tabulate_congr; intro i hi
    apply tabulate_congr; intro j hj
    rw [(hcol j i (by omega) hi).2, if_pos hj, if_pos hj]
  · apply tabulate_congr; intro i hi
    apply tabulate_congr; intro j hj
    have e : j + W / 2 - W / 2 = j := by omega
    rw [(hcol (j + W / 2) i (by omega) hi).2, if_neg (by omega), if_neg (by omega), e]

theorem idwt1DF_getD (rnd : ℝ → ℝ) (sqrt2 : ℝ) (approx detail : Vec) {k : Nat}
    (h : k < approx.length * 2) :
    (idwt1DF rnd sqrt2 approx detail).getD k 0
      = if k % 2 = 0 then haarSum rnd sqrt2 (approx.getD (k / 2) 0) (detail.getD (k / 2) 0)
        else haarDiff rnd sqrt2 (approx.getD (k / 2) 0) (detail.getD (k / 2) 0) := by
  unfold idwt1DF
  rw [getD_tabulate _ _ h]

theorem idwt2DF_spec (rnd : ℝ → ℝ) (sqrt2 : ℝ) (ll lh hl hh : Mat) (R C : Nat) (hR : 0 < R)
    (hll : ll.length = R) (hC : (ll.getD 0 []).length = C)
    (hin : ∀ i, i < R → ∀ j, j < C → Mat.inRange ll i j = true ∧ Mat.inRange hl i j = true
      ∧ Mat.inRange lh i j = true ∧ Mat.inRange hh i j = true) :
    idwt2DF rnd sqrt2 ll lh hl hh
      = some (tabulate (R * 2) (fun r => tabulate (C * 2) (fun c =>
          synthF rnd sqrt2 ll lh hl hh r c))) := by
  unfold idwt2DF
  rw [if_neg (by omega)]
  simp only [hll, hC, Nat.mul_div_cancel _ (by norm_num : 0 < 2)]
  have hall : (List.range R).all (fun i => (List.range C).all (fun j =>
      Mat.inRange ll i j && Mat.inRange hl i j && Mat.inRange lh i j && Mat.inRange hh i j))
      = true := by
    rw [List.all_eq_true]
    intro i hi
    rw [List.all_eq_true]
    intro j hj
    obtain ⟨h1, h2, h3, h4⟩ := hin i (List.mem_range.mp hi) j (List.mem_range.mp hj)
    simp [h1, h2, h3, h4]
  rw [if_pos hall]
  congr 1
  apply tabulate_congr; intro r hr
  apply tabulate_congr; intro c hc
  have hcol : ∀ (a d : Mat) (j : Nat),
      (idwt1DF rnd sqrt2 (tabulate R (fun i => Mat.get a i j))
        (tabulate R (fun i => Mat.get d i j))).getD r 0
        = if r % 2 = 0 then haarSum rnd sqrt2 (a.get (r / 2) j) (d.get (r / 2) j)
          else haarDiff rnd sqrt2 (a.get (r / 2) j) (d.get (r / 2) j) := by
    intro a d j
    rw [idwt1DF_getD _ _ _ _ (by simp only [tabulate_length]; omega),
      getD_tabulate _ _ (by omega), getD_tabulate _ _ (by omega)]
  rw [getD_tabulate _ _ hr]
  generalize hT : (tabulate (C * 2) (fun j =>
      if j < C then
        (idwt1DF rnd sqrt2 (tabulate R (fun i => Mat.get ll i j))
          (tabulate R (fun i => Mat.get hl i j))).getD r 0
      else
        (idwt1DF rnd sqrt2 (tabulate R (fun i => Mat.get lh i (j - C)))
          (tabulate R (fun i => Mat.get hh i (j - C)))).getD r 0)) = T
  have hTlen : T.length = C * 2 := by rw [← hT, tabulate_length]
  have hA : (T.take C).getD (c / 2) 0
      = if r % 2 = 0 then haarSum rnd sqrt2 (ll.get (r / 2) (c / 2)) (hl.get (r / 2) (c / 2))
        else haarDiff rnd sqrt2 (ll.get (r / 2) (c / 2)) (hl.get (r / 2) (c / 2)) := by
    rw [getD_take _ _ _ _ (by omega), ← hT, getD_tabulate _ _ (by omega), if_pos (by omega), hcol]
  have hD : (T.drop C).getD (c / 2) 0
      = if r % 2 = 0 then haarSum rnd sqrt2 (lh.get (r / 2) (c / 2)) (hh.get (r / 2) (c / 2))
        else haarDiff rnd sqrt2 (lh.get (r / 2) (c / 2)) (hh.get (r / 2) (c / 2)) := by
    have e : C + c / 2 - C = c / 2 := by omega
    rw [getD_drop, ← hT, getD_tabulate _ _ (by omega), if_neg (by omega), e, hcol]
  rw [idwt1DF_getD _ _ _ _ (by simp only [List.length_take, hTlen]; omega), hA, hD]
  rfl

/-- The state of the embedding loop in rounded arithmetic after `n` coefficients: the shape
of `hl` is kept and the coefficients from index `n` on are untouched. -/
theorem embedCoefF_sweep (rnd : ℝ → ℝ) (bits : List Nat) (hl0 : Mat) (R C : Nat) (hC : 0 < C)
    (hin : ∀ i, i < R → ∀ j, j < C → hl0.inRange i j = true) (n : Nat) (hn : n ≤ R * C) :
    (sweep (embedCoefF rnd bits) C ⟨hl0, 0⟩ n).bitIndex = n ∧
    (sweep (embedCoefF rnd bits) C ⟨hl0, 0⟩ n).hl.length = hl0.length ∧
    (∀ i j, (sweep (embedCoefF rnd bits) C ⟨hl0, 0⟩ n).hl.inRange i j = hl0.inRange i j) ∧
    ∀ k, k < R * C → n ≤ k →
      (sweep (embedCoefF rnd bits) C ⟨hl0, 0⟩ n).hl.get (k / C) (k % C)
        = hl0.get (k / C) (k % C) := by
  induction n with
  | zero => exact ⟨rfl, rfl, fun _ _ => rfl, fun k _ _ => by simp [sweep]⟩
  | succ n ih =>
    obtain ⟨hi, hlen, hr, hat⟩ := ih (by omega)
    have hb : n % C < C ∧ n / C < R := (raster_lt hC n).mpr (by omega)
    have hstep : ∀ s : EmbedState, ∃ v, embedCoefF rnd bits (n / C) (n % C) s
        = ⟨s.hl.set (n / C) (n % C) v, s.bitIndex + 1⟩ := by
      intro s
      unfold embedCoefF
      split
      · exact ⟨_, rfl⟩
      · exact ⟨_, rfl⟩
    obtain ⟨v, hv⟩ := hstep (sweep (embedCoefF rnd bits) C ⟨hl0, 0⟩ n)
    rw [sweep_succ, hv]
    refine ⟨by simp [hi], by simpa using hlen, ?_, ?_⟩
    · intro i j
      simp only []
      rw [Mat.inRange_set, hr]
    · intro k hk hnk
      simp only []
      rw [Mat.get_set _ _ _ _ _ _ (by rw [hr]; exact hin _ hb.2 _ hb.1)]
      have : ¬ (k / C = n / C ∧ k % C = n % C) :=
        fun h => (by omega : k ≠ n) ((raster_inj k n).mp ⟨h.2, h.1⟩)
      rw [if_neg this, hat k hk (by omega)]

end DWTSteganography

/-! ### Rounding to nearest and the error of the Haar transform -/

/-- Rounding to nearest: it changes a value by at most the fraction `2 ^ (-53)` of it; for
`2 ^ 52 ≤ |x| * 2 ^ n < 2 ^ 53` and an integer `m` closer than `1/2` to `x * 2 ^ n` the
float64 value nearest to `x` is `m / 2 ^ n`; and zero is kept. -/
theorem rne_spec :
    (∀ x : ℝ, |rne x - x| ≤ |x| / 2 ^ 53) ∧
    (∀ (x : ℝ) (n : ℕ) (m : ℤ), (2 : ℝ) ^ 52 ≤ |x| * 2 ^ n → |x| * 2 ^ n < 2 ^ 53 →
      |x * 2 ^ n - m| < 1 / 2 → rne x = m / 2 ^ n) ∧
    rne 0 = 0 := by
  have roundEven_near : ∀ y : ℝ, |(roundEven y : ℝ) - y| ≤ 1 / 2 := by
    intro y
    have h1 := Int.floor_le y
    have h2 := Int.lt_floor_add_one y
    unfold roundEven
    split_ifs with a b c
    · rw [abs_le]; constructor <;> linarith
    · rw [abs_le]; push_cast; constructor <;> linarith
    · rw [abs_le]; constructor <;> linarith
    · rw [abs_le]; push_cast; constructor <;> linarith

  have roundEven_eq : ∀ (y : ℝ) (m : ℤ), |y - m| < 1 / 2 → roundEven y = m := by
    intro y m h
    rw [abs_lt] at h
    obtain ⟨h1, h2⟩ := h
    by_cases hy : (m : ℝ) ≤ y
    · have hf : ⌊y⌋ = m := by
        rw [Int.floor_eq_iff]
        constructor <;> linarith
      unfold roundEven
      rw [hf, if_pos (by linarith)]
    · have hf : ⌊y⌋ = m - 1 := by
        rw [Int.floor_eq_iff]
        push_cast
        constructor <;> linarith
      unfold roundEven
      rw [hf, if_neg (by push_cast; linarith), if_pos (by push_cast; linarith)]
      ring

  have ulp_pos : ∀ x : ℝ, 0 < ulp x := by
    intro x
    unfold ulp
    positivity
  have rne_error : ∀ x : ℝ, |rne x - x| ≤ |x| / 2 ^ 53 := by
    intro x
    by_cases hx : x = 0
    · subst hx
      have : roundEven (0 / ulp 0) = 0 := roundEven_eq _ 0 (by norm_num)
      unfold rne
      rw [this]
      norm_num
    · have hpos : 0 < |x| := abs_pos.mpr hx
      have hu := ulp_pos x
      have hlog : ((2 : ℕ) : ℝ) ^ Int.log 2 |x| ≤ |x| := Int.zpow_log_le_self (by norm_num) hpos
      have hulp : ulp x * 2 ^ 52 = ((2 : ℕ) : ℝ) ^ Int.log 2 |x| := by
        unfold ulp
        rw [zpow_sub₀ (by norm_num : (2 : ℝ) ≠ 0)]
        have : ((2 : ℝ) ^ (52 : ℤ)) = 2 ^ 52 := by norm_cast
        rw [this]
        push_cast
        field_simp
      have hr := roundEven_near (x / ulp x)
      have e : rne x - x = ((roundEven (x / ulp x) : ℝ) - x / ulp x) * ulp x := by
        unfold rne
        field_simp
      rw [e, abs_mul, abs_of_pos hu]
      have h1 : |(roundEven (x / ulp x) : ℝ) - x / ulp x| * ulp x ≤ 1 / 2 * ulp x :=
        mul_le_mul_of_nonneg_right hr hu.le
      have h2 : 1 / 2 * ulp x = ulp x * 2 ^ 52 / 2 ^ 53 := by ring
      rw [h2, hulp] at h1
      exact h1.trans (div_le_div_of_nonneg_right hlog (by positivity))

  refine ⟨rne_error, ?_, ?_⟩
  · intro x n m h1 h2 h3
    have hn : (0 : ℝ) < 2 ^ n := by positivity
    have hpos : 0 < |x| := by
      by_contra h
      have : |x| = 0 := le_antisymm (not_lt.mp h) (abs_nonneg x)
      rw [this, zero_mul] at h1
      norm_num at h1
    have hlog : Int.log 2 |x| = 52 - (n : ℤ) := by
      apply le_antisymm
      · have : Int.log 2 |x| < 53 - (n : ℤ) := by
          rw [← Int.lt_zpow_iff_log_lt (by norm_num) hpos, zpow_sub₀ (by norm_num)]
          push_cast
          rw [lt_div_iff₀ (by positivity)]
          have : ((2 : ℝ) ^ (53 : ℤ)) = 2 ^ 53 := by norm_cast
          rw [this]
          exact_mod_cast h2
        omega
      · rw [← Int.zpow_le_iff_le_log (by norm_num) hpos, zpow_sub₀ (by norm_num)]
        push_cast
        rw [div_le_iff₀ (by positivity)]
        have : ((2 : ℝ) ^ (52 : ℤ)) = 2 ^ 52 := by norm_cast
        rw [this]
        exact_mod_cast h1
    have hulp : ulp x = 1 / 2 ^ n := by
      unfold ulp
      rw [hlog, show (52 : ℤ) - n - 52 = -(n : ℤ) by ring, zpow_neg, zpow_natCast]
      ring
    unfold rne
    rw [hulp, roundEven_eq (x / (1 / 2 ^ n)) m (by
      rw [div_div_eq_mul_div, div_one]
      exact h3)]
    ring

  · have h := rne_error 0
    rw [abs_zero, zero_div, sub_zero] at h
    exact abs_eq_zero.mp (le_antisymm h (abs_nonneg _))

namespace DWTSteganography

set_option maxHeartbeats 1000000 in
/-- The transform and its inverse in rounded arithmetic return every sample of an untouched
2×2 cell up to `2 ^ (-37)`: each step `(x ± y) / √2` doubles the error of its inputs and
adds at most `2 ^ (-41)`. -/
theorem restored_close (rnd : ℝ → ℝ) (hrnd : ∀ z, |rnd z - z| ≤ |z| / 2 ^ 53) (a b c d : ℝ)
    (ha : 0 ≤ a ∧ a ≤ 255) (hb : 0 ≤ b ∧ b ≤ 255) (hc : 0 ≤ c ∧ c ≤ 255)
    (hd : 0 ≤ d ∧ d ≤ 255) (row col : Nat) :
    |restored rnd (rnd (Real.sqrt 2)) a b c d row col
        - (if row % 2 = 0 then (if col % 2 = 0 then a else b)
            else (if col % 2 = 0 then c else d))| ≤ 1 / 2 ^ 37 := by
  have sqrt2_bounds : (1.41 : ℝ) ≤ Real.sqrt 2 ∧ Real.sqrt 2 ≤ 1.42 := by
    constructor
    · rw [Real.le_sqrt' (by norm_num)]
      norm_num
    · rw [Real.sqrt_le_left (by norm_num)]
      norm_num
  have haar_core : ∀ (w w' e : ℝ), 0 ≤ e → e ≤ 1 → |w' - w| ≤ 2 * e → |w| ≤ 1024 →
      |rnd (rnd w' / rnd (Real.sqrt 2)) - w / Real.sqrt 2| ≤ 2 * e + 1 / 2 ^ 41 := by
    intro w w' e he0 he hw hW
    obtain ⟨r1, r2⟩ := sqrt2_bounds
    generalize Real.sqrt 2 = r at r1 r2 ⊢
    have hs := hrnd r
    have hp := hrnd w'
    generalize rnd r = s at hs ⊢
    generalize rnd w' = p at hp ⊢
    have hq := hrnd (p / s)
    generalize rnd (p / s) = t at hq ⊢
    have hrabs : |r| = r := abs_of_pos (by linarith)
    rw [hrabs] at hs
    rw [abs_le] at hs hw hW
    have hs14 : (1.4 : ℝ) ≤ s := by
      have : r / 2 ^ 53 ≤ 0.01 := by
        rw [div_le_iff₀ (by positivity)]
        norm_num
        linarith
      linarith
    have hspos : 0 < s := by linarith
    have hw' : |w'| ≤ 1026 := by
      rw [abs_le]
      constructor <;> linarith
    have hpw : |p - w| ≤ 2 * e + 1026 / 2 ^ 53 := by
      have h1 : |w'| / 2 ^ 53 ≤ 1026 / 2 ^ 53 := div_le_div_of_nonneg_right hw' (by positivity)
      rw [abs_le] at hp ⊢
      constructor <;> linarith
    have hsr : |s - r| ≤ 1.42 / 2 ^ 53 := by
      have h1 : r / 2 ^ 53 ≤ 1.42 / 2 ^ 53 := div_le_div_of_nonneg_right r2 (by positivity)
      rw [abs_le]
      constructor <;> linarith
    have hsplit : p / s - w / r = (p - w) / s - w * (s - r) / (s * r) := by
      have hr0 : r ≠ 0 := by linarith
      have hs0 : s ≠ 0 := by linarith
      field_simp
      ring
    have hA : |(p - w) / s| ≤ (2 * e + 1026 / 2 ^ 53) / 1.4 := by
      rw [abs_div, abs_of_pos hspos]
      calc |p - w| / s ≤ (2 * e + 1026 / 2 ^ 53) / s :=
            div_le_div_of_nonneg_right hpw hspos.le
        _ ≤ (2 * e + 1026 / 2 ^ 53) / 1.4 :=
            div_le_div_of_nonneg_left (by positivity) (by norm_num) hs14
    have hB : |w * (s - r) / (s * r)| ≤ 1024 * (1.42 / 2 ^ 53) / (1.4 * 1.41) := by
      rw [abs_div, abs_mul, abs_of_pos (by positivity : 0 < s * r)]
      have hwabs : |w| ≤ 1024 := abs_le.mpr hW
      calc |w| * |s - r| / (s * r) ≤ 1024 * (1.42 / 2 ^ 53) / (s * r) :=
            div_le_div_of_nonneg_right
              (mul_le_mul hwabs hsr (abs_nonneg _) (by norm_num)) (by positivity)
        _ ≤ 1024 * (1.42 / 2 ^ 53) / (1.4 * 1.41) :=
            div_le_div_of_nonneg_left (by positivity) (by norm_num)
              (mul_le_mul hs14 r1 (by norm_num) hspos.le)
    have hqt : |p / s - w / r| ≤ (2 * e + 1026 / 2 ^ 53) / 1.4
        + 1024 * (1.42 / 2 ^ 53) / (1.4 * 1.41) := by
      rw [hsplit]
      exact (abs_sub _ _).trans (add_le_add hA hB)
    have hwr : |w / r| ≤ 1024 / 1.41 := by
      rw [abs_div, hrabs]
      calc |w| / r ≤ 1024 / r := div_le_div_of_nonneg_right (abs_le.mpr hW) (by linarith)
        _ ≤ 1024 / 1.41 := div_le_div_of_nonneg_left (by norm_num) (by norm_num) r1
    have hps : |p / s| ≤ 730 := by
      have h1 : |p / s| ≤ |p / s - w / r| + |w / r| := by
        have := abs_add (p / s - w / r) (w / r)
        rw [sub_add_cancel] at this
        exact this
      have h2 : (2 * e + 1026 / 2 ^ 53) / 1.4 + 1024 * (1.42 / 2 ^ 53) / (1.4 * 1.41)
          + 1024 / 1.41 ≤ 730 := by
        have : (2 * e + 1026 / 2 ^ 53) / 1.4 ≤ (2 * 1 + 1026 / 2 ^ 53) / 1.4 :=
          div_le_div_of_nonneg_right (by linarith) (by norm_num)
        norm_num at this ⊢
        linarith
      linarith
    have hfin : |t - p / s| ≤ 730 / 2 ^ 53 :=
      hq.trans (div_le_div_of_nonneg_right hps (by positivity))
    have htot : |t - w / r| ≤ |t - p / s| + |p / s - w / r| := by
      have := abs_add (t - p / s) (p / s - w / r)
      rw [sub_add_sub_cancel] at this
      exact this
    have hnum : 730 / 2 ^ 53 + ((2 * e + 1026 / 2 ^ 53) / 1.4
        + 1024 * (1.42 / 2 ^ 53) / (1.4 * 1.41)) ≤ 2 * e + 1 / 2 ^ 41 := by
      have : (2 * e + 1026 / 2 ^ 53) / 1.4 = 2 * e / 1.4 + 1026 / 2 ^ 53 / 1.4 := by ring
      rw [this]
      have h2 : 2 * e / 1.4 ≤ 2 * e := by
        rw [div_le_iff₀ (by norm_num)]
        linarith
      norm_num
      norm_num at h2
      linarith
    linarith

  have haar_stage : ∀ (x y x' y' e : ℝ), 0 ≤ e → e ≤ 1 → |x' - x| ≤ e → |y' - y| ≤ e →
      |x| ≤ 512 → |y| ≤ 512 →
      |haarSum rnd (rnd (Real.sqrt 2)) x' y' - (x + y) / Real.sqrt 2| ≤ 2 * e + 1 / 2 ^ 41 ∧
        |haarDiff rnd (rnd (Real.sqrt 2)) x' y' - (x - y) / Real.sqrt 2|
          ≤ 2 * e + 1 / 2 ^ 41 := by
    intro x y x' y' e he0 he hx hy hX hY
    rw [abs_le] at hx hy hX hY
    constructor
    · apply haar_core _ _ e he0 he
      · rw [abs_le]; constructor <;> linarith
      · rw [abs_le]; constructor <;> linarith
    · apply haar_core _ _ e he0 he
      · rw [abs_le]; constructor <;> linarith
      · rw [abs_le]; constructor <;> linarith

  have abs_div_sqrt2_le : ∀ (p M : ℝ), |p| ≤ M → |p / Real.sqrt 2| ≤ M := by
    intro p M h
    have r1 := sqrt2_bounds.1
    rw [abs_div, abs_of_pos (by linarith : (0 : ℝ) < Real.sqrt 2)]
    calc |p| / Real.sqrt 2 ≤ |p| / 1 :=
          div_le_div_of_nonneg_left (abs_nonneg p) (by norm_num) (by linarith)
      _ ≤ M := by rw [div_one]; exact h

  have pair_sqrt2 : ∀ (p q : ℝ),
      (p / Real.sqrt 2 + q / Real.sqrt 2) / Real.sqrt 2 = (p + q) / 2 ∧
        (p / Real.sqrt 2 - q / Real.sqrt 2) / Real.sqrt 2 = (p - q) / 2 := by
    intro p q
    constructor
    · rw [← add_div, div_sqrt2_twice]
    · rw [← sub_div, div_sqrt2_twice]

  have bnd : ∀ z : ℝ, -512 ≤ z ∧ z ≤ 512 → |z| ≤ 512 := fun z hz => abs_le.mpr hz
  -- the rows
  have sab := haar_stage a b a b 0 (le_refl _) (by norm_num) (by simp) (by simp)
    (bnd a ⟨by linarith [ha.1], by linarith [ha.2]⟩)
    (bnd b ⟨by linarith [hb.1], by linarith [hb.2]⟩)
  have scd := haar_stage c d c d 0 (le_refl _) (by norm_num) (by simp) (by simp)
    (bnd c ⟨by linarith [hc.1], by linarith [hc.2]⟩)
    (bnd d ⟨by linarith [hd.1], by linarith [hd.2]⟩)
  have k1 : (2 : ℝ) * 0 + 1 / 2 ^ 41 = 1 / 2 ^ 41 := by norm_num
  rw [k1] at sab scd
  -- the columns
  have sS := haar_stage ((a + b) / Real.sqrt 2) ((c + d) / Real.sqrt 2)
    (haarSum rnd (rnd (Real.sqrt 2)) a b) (haarSum rnd (rnd (Real.sqrt 2)) c d) (1 / 2 ^ 41) (by positivity) (by norm_num) sab.1 scd.1
    (abs_div_sqrt2_le _ _ (bnd _ ⟨by linarith [ha.1, hb.1], by linarith [ha.2, hb.2]⟩))
    (abs_div_sqrt2_le _ _ (bnd _ ⟨by linarith [hc.1, hd.1], by linarith [hc.2, hd.2]⟩))
  have sD := haar_stage ((a - b) / Real.sqrt 2) ((c - d) / Real.sqrt 2)
    (haarDiff rnd (rnd (Real.sqrt 2)) a b) (haarDiff rnd (rnd (Real.sqrt 2)) c d) (1 / 2 ^ 41) (by positivity) (by norm_num) sab.2 scd.2
    (abs_div_sqrt2_le _ _ (bnd _ ⟨by linarith [ha.1, hb.2], by linarith [ha.2, hb.1]⟩))
    (abs_div_sqrt2_le _ _ (bnd _ ⟨by linarith [hc.1, hd.2], by linarith [hc.2, hd.1]⟩))
  have k2 : (2 : ℝ) * (1 / 2 ^ 41) + 1 / 2 ^ 41 = 3 / 2 ^ 41 := by norm_num
  rw [k2, (pair_sqrt2 _ _).1, (pair_sqrt2 _ _).2] at sS sD
  -- the columns back
  have tL := haar_stage ((a + b + (c + d)) / 2) ((a + b - (c + d)) / 2)
    (haarSum rnd (rnd (Real.sqrt 2)) (haarSum rnd (rnd (Real.sqrt 2)) a b) (haarSum rnd (rnd (Real.sqrt 2)) c d))
    (haarDiff rnd (rnd (Real.sqrt 2)) (haarSum rnd (rnd (Real.sqrt 2)) a b) (haarSum rnd (rnd (Real.sqrt 2)) c d)) (3 / 2 ^ 41) (by positivity)
    (by norm_num) sS.1 sS.2
    (bnd _ ⟨by linarith [ha.1, hb.1, hc.1, hd.1], by linarith [ha.2, hb.2, hc.2, hd.2]⟩)
    (bnd _ ⟨by linarith [ha.1, hb.1, hc.2, hd.2], by linarith [ha.2, hb.2, hc.1, hd.1]⟩)
  have tR := haar_stage ((a - b + (c - d)) / 2) ((a - b - (c - d)) / 2)
    (haarSum rnd (rnd (Real.sqrt 2)) (haarDiff rnd (rnd (Real.sqrt 2)) a b) (haarDiff rnd (rnd (Real.sqrt 2)) c d))
    (haarDiff rnd (rnd (Real.sqrt 2)) (haarDiff rnd (rnd (Real.sqrt 2)) a b) (haarDiff rnd (rnd (Real.sqrt 2)) c d)) (3 / 2 ^ 41) (by positivity)
    (by norm_num) sD.1 sD.2
    (bnd _ ⟨by linarith [ha.1, hb.2, hc.1, hd.2], by linarith [ha.2, hb.1, hc.2, hd.1]⟩)
    (bnd _ ⟨by linarith [ha.1, hb.2, hc.2, hd.1], by linarith [ha.2, hb.1, hc.1, hd.2]⟩)
  have k3 : (2 : ℝ) * (3 / 2 ^ 41) + 1 / 2 ^ 41 = 7 / 2 ^ 41 := by norm_num
  have e1 : ((a + b + (c + d)) / 2 + (a + b - (c + d)) / 2) = a + b := by ring
  have e2 : ((a + b + (c + d)) / 2 - (a + b - (c + d)) / 2) = c + d := by ring
  have e3 : ((a - b + (c - d)) / 2 + (a - b - (c - d)) / 2) = a - b := by ring
  have e4 : ((a - b + (c - d)) / 2 - (a - b - (c - d)) / 2) = c - d := by ring
  rw [k3, e1, e2] at tL
  rw [k3, e3, e4] at tR
  -- the rows back
  have k4 : (2 : ℝ) * (7 / 2 ^ 41) + 1 / 2 ^ 41 ≤ 1 / 2 ^ 37 := by norm_num
  have f1 : (a + b + (a - b)) / 2 = a := by ring
  have f2 : (a + b - (a - b)) / 2 = b := by ring
  have f3 : (c + d + (c - d)) / 2 = c := by ring
  have f4 : (c + d - (c - d)) / 2 = d := by ring
  unfold restored
  simp only []
  by_cases hr : row % 2 = 0
  · have fin := haar_stage ((a + b) / Real.sqrt 2) ((a - b) / Real.sqrt 2) _ _
      (7 / 2 ^ 41) (by positivity) (by norm_num) tL.1 tR.1
      (abs_div_sqrt2_le _ _ (bnd _ ⟨by linarith [ha.1, hb.1], by linarith [ha.2, hb.2]⟩))
      (abs_div_sqrt2_le _ _ (bnd _ ⟨by linarith [ha.1, hb.2], by linarith [ha.2, hb.1]⟩))
    rw [(pair_sqrt2 _ _).1, (pair_sqrt2 _ _).2, f1, f2] at fin
    rw [if_pos hr, if_pos hr, if_pos hr]
    by_cases hcol : col % 2 = 0
    · rw [if_pos hcol, if_pos hcol]
      exact fin.1.trans k4
    · rw [if_neg hcol, if_neg hcol]
      exact fin.2.trans k4
  · have fin := haar_stage ((c + d) / Real.sqrt 2) ((c - d) / Real.sqrt 2) _ _
      (7 / 2 ^ 41) (by positivity) (by norm_num) tL.2 tR.2
      (abs_div_sqrt2_le _ _ (bnd _ ⟨by linarith [hc.1, hd.1], by linarith [hc.2, hd.2]⟩))
      (abs_div_sqrt2_le _ _ (bnd _ ⟨by linarith [hc.1, hd.2], by linarith [hc.2, hd.1]⟩))
    rw [(pair_sqrt2 _ _).1, (pair_sqrt2 _ _).2, f3, f4] at fin
    rw [if_neg hr, if_neg hr, if_neg hr]
    by_cases hcol : col % 2 = 0
    · rw [if_pos hcol, if_pos hcol]
      exact fin.1.trans k4
    · rw [if_neg hcol, if_neg hcol]
      exact fin.2.trans k4

/-- Truncation of a value next to an integer `n` of `[0, 255]`: the byte is `n` or `n - 1`. -/
theorem clamp_near (z : ℝ) (n : Nat) (hn : n ≤ 255) (h : |z - n| ≤ 1 / 2 ^ 37) :
    (clampToUInt8 z).val = n ∨ (clampToUInt8 z).val + 1 = n := by
  rw [clampToUInt8_val]
  rw [abs_le] at h
  have hk : (1 : ℝ) / 2 ^ 37 < 1 := by norm_num
  have hn' : (n : ℝ) ≤ 255 := by exact_mod_cast hn
  by_cases hz : (n : ℝ) ≤ z
  · left
    have hnn : (0 : ℝ) ≤ n := Nat.cast_nonneg n
    rw [Nat.floor_eq_iff (le_max_left _ _)]
    constructor
    · exact le_max_of_le_right (le_min hn' hz)
    · apply max_lt (by linarith)
      exact lt_of_le_of_lt (min_le_right _ _) (by linarith)
  · rcases Nat.eq_zero_or_pos n with h0 | hpos
    · left
      subst h0
      rw [Nat.floor_eq_iff (le_max_left _ _)]
      push_cast at hz h ⊢
      constructor
      · exact le_max_left _ _
      · apply max_lt (by norm_num)
        exact lt_of_le_of_lt (min_le_right _ _) (by linarith)
    · right
      have h1 : (1 : ℝ) ≤ n := by exact_mod_cast hpos
      have e : ⌊max (0 : ℝ) (min 255 z)⌋₊ = n - 1 := by
        rw [Nat.floor_eq_iff (le_max_left _ _)]
        push_cast [Nat.cast_sub hpos]
        constructor
        · exact le_max_of_le_right (le_min (by linarith) (by linarith))
        · apply max_lt (by linarith)
          exact lt_of_le_of_lt (min_le_right _ _) (by linarith)
      rw [e]
      omega

end DWTSteganography

/-! ### DWT: cells beyond the payload in float64 arithmetic -/

namespace DWTSteganography

/-- What `EmbedText` does after its two tests, in rounded arithmetic: on an image of height 1
or of width 1 it panics (empty subbands: `ll[0]` in `idwt2D`, `lh[i][0]` in `dwt2D`); on
even dimensions it returns an image whose pixels in the cells of the coefficients after the
payload are the truncated values the transform and its inverse return for the cell. -/
theorem embedBodyF_spec (rnd : ℝ → ℝ) (sqrt2 : ℝ) (img : Image) (bits : List Nat) :
    (img.h = 1 → embedBodyF rnd sqrt2 img bits = .fault) ∧
    (img.w = 1 → 2 ≤ img.h → embedBodyF rnd sqrt2 img bits = .fault) ∧
    (img.w % 2 = 0 → img.h % 2 = 0 → 0 < img.w → 0 < img.h →
      bits.length ≤ (img.h / 2) * (img.w / 2) →
      ∃ out, embedBodyF rnd sqrt2 img bits = .ok out ∧
        ∀ x y, x < img.w → y < img.h → bits.length ≤ (y / 2) * (img.w / 2) + x / 2 →
          out.At x y = grey (clampToUInt8 (restored rnd sqrt2
            ((img.At (2 * (x / 2)) (2 * (y / 2))).red : ℝ)
            ((img.At (2 * (x / 2) + 1) (2 * (y / 2))).red : ℝ)
            ((img.At (2 * (x / 2)) (2 * (y / 2) + 1)).red : ℝ)
            ((img.At (2 * (x / 2) + 1) (2 * (y / 2) + 1)).red : ℝ) y x))) := by
  refine ⟨?_, ?_, ?_⟩
  · intro h
    unfold embedBodyF
    rw [imgData_eq, h]
    cases hd : dwt2DF rnd sqrt2
        (tabulate 1 (fun i => tabulate img.w (fun j => ((img.At j i).red : ℝ)))) with
    | none => rfl
    | some q =>
      obtain ⟨ll, lh, hl, hh⟩ := q
      unfold dwt2DF at hd
      simp only [tabulate_length] at hd
      rw [if_neg (by omega)] at hd
      split_ifs at hd
      simp only [Option.some.injEq, Prod.mk.injEq] at hd
      obtain ⟨rfl, -, rfl, -⟩ := hd
      simp only [tabulate, Nat.reduceDiv, List.range_zero, List.map_nil, List.length_nil, forWhile,
        idwt2DF, if_true]

  · intro hw1 hh2
    have hnarrow : ∀ (H : Nat) (X : Nat → Nat → ℝ), 2 ≤ H →
        dwt2DF rnd sqrt2 (tabulate H (fun i => tabulate 1 (X i))) = none := by
      intro H X hH
      unfold dwt2DF
      simp only [tabulate_length]
      rw [if_neg (by omega), getD_tabulate _ _ (by omega : 0 < H)]
      simp only [tabulate_length]
      rw [if_neg]
      simp
      omega

    unfold embedBodyF
    rw [imgData_eq, hw1, hnarrow img.h _ hh2]
  · intro hWe hHe hW hH hL
    have hR : 0 < img.h / 2 := by omega
    have hC : 0 < img.w / 2 := by omega
    unfold embedBodyF
    rw [imgData_eq, dwt2DF_tabulate rnd sqrt2 img.h img.w _ hH hWe]
    simp only []
    generalize hLL : (tabulate (img.h / 2) (fun i => tabulate (img.w / 2) (fun j =>
        haarSum rnd sqrt2
          (haarSum rnd sqrt2 ((img.At (2 * j) (2 * i)).red : ℝ) ((img.At (2 * j + 1) (2 * i)).red : ℝ))
          (haarSum rnd sqrt2 ((img.At (2 * j) (2 * i + 1)).red : ℝ)
            ((img.At (2 * j + 1) (2 * i + 1)).red : ℝ))))) = LL
    generalize hLH : (tabulate (img.h / 2) (fun i => tabulate (img.w / 2) (fun j =>
        haarSum rnd sqrt2
          (haarDiff rnd sqrt2 ((img.At (2 * j) (2 * i)).red : ℝ) ((img.At (2 * j + 1) (2 * i)).red : ℝ))
          (haarDiff rnd sqrt2 ((img.At (2 * j) (2 * i + 1)).red : ℝ)
            ((img.At (2 * j + 1) (2 * i + 1)).red : ℝ))))) = LH
    generalize hHL : (tabulate (img.h / 2) (fun i => tabulate (img.w / 2) (fun j =>
        haarDiff rnd sqrt2
          (haarSum rnd sqrt2 ((img.At (2 * j) (2 * i)).red : ℝ) ((img.At (2 * j + 1) (2 * i)).red : ℝ))
          (haarSum rnd sqrt2 ((img.At (2 * j) (2 * i + 1)).red : ℝ)
            ((img.At (2 * j + 1) (2 * i + 1)).red : ℝ))))) = HL
    generalize hHH : (tabulate (img.h / 2) (fun i => tabulate (img.w / 2) (fun j =>
        haarDiff rnd sqrt2
          (haarDiff rnd sqrt2 ((img.At (2 * j) (2 * i)).red : ℝ) ((img.At (2 * j + 1) (2 * i)).red : ℝ))
          (haarDiff rnd sqrt2 ((img.At (2 * j) (2 * i + 1)).red : ℝ)
            ((img.At (2 * j + 1) (2 * i + 1)).red : ℝ))))) = HH
    have hHLlen : HL.length = img.h / 2 := by rw [← hHL, tabulate_length]
    have hHLrow : (HL.getD 0 []).length = img.w / 2 := by
      rw [← hHL, getD_tabulate _ _ hR, tabulate_length]
    have hHLin : ∀ i, i < img.h / 2 → ∀ j, j < img.w / 2 → Mat.inRange HL i j = true := by
      intro i hi j hj; rw [← hHL]; exact Mat.inRange_tabulate _ hi hj
    rw [hHLlen, hHLrow,
      forWhile_grid (embedCoefF rnd bits) EmbedState.bitIndex (img.w / 2) (img.h / 2) bits.length
        ⟨HL, 0⟩ (fun _ _ _ => rfl) rfl,
      Nat.min_eq_left hL]
    obtain ⟨_, hlen', hin', hget'⟩ :=
      embedCoefF_sweep rnd bits HL (img.h / 2) (img.w / 2) hC hHLin bits.length hL
    generalize (sweep (embedCoefF rnd bits) (img.w / 2) ⟨HL, 0⟩ bits.length).hl = HL'
      at hlen' hin' hget' ⊢
    have hspec := idwt2DF_spec rnd sqrt2 LL LH HL' HH (img.h / 2) (img.w / 2) hR
      (by rw [← hLL, tabulate_length])
      (by rw [← hLL, getD_tabulate _ _ hR, tabulate_length])
      (by
        intro i hi j hj
        refine ⟨?_, ?_, ?_, ?_⟩
        · rw [← hLL]; exact Mat.inRange_tabulate _ hi hj
        · rw [hin']; exact hHLin i hi j hj
        · rw [← hLH]; exact Mat.inRange_tabulate _ hi hj
        · rw [← hHH]; exact Mat.inRange_tabulate _ hi hj)
    have e1 : img.h / 2 * 2 = img.h := by omega
    have e2 : img.w / 2 * 2 = img.w := by omega
    rw [e1, e2] at hspec
    rw [hspec]
    simp only []
    have hall : (List.range img.h).all (fun y => (List.range img.w).all (fun x =>
        Mat.inRange (tabulate img.h (fun r => tabulate img.w (fun c =>
          synthF rnd sqrt2 LL LH HL' HH r c))) y x)) = true := by
      rw [List.all_eq_true]
      intro y hy
      rw [List.all_eq_true]
      intro x hx
      exact Mat.inRange_tabulate _ (List.mem_range.mp hy) (List.mem_range.mp hx)
    rw [if_pos hall]
    obtain ⟨-, -, oat⟩ := outputImage_spec img.w img.h
      (tabulate img.h (fun r => tabulate img.w (fun c => synthF rnd sqrt2 LL LH HL' HH r c)))
    refine ⟨_, rfl, ?_⟩
    intro x y hx hy hk
    rw [oat x y hx hy, Mat.get_tabulate (fun r c => synthF rnd sqrt2 LL LH HL' HH r c) hy hx]
    have hi : y / 2 < img.h / 2 := by omega
    have hj : x / 2 < img.w / 2 := by omega
    have hkRC : (y / 2) * (img.w / 2) + x / 2 < img.h / 2 * (img.w / 2) := by
      calc (y / 2) * (img.w / 2) + x / 2 < (y / 2) * (img.w / 2) + img.w / 2 := by omega
        _ = (y / 2 + 1) * (img.w / 2) := by ring
        _ ≤ img.h / 2 * (img.w / 2) := Nat.mul_le_mul_right _ hi
    have hk' := hget' _ hkRC hk
    rw [show ((y / 2) * (img.w / 2) + x / 2) / (img.w / 2) = y / 2 by
        rw [Nat.add_comm, Nat.add_mul_div_right _ _ hC, Nat.div_eq_of_lt hj, Nat.zero_add],
      show ((y / 2) * (img.w / 2) + x / 2) % (img.w / 2) = x / 2 by
        rw [Nat.add_comm, Nat.add_mul_mod_self_right, Nat.mod_eq_of_lt hj]] at hk'
    congr 2
    unfold synthF restored
    rw [hk', ← hLL, ← hLH, ← hHL, ← hHH]
    simp only [Mat.get_tabulate _ hi hj]

end DWTSteganography

/-- C28, amended. DWT leaves the cells beyond the payload within one of their red value:
in float64 arithmetic, modelled by any rounding `rnd` of relative error at most `2 ^ (-53)`
(round-to-nearest and exact arithmetic are such), when `EmbedText` succeeds every pixel
`(x, y)` in a 2×2 cell whose `HL` index in row-major order, `(y/2) * (w/2) + x/2`, is at
least `8 * (len + 1)` has output `R = G = B = v` and alpha 255, with `v` the input pixel's
red value `r` or `r - 1`. -/
theorem dwt_frame (rnd : ℝ → ℝ) (hrnd : ∀ z, |rnd z - z| ≤ |z| / 2 ^ 53) (img : Image)
    (text : Text) (out : Image)
    (h : DWTSteganography.EmbedTextF rnd (rnd (Real.sqrt 2)) img text = .ok out)
    (x y : Nat) (hx : x < img.w) (hy : y < img.h)
    (hk : 8 * (text.length + 1) ≤ (y / 2) * (img.w / 2) + x / 2) :
    ∃ v : Byte, out.At x y = grey v ∧
      (v.val = (img.At x y).R.val ∨ v.val + 1 = (img.At x y).R.val) := by
  have heq : DWTSteganography.EmbedTextF rnd (rnd (Real.sqrt 2)) img text =
      if (!isPowerOfTwo img.w || !isPowerOfTwo img.h) = true then .geometryError
      else if (textToBits text).length > (img.w * img.h) / 64 then .capacityError
      else DWTSteganography.embedBodyF rnd (rnd (Real.sqrt 2)) img (textToBits text) := rfl
  obtain ⟨hshort, hnarrow, hpixels⟩ :=
    DWTSteganography.embedBodyF_spec rnd (rnd (Real.sqrt 2)) img (textToBits text)
  rw [heq] at h
  split_ifs at h with hg hc
  have hg' : isPowerOfTwo img.w = true ∧ isPowerOfTwo img.h = true := by
    simpa using hg
  have pw := (isPowerOfTwo_nat img.w).mp hg'.1
  have ph := (isPowerOfTwo_nat img.h).mp hg'.2
  have h1 : img.h ≠ 1 := by
    intro e
    rw [hshort e] at h
    cases h
  have hpos : ∀ n : Nat, (∃ k : Nat, n = 2 ^ k) → 0 < n := by
    rintro n ⟨k, rfl⟩
    exact Nat.pos_pow_of_pos k (by norm_num)
  have hh2 : 2 ≤ img.h := by have := hpos _ ph; omega
  have w1 : img.w ≠ 1 := by
    intro e
    rw [hnarrow e hh2] at h
    cases h
  have hw2 : 2 ≤ img.w := by have := hpos _ pw; omega
  have hWe := DWTSteganography.even_of_pow_two pw hw2
  have hHe := DWTSteganography.even_of_pow_two ph hh2
  have hL : (textToBits text).length ≤ (img.h / 2) * (img.w / 2) := by
    have e : img.w * img.h = 4 * ((img.h / 2) * (img.w / 2)) := by
      obtain ⟨a, ha⟩ : ∃ a, img.w = 2 * a := ⟨img.w / 2, by omega⟩
      obtain ⟨b, hb⟩ : ∃ b, img.h = 2 * b := ⟨img.h / 2, by omega⟩
      rw [ha, hb, Nat.mul_div_cancel_left _ (by norm_num : 0 < 2),
        Nat.mul_div_cancel_left _ (by norm_num : 0 < 2)]
      ring
    rw [e] at hc
    generalize (img.h / 2) * (img.w / 2) = p at hc ⊢
    omega
  obtain ⟨out', ho, hp⟩ := hpixels hWe hHe (by omega) (by omega) hL
  rw [ho] at h
  cases h
  refine ⟨_, hp x y hx hy (by rw [textToBits_length]; exact hk), ?_⟩
  have hred : ∀ c : Color, (0 : ℝ) ≤ (c.red : ℝ) ∧ ((c.red : Nat) : ℝ) ≤ 255 :=
    fun c => ⟨Nat.cast_nonneg _, by exact_mod_cast Color.red_le c⟩
  have hclose := DWTSteganography.restored_close rnd hrnd _ _ _ _ (hred (img.At (2 * (x / 2))
    (2 * (y / 2)))) (hred (img.At (2 * (x / 2) + 1) (2 * (y / 2))))
    (hred (img.At (2 * (x / 2)) (2 * (y / 2) + 1)))
    (hred (img.At (2 * (x / 2) + 1) (2 * (y / 2) + 1))) y x
  have htarget : (if y % 2 = 0 then
        (if x % 2 = 0 then ((img.At (2 * (x / 2)) (2 * (y / 2))).red : ℝ)
          else ((img.At (2 * (x / 2) + 1) (2 * (y / 2))).red : ℝ))
      else (if x % 2 = 0 then ((img.At (2 * (x / 2)) (2 * (y / 2) + 1)).red : ℝ)
          else ((img.At (2 * (x / 2) + 1) (2 * (y / 2) + 1)).red : ℝ)))
      = (((img.At x y).R.val : Nat) : ℝ) := by
    rw [← Color.red_eq]
    rcases Nat.mod_two_eq_zero_or_one y with h1 | h1 <;>
      rcases Nat.mod_two_eq_zero_or_one x with h2 | h2
    · rw [if_pos h1, if_pos h2, show 2 * (x / 2) = x by omega, show 2 * (y / 2) = y by omega]
    · rw [if_pos h1, if_neg (by omega), show 2 * (x / 2) + 1 = x by omega,
        show 2 * (y / 2) = y by omega]
    · rw [if_neg (by omega), if_pos h2, show 2 * (x / 2) = x by omega,
        show 2 * (y / 2) + 1 = y by omega]
    · rw [if_neg (by omega), if_neg (by omega), show 2 * (x / 2) + 1 = x by omega,
        show 2 * (y / 2) + 1 = y by omega]
  rw [htarget] at hclose
  exact DWTSteganography.clamp_near _ _ (by have := (img.At x y).R.isLt; omega) hclose

/-- Witness of C28 (amended) in round-to-nearest arithmetic on the 32×32 image and the text
`"H"`, at the pixel `(5, 7)` of the cell with index `3 * 16 + 2 = 50 ≥ 16`. -/
theorem dwt_frame_witness :
    (∀ z, |rne z - z| ≤ |z| / 2 ^ 53) ∧
      ∃ out, DWTSteganography.EmbedTextF rne (rne (Real.sqrt 2)) sampleImage32 [72] = .ok out ∧
        5 < sampleImage32.w ∧ 7 < sampleImage32.h ∧
        8 * (([72] : Text).length + 1) ≤ (7 / 2) * (sampleImage32.w / 2) + 5 / 2 ∧
        ∃ v : Byte, out.At 5 7 = grey v ∧
          (v.val = (sampleImage32.At 5 7).R.val ∨ v.val + 1 = (sampleImage32.At 5 7).R.val) := by
  obtain ⟨out, hout, _⟩ := (DWTSteganography.embedBodyF_spec rne (rne (Real.sqrt 2))
    sampleImage32 (textToBits [72])).2.2 (by decide) (by decide) (by decide) (by decide)
    (by decide)
  have h1 : isPowerOfTwo sampleImage32.w = true := by decide
  have h2 : isPowerOfTwo sampleImage32.h = true := by decide
  have h : DWTSteganography.EmbedTextF rne (rne (Real.sqrt 2)) sampleImage32 [72]
      = .ok out := by
    have heq : DWTSteganography.EmbedTextF rne (rne (Real.sqrt 2)) sampleImage32 [72] =
        if (!isPowerOfTwo sampleImage32.w || !isPowerOfTwo sampleImage32.h) = true then
          .geometryError
        else if (textToBits [72]).length > (sampleImage32.w * sampleImage32.h) / 64 then
          .capacityError
        else DWTSteganography.embedBodyF rne (rne (Real.sqrt 2)) sampleImage32
          (textToBits [72]) := rfl
    rw [heq, if_neg (by simp [h1, h2]), textToBits_length, if_neg (by decide)]
    exact hout
  exact ⟨rne_spec.1, out, h, by decide, by decide, by decide,
    dwt_frame rne rne_spec.1 sampleImage32 [72] out h 5 7 (by decide) (by decide) (by decide)⟩

/-- C28, counterexample. In float64 arithmetic (round to nearest, `math.Sqrt(2)` the float64
value `6369051672525773 / 2 ^ 52`) `EmbedText` of the text `"H"` into the 32×32 image
succeeds and the pixel `(5, 7)`, in the cell with `HL` index `50 ≥ 16` beyond the payload,
has input red value 5 and output `R = G = B = 4`: the inverse transform returns
`5 - 2 ^ (-50)` and `uint8()` truncates. -/
theorem dwt_frame_truncates :
    rne (Real.sqrt 2) = 6369051672525773 / 2 ^ 52 ∧
    ∃ out, DWTSteganography.EmbedTextF rne (rne (Real.sqrt 2)) sampleImage32 [72] = .ok out ∧
      8 * (([72] : Text).length + 1) ≤ (7 / 2) * (sampleImage32.w / 2) + 5 / 2 ∧
      (sampleImage32.At 5 7).R = 5 ∧ out.At 5 7 = grey 4 ∧
      out.At 5 7 ≠ grey (sampleImage32.At 5 7).R := by
  have rne_eq := rne_spec.2.1
  have rne_zero := rne_spec.2.2
  have rne_sqrt2 : rne (Real.sqrt 2) = 6369051672525773 / 4503599627370496 := by
    have h0 : (0 : ℝ) < Real.sqrt 2 := Real.sqrt_pos.mpr (by norm_num)
    have hlo : (6369051672525773 - 1 / 2 : ℝ) / 2 ^ 52 < Real.sqrt 2 := by
      rw [Real.lt_sqrt (by norm_num)]
      norm_num
    have hhi : Real.sqrt 2 < (6369051672525773 + 1 / 2 : ℝ) / 2 ^ 52 := by
      rw [Real.sqrt_lt' (by norm_num)]
      norm_num
    rw [div_lt_iff₀ (by positivity)] at hlo
    rw [lt_div_iff₀ (by positivity)] at hhi
    have h := rne_eq (Real.sqrt 2) 52 6369051672525773
      (by rw [abs_of_pos h0]; norm_num at hlo; linarith)
      (by rw [abs_of_pos h0]; norm_num at hhi; linarith)
      (by rw [abs_lt]; push_cast; constructor <;> linarith)
    rw [h]
    norm_num

  have haarSum_rne : ∀ (x y w p q t : ℝ), x + y = w → rne w = p →
      p / (6369051672525773 / 4503599627370496) = q → rne q = t →
      DWTSteganography.haarSum rne (6369051672525773 / 4503599627370496) x y = t := by
    intro x y w p q t hw hp hq ht
    unfold DWTSteganography.haarSum
    rw [hw, hp, hq, ht]
  have haarDiff_rne : ∀ (x y w p q t : ℝ), x - y = w → rne w = p →
      p / (6369051672525773 / 4503599627370496) = q → rne q = t →
      DWTSteganography.haarDiff rne (6369051672525773 / 4503599627370496) x y = t := by
    intro x y w p q t hw hp hq ht
    unfold DWTSteganography.haarDiff
    rw [hw, hp, hq, ht]
  have h1 : DWTSteganography.haarSum rne (6369051672525773 / 4503599627370496) (4 : ℝ) (5 : ℝ) = (3582591565795747 / 562949953421312 : ℝ) :=
    haarSum_rne (4 : ℝ) (5 : ℝ) (9 : ℝ) (9 : ℝ) (40532396646334464 / 6369051672525773 : ℝ) (3582591565795747 / 562949953421312 : ℝ)
      (by norm_num)
      ((rne_eq (9 : ℝ) 49 (5066549580791808)
        (by rw [abs_of_pos (by norm_num)]; norm_num)
        (by rw [abs_of_pos (by norm_num)]; norm_num)
        (by rw [abs_lt]; constructor <;> norm_num)).trans (by norm_num))
      (by norm_num)
      ((rne_eq (40532396646334464 / 6369051672525773 : ℝ) 50 (7165183131591494)
        (by rw [abs_of_pos (by norm_num)]; norm_num)
        (by rw [abs_of_pos (by norm_num)]; norm_num)
        (by rw [abs_lt]; constructor <;> norm_num)).trans (by norm_num))
  have h2 : DWTSteganography.haarDiff rne (6369051672525773 / 4503599627370496) (4 : ℝ) (5 : ℝ) = (-1592262918131443 / 2251799813685248 : ℝ) :=
    haarDiff_rne (4 : ℝ) (5 : ℝ) (-1 : ℝ) (-1 : ℝ) (-4503599627370496 / 6369051672525773 : ℝ) (-1592262918131443 / 2251799813685248 : ℝ)
      (by norm_num)
      ((rne_eq (-1 : ℝ) 52 (-4503599627370496)
        (by rw [abs_of_neg (by norm_num)]; norm_num)
        (by rw [abs_of_neg (by norm_num)]; norm_num)
        (by rw [abs_lt]; constructor <;> norm_num)).trans (by norm_num))
      (by norm_num)
      ((rne_eq (-4503599627370496 / 6369051672525773 : ℝ) 53 (-6369051672525772)
        (by rw [abs_of_neg (by norm_num)]; norm_num)
        (by rw [abs_of_neg (by norm_num)]; norm_num)
        (by rw [abs_lt]; constructor <;> norm_num)).trans (by norm_num))
  have h3 : DWTSteganography.haarSum rne (6369051672525773 / 4503599627370496) (3582591565795747 / 562949953421312 : ℝ) (3582591565795747 / 562949953421312 : ℝ) = (9 : ℝ) :=
    haarSum_rne (3582591565795747 / 562949953421312 : ℝ) (3582591565795747 / 562949953421312 : ℝ) (3582591565795747 / 281474976710656 : ℝ) (3582591565795747 / 281474976710656 : ℝ) (57321465052731952 / 6369051672525773 : ℝ) (9 : ℝ)
      (by norm_num)
      ((rne_eq (3582591565795747 / 281474976710656 : ℝ) 49 (7165183131591494)
        (by rw [abs_of_pos (by norm_num)]; norm_num)
        (by rw [abs_of_pos (by norm_num)]; norm_num)
        (by rw [abs_lt]; constructor <;> norm_num)).trans (by norm_num))
      (by norm_num)
      ((rne_eq (57321465052731952 / 6369051672525773 : ℝ) 49 (5066549580791808)
        (by rw [abs_of_pos (by norm_num)]; norm_num)
        (by rw [abs_of_pos (by norm_num)]; norm_num)
        (by rw [abs_lt]; constructor <;> norm_num)).trans (by norm_num))
  have h4 : DWTSteganography.haarDiff rne (6369051672525773 / 4503599627370496) (3582591565795747 / 562949953421312 : ℝ) (3582591565795747 / 562949953421312 : ℝ) = (0 : ℝ) :=
    haarDiff_rne (3582591565795747 / 562949953421312 : ℝ) (3582591565795747 / 562949953421312 : ℝ) (0 : ℝ) (0 : ℝ) (0 : ℝ) (0 : ℝ)
      (by norm_num)
      rne_zero
      (by norm_num)
      rne_zero
  have h5 : DWTSteganography.haarSum rne (6369051672525773 / 4503599627370496) (-1592262918131443 / 2251799813685248 : ℝ) (-1592262918131443 / 2251799813685248 : ℝ) = (-9007199254740991 / 9007199254740992 : ℝ) :=
    haarSum_rne (-1592262918131443 / 2251799813685248 : ℝ) (-1592262918131443 / 2251799813685248 : ℝ) (-1592262918131443 / 1125899906842624 : ℝ) (-1592262918131443 / 1125899906842624 : ℝ) (-6369051672525772 / 6369051672525773 : ℝ) (-9007199254740991 / 9007199254740992 : ℝ)
      (by norm_num)
      ((rne_eq (-1592262918131443 / 1125899906842624 : ℝ) 52 (-6369051672525772)
        (by rw [abs_of_neg (by norm_num)]; norm_num)
        (by rw [abs_of_neg (by norm_num)]; norm_num)
        (by rw [abs_lt]; constructor <;> norm_num)).trans (by norm_num))
      (by norm_num)
      ((rne_eq (-6369051672525772 / 6369051672525773 : ℝ) 53 (-9007199254740991)
        (by rw [abs_of_neg (by norm_num)]; norm_num)
        (by rw [abs_of_neg (by norm_num)]; norm_num)
        (by rw [abs_lt]; constructor <;> norm_num)).trans (by norm_num))
  have h6 : DWTSteganography.haarDiff rne (6369051672525773 / 4503599627370496) (-1592262918131443 / 2251799813685248 : ℝ) (-1592262918131443 / 2251799813685248 : ℝ) = (0 : ℝ) :=
    haarDiff_rne (-1592262918131443 / 2251799813685248 : ℝ) (-1592262918131443 / 2251799813685248 : ℝ) (0 : ℝ) (0 : ℝ) (0 : ℝ) (0 : ℝ)
      (by norm_num)
      rne_zero
      (by norm_num)
      rne_zero
  have h7 : DWTSteganography.haarDiff rne (6369051672525773 / 4503599627370496) (9 : ℝ) (0 : ℝ) = (3582591565795747 / 562949953421312 : ℝ) :=
    haarDiff_rne (9 : ℝ) (0 : ℝ) (9 : ℝ) (9 : ℝ) (40532396646334464 / 6369051672525773 : ℝ) (3582591565795747 / 562949953421312 : ℝ)
      (by norm_num)
      ((rne_eq (9 : ℝ) 49 (5066549580791808)
        (by rw [abs_of_pos (by norm_num)]; norm_num)
        (by rw [abs_of_pos (by norm_num)]; norm_num)
        (by rw [abs_lt]; constructor <;> norm_num)).trans (by norm_num))
      (by norm_num)
      ((rne_eq (40532396646334464 / 6369051672525773 : ℝ) 50 (7165183131591494)
        (by rw [abs_of_pos (by norm_num)]; norm_num)
        (by rw [abs_of_pos (by norm_num)]; norm_num)
        (by rw [abs_lt]; constructor <;> norm_num)).trans (by norm_num))
  have h8 : DWTSteganography.haarDiff rne (6369051672525773 / 4503599627370496) (-9007199254740991 / 9007199254740992 : ℝ) (0 : ℝ) = (-6369051672525771 / 9007199254740992 : ℝ) :=
    haarDiff_rne (-9007199254740991 / 9007199254740992 : ℝ) (0 : ℝ) (-9007199254740991 / 9007199254740992 : ℝ) (-9007199254740991 / 9007199254740992 : ℝ) (-9007199254740991 / 12738103345051546 : ℝ) (-6369051672525771 / 9007199254740992 : ℝ)
      (by norm_num)
      ((rne_eq (-9007199254740991 / 9007199254740992 : ℝ) 53 (-9007199254740991)
        (by rw [abs_of_neg (by norm_num)]; norm_num)
        (by rw [abs_of_neg (by norm_num)]; norm_num)
        (by rw [abs_lt]; constructor <;> norm_num)).trans (by norm_num))
      (by norm_num)
      ((rne_eq (-9007199254740991 / 12738103345051546 : ℝ) 53 (-6369051672525771)
        (by rw [abs_of_neg (by norm_num)]; norm_num)
        (by rw [abs_of_neg (by norm_num)]; norm_num)
        (by rw [abs_lt]; constructor <;> norm_num)).trans (by norm_num))
  have h9 : DWTSteganography.haarDiff rne (6369051672525773 / 4503599627370496) (3582591565795747 / 562949953421312 : ℝ) (-6369051672525771 / 9007199254740992 : ℝ) = (5629499534213119 / 1125899906842624 : ℝ) :=
    haarDiff_rne (3582591565795747 / 562949953421312 : ℝ) (-6369051672525771 / 9007199254740992 : ℝ) (63690516725257723 / 9007199254740992 : ℝ) (7961314590657215 / 1125899906842624 : ℝ) (31845258362628860 / 6369051672525773 : ℝ) (5629499534213119 / 1125899906842624 : ℝ)
      (by norm_num)
      ((rne_eq (63690516725257723 / 9007199254740992 : ℝ) 50 (7961314590657215)
        (by rw [abs_of_pos (by norm_num)]; norm_num)
        (by rw [abs_of_pos (by norm_num)]; norm_num)
        (by rw [abs_lt]; constructor <;> norm_num)).trans (by norm_num))
      (by norm_num)
      ((rne_eq (31845258362628860 / 6369051672525773 : ℝ) 50 (5629499534213119)
        (by rw [abs_of_pos (by norm_num)]; norm_num)
        (by rw [abs_of_pos (by norm_num)]; norm_num)
        (by rw [abs_lt]; constructor <;> norm_num)).trans (by norm_num))
  have hres : DWTSteganography.restored rne (6369051672525773 / 4503599627370496)
      4 5 4 5 7 5 = 5629499534213119 / 1125899906842624 := by
    unfold DWTSteganography.restored
    simp only []
    rw [if_neg (by decide), if_neg (by decide), if_neg (by decide), h1, h2, h3, h4, h5, h6, h7, h8, h9]
  refine ⟨by rw [rne_sqrt2]; norm_num, ?_⟩
  obtain ⟨out, hout, hp⟩ := (DWTSteganography.embedBodyF_spec rne (rne (Real.sqrt 2))
    sampleImage32 (textToBits [72])).2.2 (by decide) (by decide) (by decide) (by decide)
    (by decide)
  have h1 : isPowerOfTwo sampleImage32.w = true := by decide
  have h2 : isPowerOfTwo sampleImage32.h = true := by decide
  have h : DWTSteganography.EmbedTextF rne (rne (Real.sqrt 2)) sampleImage32 [72]
      = .ok out := by
    have heq : DWTSteganography.EmbedTextF rne (rne (Real.sqrt 2)) sampleImage32 [72] =
        if (!isPowerOfTwo sampleImage32.w || !isPowerOfTwo sampleImage32.h) = true then
          .geometryError
        else if (textToBits [72]).length > (sampleImage32.w * sampleImage32.h) / 64 then
          .capacityError
        else DWTSteganography.embedBodyF rne (rne (Real.sqrt 2)) sampleImage32
          (textToBits [72]) := rfl
    rw [heq, if_neg (by simp [h1, h2]), textToBits_length, if_neg (by decide)]
    exact hout
  have hpix := hp 5 7 (by decide) (by decide) (by decide)
  have r1 : (sampleImage32.At (2 * (5 / 2)) (2 * (7 / 2))).red = 4 := by decide
  have r2 : (sampleImage32.At (2 * (5 / 2) + 1) (2 * (7 / 2))).red = 5 := by decide
  have r3 : (sampleImage32.At (2 * (5 / 2)) (2 * (7 / 2) + 1)).red = 4 := by decide
  have r4 : (sampleImage32.At (2 * (5 / 2) + 1) (2 * (7 / 2) + 1)).red = 5 := by decide
  rw [r1, r2, r3, r4, rne_sqrt2] at hpix
  have hval : DWTSteganography.clampToUInt8
      (DWTSteganography.restored rne (6369051672525773 / 4503599627370496) ((4 : Nat) : ℝ)
        ((5 : Nat) : ℝ) ((4 : Nat) : ℝ) ((5 : Nat) : ℝ) 7 5) = 4 := by
    push_cast
    rw [hres]
    apply Fin.ext
    rw [DWTSteganography.clampToUInt8_val, min_eq_right (by norm_num),
      max_eq_right (by norm_num)]
    show ⌊(5629499534213119 / 1125899906842624 : ℝ)⌋₊ = 4
    rw [Nat.floor_eq_iff (by norm_num)]
    constructor <;> norm_num
  rw [hval] at hpix
  have hR : (sampleImage32.At 5 7).R = 5 := by decide
  refine ⟨out, h, by decide, hR, hpix, ?_⟩
  rw [hpix, hR]
  decide

/-! ### DCT extraction semantics -/

set_option maxRecDepth 100000 in
theorem byteBits_bools (c0 c1 c2 c3 c4 c5 c6 c7 : Bool) :
    byteBits (toUInt8 (msbValue [c0.toNat, c1.toNat, c2.toNat, c3.toNat, c4.toNat, c5.toNat,
        c6.toNat, c7.toNat]))
      = [c0.toNat, c1.toNat, c2.toNat, c3.toNat, c4.toNat, c5.toNat, c6.toNat, c7.toNat] := by
  revert c0 c1 c2 c3 c4 c5 c6 c7
  decide

/-- The bits of the byte read from a group of eight bits are the group. -/
theorem byteBits_msb (b0 b1 b2 b3 b4 b5 b6 b7 : Nat) (h0 : b0 ≤ 1) (h1 : b1 ≤ 1) (h2 : b2 ≤ 1)
    (h3 : b3 ≤ 1) (h4 : b4 ≤ 1) (h5 : b5 ≤ 1) (h6 : b6 ≤ 1) (h7 : b7 ≤ 1) :
    byteBits (toUInt8 (msbValue [b0, b1, b2, b3, b4, b5, b6, b7]))
      = [b0, b1, b2, b3, b4, b5, b6, b7] := by
  rw [bit_of_bool b0 h0, bit_of_bool b1 h1, bit_of_bool b2 h2, bit_of_bool b3 h3,
    bit_of_bool b4 h4, bit_of_bool b5 h5, bit_of_bool b6 h6, bit_of_bool b7 h7]
  exact byteBits_bools _ _ _ _ _ _ _ _

/-- What the extraction loop of the transform engines returns on a sequence of bits, from a
byte boundary. -/
theorem markerStep_groups (bits : List Nat) (hb : ∀ x ∈ bits, x ≤ 1) :
    ∀ acc : Text,
      (match runFlow markerStep bits (acc.flatMap byteBits) with
        | .ret r => r
        | .next s => bitsToText s)
      = acc ++ ((groups8 bits).map (fun g => toUInt8 (msbValue g))).takeWhile
          (fun b => decide (b ≠ 0)) := by
  induction bits using groups8.induct with
  | case1 b0 b1 b2 b3 b4 b5 b6 b7 rest ih =>
    intro acc
    have hrest : ∀ x ∈ rest, x ≤ 1 := fun x hx => hb x (by simp only [List.mem_cons]; tauto)
    have hg := byteBits_msb b0 b1 b2 b3 b4 b5 b6 b7 (hb _ (by simp)) (hb _ (by simp))
      (hb _ (by simp)) (hb _ (by simp)) (hb _ (by simp)) (hb _ (by simp)) (hb _ (by simp))
      (hb _ (by simp))
    have hl := markerStep_byte acc (toUInt8 (msbValue [b0, b1, b2, b3, b4, b5, b6, b7])) rest
    rw [hg] at hl
    simp only [List.cons_append, List.nil_append] at hl
    rw [hl, groups8, List.map_cons, List.takeWhile_cons]
    by_cases hz : toUInt8 (msbValue [b0, b1, b2, b3, b4, b5, b6, b7]) = 0
    · simp only [hz, if_true, ne_eq, not_true_eq_false, decide_False, Bool.false_eq_true,
        if_false, List.append_nil]
    · simp only [hz, if_false, ne_eq, not_false_eq_true, decide_True, if_true]
      rw [ih hrest, List.append_assoc]
      rfl
  | case2 bits h =>
    intro acc
    have hlen : bits.length < 8 := by
      match bits, h with
      | [], _ => simp
      | [_], _ => simp
      | [_, _], _ => simp
      | [_, _, _], _ => simp
      | [_, _, _, _], _ => simp
      | [_, _, _, _, _], _ => simp
      | [_, _, _, _, _, _], _ => simp
      | [_, _, _, _, _, _, _], _ => simp
      | b0 :: b1 :: b2 :: b3 :: b4 :: b5 :: b6 :: b7 :: rest, h =>
        exact absurd rfl (h _ _ _ _ _ _ _ _ _)
    have hs := markerStep_skip acc bits [] [] (by simp only [List.length_nil]; omega)
    simp only [List.append_nil] at hs
    rw [hs]
    simp only [runFlow]
    rw [bitsToText_flatMap, groups8]
    · have e : bitsToText bits = [] := by
        have := bitsToText_length bits
        rw [Nat.div_eq_of_lt hlen] at this
        exact List.length_eq_zero.mp this
      rw [e]
      rfl
    · exact h

/-- With the exact transform for `T` the method `ExtractTextF` is `ExtractText`. -/
theorem DCTSteganography.ExtractTextF_exact (img : Image) :
    DCTSteganography.ExtractTextF DCTSteganography.dct2D img
      = DCTSteganography.ExtractText img := rfl

/-- C23. DCT extraction semantics: whatever coefficients `T` the method `dct2D` computes in
float64 (the exact ones included), on every image whose dimensions are multiples of 8
`ExtractText` returns without an error the bytes assembled most significant bit first from
the bits of the 8×8 blocks in raster order (1 when the computed coefficient `[4][3]` of the
red samples of the block is positive, else 0), up to but excluding the first zero byte; the
assembled bytes are the `⌊(w/8) * (h/8) / 8⌋` complete ones. -/
theorem dct_extract_semantics (T : DCTSteganography.Block → DCTSteganography.Block)
    (img : Image) (hw : img.w % 8 = 0) (hh : img.h % 8 = 0) :
    DCTSteganography.ExtractTextF T img = .ok (DCTSteganography.blockText T img) ∧
      (DCTSteganography.blockBits T img).length = (img.h / 8) * (img.w / 8) ∧
      (groups8 (DCTSteganography.blockBits T img)).length
        = ((img.h / 8) * (img.w / 8)) / 8 := by
  have hlen : (DCTSteganography.blockBits T img).length = (img.h / 8) * (img.w / 8) := by
    unfold DCTSteganography.blockBits
    rw [List.length_map, List.length_range]
  have hle : ∀ x ∈ DCTSteganography.blockBits T img, x ≤ 1 := by
    intro x hx
    unfold DCTSteganography.blockBits at hx
    rw [List.mem_map] at hx
    obtain ⟨k, _, rfl⟩ := hx
    split_ifs <;> omega
  have hstep : ∀ (y x : Nat) (bits : List Nat),
      DCTSteganography.extractBlockF T img y x bits
        = markerStep (if T (DCTSteganography.getBlock img x y) 4 3 > 0 then 1 else 0) bits := by
    intro y x bits
    unfold DCTSteganography.extractBlockF markerStep
    by_cases h : T (DCTSteganography.getBlock img x y) 4 3 > 0
    · simp only [h, if_true]
    · simp only [h, if_false]
  refine ⟨?_, hlen, by rw [LSB.groups8_length, hlen]⟩
  unfold DCTSteganography.ExtractTextF
  rw [DCTSteganography.blockCount_eq _ hw, DCTSteganography.blockCount_eq _ hh]
  rcases Nat.eq_zero_or_pos (img.w / 8) with hW | hW
  · unfold DCTSteganography.blockText DCTSteganography.blockBits
    rw [hW, LSB.forFlow_empty_rows]
    rfl
  · rw [forFlow_grid _ (img.w / 8) (img.h / 8) hW]
    simp only [hstep]
    have e : runFlow (fun k => markerStep
          (if T (DCTSteganography.getBlock img
              (k % (img.w / 8) * DCTSteganography.blockSize)
              (k / (img.w / 8) * DCTSteganography.blockSize)) 4 3 > 0 then 1 else 0))
        (List.range (img.h / 8 * (img.w / 8))) []
        = runFlow markerStep (DCTSteganography.blockBits T img) [] := by
      unfold DCTSteganography.blockBits
      rw [runFlow_map]
      rfl
    rw [e]
    have h := markerStep_groups (DCTSteganography.blockBits T img) hle []
    rw [List.nil_append, show ([] : Text).flatMap byteBits = [] from rfl] at h
    unfold DCTSteganography.blockText
    rw [← h]
    cases runFlow markerStep (DCTSteganography.blockBits T img) [] <;> rfl

/-- Witness of C23 with the exact transform on the 32×32 image that `EmbedText` returns for
the text `"H"`: the sixteen blocks give sixteen bits, assembled into the byte 72 and a zero
byte, and the text returned is `"H"`. -/
theorem dct_extract_semantics_witness :
    ∃ out, DCTSteganography.EmbedText sampleImage32 [72] = .ok out ∧
      out.w % 8 = 0 ∧ out.h % 8 = 0 ∧
      DCTSteganography.ExtractTextF DCTSteganography.dct2D out
        = .ok (DCTSteganography.blockText DCTSteganography.dct2D out) ∧
      (DCTSteganography.blockBits DCTSteganography.dct2D out).length = 16 ∧
      (groups8 (DCTSteganography.blockBits DCTSteganography.dct2D out)).length = 2 ∧
      DCTSteganography.blockText DCTSteganography.dct2D out = [72] := by
  have core : ∀ (img : Image) (text : Text), img.w % 8 = 0 → img.h % 8 = 0 →
      (∀ b ∈ text, b ≠ 0) → 8 * (text.length + 1) ≤ (img.w * img.h) / 64 →
      ∃ out, DCTSteganography.EmbedText img text = .ok out ∧ out.w = img.w ∧ out.h = img.h
        ∧ DCTSteganography.ExtractText out = .ok text := by
    intro img text hw hh h0 hcap
    obtain ⟨Wb, hWb⟩ : ∃ a, img.w = a * 8 := ⟨img.w / 8, by omega⟩
    obtain ⟨Hb, hHb⟩ : ∃ b, img.h = b * 8 := ⟨img.h / 8, by omega⟩
    have e64 : img.w * img.h = 64 * (Hb * Wb) := by rw [hWb, hHb]; ring
    have hL : (textToBits text).length ≤ Hb * Wb := by
      rw [textToBits_length]
      rw [e64] at hcap
      generalize Hb * Wb = p at hcap ⊢
      omega
    have hWpos : 0 < Wb := by
      rcases Nat.eq_zero_or_pos Wb with h | h
      · rw [h, Nat.mul_zero, textToBits_length] at hL
        omega
      · exact h
    have cW : DCTSteganography.blockCount img.w = Wb := by
      rw [DCTSteganography.blockCount_eq _ hw]; omega
    have cH : DCTSteganography.blockCount img.h = Hb := by
      rw [DCTSteganography.blockCount_eq _ hh]; omega
    obtain ⟨_, ow, oh, hat⟩ := DCTSteganography.embedBlock_sweep img (textToBits text) Wb Hb hWpos
      hWb hHb (Hb * Wb) (le_refl _)
    refine ⟨(sweep (fun by' bx s => DCTSteganography.embedBlock img (textToBits text)
        (by' * DCTSteganography.blockSize) (bx * DCTSteganography.blockSize) s) Wb
        ⟨NewRGBA img.w img.h, 0⟩ (Hb * Wb)).output, ?_, ow, oh, ?_⟩
    · unfold DCTSteganography.EmbedText
      simp only []
      rw [if_neg (by unfold DCTSteganography.blockSize; omega), if_neg (by
        unfold DCTSteganography.blockSize
        rw [textToBits_length, e64]
        rw [textToBits_length] at hL
        generalize Hb * Wb = p at hL ⊢
        omega), forRange_grid, cW, cH]
    · unfold DCTSteganography.ExtractText
      rw [ow, oh, cW, cH, forFlow_grid _ Wb Hb hWpos]
      simp only [DCTSteganography.extractBlock_eq]
      rw [runFlow_marker (Hb * Wb) _ text h0 hL]
      intro k hk
      apply DCTSteganography.encoded_bit img
      · have := textToBits_mem text ((textToBits text).getD k 0) (by
          rw [List.getD_eq_getElem _ _ hk]
          exact List.getElem_mem _)
        exact this
      · intro i j
        exact hat k (by omega) hk i j

  obtain ⟨out, he, ow, oh, hx⟩ := core sampleImage32 [72] (by decide) (by decide) (by simp)
    (by decide)
  have hw : out.w % 8 = 0 := by rw [ow]; decide
  have hh : out.h % 8 = 0 := by rw [oh]; decide
  have h := dct_extract_semantics DCTSteganography.dct2D out hw hh
  have e := h.1
  rw [DCTSteganography.ExtractTextF_exact, hx] at e
  have e2 : DCTSteganography.blockText DCTSteganography.dct2D out = [72] := by
    injection e with e'
    exact e'.symm
  have l1 := h.2.1
  have l2 := h.2.2
  rw [ow, oh] at l1 l2
  exact ⟨out, he, hw, hh, h.1, l1, l2, e2⟩

end Stego
